import Mathlib

/-!
Shallow embedding of the sift/voltar validator engine
(packages `sift` and `voltar` of the repository; the two packages are
parallel revisions of the same engine and the embedding covers the files
present in the sources: `sift/validators/base.py`,
`sift/validators/collections.py`, `voltar/validators/base.py`,
`voltar/validators/primitives.py`, `voltar/validators/objects.py`).

Modelling conventions:
* Python values are modelled by the inductive `Value`; numbers are
  modelled by `Int` only (the float-specific branches of `Number` are
  never exercised by the claims).
* Python `dict`s are modelled as insertion-ordered association lists
  with pairwise-distinct keys; Python `set` iteration, whose order is
  implementation defined, is modelled by a deterministic
  insertion-order traversal (no claim depends on a set's hash order).
* `re`-patterns are modelled as literal strings, with `re.match`
  (anchored at the start) modelled by `String.isPrefixOf`; the claims
  only exercise the dispatch structure around pattern rules, never a
  regex feature.
* The stdlib-backed checks of `String` (`email`, `url`, `uuid`,
  `datetime`, `date`) call external collaborators (the missing
  `email_validator` module, `urllib`, `uuid`, `datetime`) and are
  excluded by the spec's scope section; they are not part of the
  embedded configuration.
* Exceptions become `Except ValidationError`.
-/

namespace Sift

/-- A Python value, as handled by the validator engine. -/
inductive Value where
  | null
  | bool (b : Bool)
  | int (n : Int)
  | str (s : String)
  | list (xs : List Value)
  | tup (xs : List Value)
  | dict (entries : List (String × Value))

mutual
/-- Python `==` on modelled values (used by the uniqueness check of
`List` and the discriminator dispatch of `Union`). Structural; the
cross-type numeric equalities of Python (`True == 1`) and the
order-insensitivity of `dict.__eq__` are not modelled — no claim
exercises them. -/
def Value.beq : Value → Value → Bool
  | .null, .null => true
  | .bool a, .bool b => a == b
  | .int a, .int b => a == b
  | .str a, .str b => a == b
  | .list a, .list b => Value.beqList a b
  | .tup a, .tup b => Value.beqList a b
  | .dict a, .dict b => Value.beqEntries a b
  | _, _ => false

/-- Elementwise `Value.beq` on lists. -/
def Value.beqList : List Value → List Value → Bool
  | [], [] => true
  | x :: xs, y :: ys => Value.beq x y && Value.beqList xs ys
  | _, _ => false

/-- Elementwise `Value.beq` on dict entries. -/
def Value.beqEntries : List (String × Value) → List (String × Value) → Bool
  | [], [] => true
  | (k, x) :: xs, (l, y) :: ys => k == l && Value.beq x y && Value.beqEntries xs ys
  | _, _ => false
end

instance : BEq Value := ⟨Value.beq⟩

/-- Python `type(data).__name__` for the modelled values. -/
def Value.typeName : Value → String
  | .null => "NoneType"
  | .bool _ => "bool"
  | .int _ => "int"
  | .str _ => "str"
  | .list _ => "list"
  | .tup _ => "tuple"
  | .dict _ => "dict"

/-- One segment of an error path: a field name or an index
(`path: list[str | int]` in the sources). -/
inductive PathSeg where
  | field (s : String)
  | idx (n : Nat)
deriving DecidableEq, Repr

/-- Python `str(p)` for a path segment. -/
def PathSeg.render : PathSeg → String
  | .field s => s
  | .idx n => toString n

/-- The sift `ValidationError`: a message and a path
(`sift/validators/base.py`, class `ValidationError`). -/
structure ValidationError where
  message : String
  path : List PathSeg
deriving DecidableEq, Repr

/-- Python `str(e)` for a sift `ValidationError`: the `ValueError`
payload built in `ValidationError.__init__`
(`"path: message"` with a dot-joined path, or the bare message when the
path is empty). -/
def ValidationError.render (e : ValidationError) : String :=
  if e.path.isEmpty then e.message
  else String.intercalate "." (e.path.map PathSeg.render) ++ ": " ++ e.message

/-- A configured default: a plain value or a zero-argument producer
(`_default: Optional[T | Callable[[], T]]`). -/
inductive Dflt where
  | val (v : Value)
  | producer (f : Unit → Value)

/-- `Validator._resolve_default` on a configured default: invoke the
producer if callable, otherwise return the value. -/
def Dflt.resolve : Dflt → Value
  | .val v => v
  | .producer f => f ()

/-- The four contract attributes every validator carries
(`Validator.__init__` in `sift/validators/base.py` and
`voltar/validators/base.py`). A Python default of `None` is
represented by `dflt = none` (the sources test `self._default is not
None`, so a `None` default is indistinguishable from an absent one). -/
structure Core where
  optional : Bool := false
  nullable : Bool := false
  dflt : Option Dflt := none
  customErrorMessage : Option String := none

mutual
/-- The additional-properties policy of a `Dict` validator
(`_additional_properties: bool | Validator`). -/
inductive Addl where
  | allow
  | forbid
  | withV (v : Validator)

/-- A validator configuration tree. Constructors mirror the concrete
classes in the sources; each carries its type-specific configuration
attributes followed by the contract attributes (`Core`).

* `string`: `String` of `voltar/validators/primitives.py` (the
  stdlib-backed `email/url/uuid/datetime/date` flags are out of scope,
  see the module comment).
* `number`: `Number` of `voltar/validators/primitives.py`, over `Int`.
* `boolean`, `anyV`, `nullV`: `Boolean`, `Any`, `Null` of the same file.
* `list`: `List` of `sift/validators/collections.py`.
* `dict`: `Dict` of `sift/validators/collections.py`, extended with the
  `excludedFields` set of the voltar `DictValidator`. Modelled from the
  spec: `voltar/validators/collections.py` is not among the sources;
  its `Dict.exclude` and the excluded-fields handling inside
  `_validate` (used by `Object.exclude`) follow spec §3/§4.6 ("skips
  the named keys entirely — their values pass through unmodified and
  unchecked") and the repository tests in
  `tests/validators/test_objects.py` (excluded keys are not demanded by
  the required-key check and are not treated as additional
  properties). With `excludedFields = []` the branch is exactly the
  sift `Dict`.
* `tuple`: `Tuple` of `sift/validators/collections.py`.
* `union`: `Union` of `sift/validators/collections.py`.
-/
inductive Validator where
  | string (minLength maxLength : Option Nat) (pat : Option String)
      (trim lowercase uppercase nonempty : Bool) (core : Core)
  | number (minValue maxValue : Option Int)
      (integer positive negative : Bool) (multipleOf : Option Int) (core : Core)
  | boolean (truthy : Bool) (core : Core)
  | anyV (core : Core)
  | nullV (core : Core)
  | list (itemValidator : Option Validator) (minLength maxLength : Option Nat)
      (unique nonempty : Bool) (core : Core)
  | dict (schema : List (String × Validator)) (addl : Addl)
      (patternProps : List (String × Validator)) (minProps maxProps : Option Nat)
      (requiredKeys : List String) (excludedFields : List String) (core : Core)
  | tuple (itemValidators : List Validator) (restValidator : Option Validator)
      (minLength : Nat) (maxLength : Option Nat) (core : Core)
  | union (validators : List Validator) (discriminator : Option String)
      (discriminatorMap : List (Value × Validator)) (core : Core)
end

mutual
/-- Node-count measure on validator trees, used as the termination
measure of the `_validate` interpreters. -/
def Validator.msize : Validator → Nat
  | .string _ _ _ _ _ _ _ _ => 1
  | .number _ _ _ _ _ _ _ => 1
  | .boolean _ _ => 1
  | .anyV _ => 1
  | .nullV _ => 1
  | .list i _ _ _ _ _ => 1 + msizeOpt i
  | .dict s a p _ _ _ _ _ => 1 + msizePairs s + msizeAddl a + msizePairs p
  | .tuple i r _ _ _ => 1 + msizeList i + msizeOpt r
  | .union v _ m _ => 1 + msizeList v + msizeVPairs m

/-- Measure of an optional child validator. -/
def msizeOpt : Option Validator → Nat
  | none => 0
  | some v => 1 + Validator.msize v

/-- Measure of a list of child validators. -/
def msizeList : List Validator → Nat
  | [] => 0
  | v :: rest => 1 + Validator.msize v + msizeList rest

/-- Measure of a keyed list of child validators. -/
def msizePairs : List (String × Validator) → Nat
  | [] => 0
  | (_, v) :: rest => 1 + Validator.msize v + msizePairs rest

/-- Measure of a discriminator map. -/
def msizeVPairs : List (Value × Validator) → Nat
  | [] => 0
  | (_, v) :: rest => 1 + Validator.msize v + msizeVPairs rest

/-- Measure of the additional-properties policy. -/
def msizeAddl : Addl → Nat
  | .allow => 0
  | .forbid => 0
  | .withV v => 1 + Validator.msize v
end


/-- The contract attributes of a validator. -/
def Validator.core : Validator → Core
  | .string _ _ _ _ _ _ _ c => c
  | .number _ _ _ _ _ _ c => c
  | .boolean _ c => c
  | .anyV c => c
  | .nullV c => c
  | .list _ _ _ _ _ c => c
  | .dict _ _ _ _ _ _ _ c => c
  | .tuple _ _ _ _ c => c
  | .union _ _ _ c => c

/-- Replace the contract attributes, keeping the type-specific
configuration; this is the effect of `self._clone()` followed by an
assignment to one of the four contract attributes. -/
def Validator.withCore : Validator → Core → Validator
  | .string a b p t l u n _, c => .string a b p t l u n c
  | .number a b i p n m _, c => .number a b i p n m c
  | .boolean t _, c => .boolean t c
  | .anyV _, c => .anyV c
  | .nullV _, c => .nullV c
  | .list i a b u n _, c => .list i a b u n c
  | .dict s ad pp mi ma r e _, c => .dict s ad pp mi ma r e c
  | .tuple i r mi ma _, c => .tuple i r mi ma c
  | .union v d m _, c => .union v d m c

/-- `Validator.optional` (`sift/validators/base.py:51` and
`voltar/validators/base.py:376`): clone, then set `_optional`. -/
def Validator.optionalM (v : Validator) : Validator :=
  v.withCore { v.core with optional := true }

/-- `Validator.nullable` (`sift/validators/base.py:57` and
`voltar/validators/base.py:382`): clone, then set `_nullable`. -/
def Validator.nullableM (v : Validator) : Validator :=
  v.withCore { v.core with nullable := true }

/-- The sift `Validator.default` (`sift/validators/base.py:63`): clone,
then set `_default`. A Python argument of `None` leaves `_default`
unset, hence the `Option`. -/
def Validator.defaultM (v : Validator) (d : Option Dflt) : Validator :=
  v.withCore { v.core with dflt := d }

/-- The voltar `Validator.default` (`voltar/validators/base.py:388`):
clone, set `_default` and additionally set `_optional = True`. -/
def Validator.voltarDefaultM (v : Validator) (d : Option Dflt) : Validator :=
  v.withCore { v.core with dflt := d, optional := true }

/-- `Validator.error` (`sift/validators/base.py:70` and
`voltar/validators/base.py:438`): clone, then set
`_custom_error_message`. -/
def Validator.errorM (v : Validator) (m : String) : Validator :=
  v.withCore { v.core with customErrorMessage := some m }

/-- The `_is_nullable` class property: `False` on the base class,
overridden to `True` by `Any` and `Null`
(`voltar/validators/primitives.py`). -/
def Validator.isNullableClass : Validator → Bool
  | .anyV _ => true
  | .nullV _ => true
  | _ => false

/-- `Validator._get_error_message`: the custom message if configured,
else the given default message. -/
def Core.getErrorMessage (c : Core) (defaultMessage : String) : String :=
  c.customErrorMessage.getD defaultMessage

/-- The sift `Validator._wrap_error` (`sift/validators/base.py:86`):
substitute the custom message, preserving the path. -/
def siftWrapError (customErrorMessage : Option String)
    (e : ValidationError) : ValidationError :=
  match customErrorMessage with
  | none => e
  | some m => { message := m, path := e.path }

/-- Entries of a modelled Python `dict`: insertion-ordered key/value
pairs. -/
abbrev Entries := List (String × Value)

/-- The key list of a dict, in insertion order (`result.keys()`). -/
def Entries.keyList (m : Entries) : List String := m.map Prod.fst

/-- First-match lookup (`result[key]`). -/
def Entries.lookup : Entries → String → Option Value
  | [], _ => none
  | (k, v) :: rest, key => if k == key then some v else Entries.lookup rest key

/-- Python `key in result`. -/
def Entries.hasKey (m : Entries) (key : String) : Bool :=
  (m.lookup key).isSome

/-- `result[key] = val` for a key already present: replace the value in
place, keeping the insertion order (every assignment performed by the
collection validators targets an existing key of the copied dict). -/
def Entries.set : Entries → String → Value → Entries
  | [], _, _ => []
  | (k, v) :: rest, key, val =>
    if k == key then (k, val) :: rest else (k, v) :: Entries.set rest key val

/-- Add a key to a modelled Python `set` of strings (kept as an
insertion-ordered duplicate-free list). -/
def addKey (s : List String) (k : String) : List String :=
  if s.contains k then s else s ++ [k]

/-- Python `re.match(pattern, key)` restricted to literal patterns:
a match anchored at the start is a prefix test (over the character
lists, so that it evaluates). -/
def reMatch (pat key : String) : Bool := pat.data.isPrefixOf key.data

/-- Duplicate detection for the `unique()` constraint of `List`: both
the `set`-based check and the pairwise fallback of the source decide
"some two items are equal". -/
def hasDup : List Value → Bool
  | [] => false
  | x :: xs => xs.any (fun y => Value.beq x y) || hasDup xs

/-- `Value.null` recognizer (Python `data is None`). -/
def Value.isNull : Value → Bool
  | .null => true
  | _ => false

/-- An `if cond: raise ValidationError(self._get_error_message(msg), path)`
guard from the sources. -/
def guardCheck (cond : Bool) (msg : String) (c : Core) (path : List PathSeg) :
    Except ValidationError Unit :=
  if cond then .error ⟨c.getErrorMessage msg, path⟩ else .ok ()

/-- An `if bound is not None and <violated>: raise ...` guard from the
sources, for an optional configured bound. -/
def checkOpt {α : Type} (o : Option α) (viol : α → Bool) (msg : α → String)
    (c : Core) (path : List PathSeg) : Except ValidationError Unit :=
  match o with
  | some n => if viol n then .error ⟨c.getErrorMessage (msg n), path⟩ else .ok ()
  | none => .ok ()

mutual
/-- The synchronous `_validate` dispatch: one branch per concrete
validator class, each transcribed from its `_validate` method
(`voltar/validators/primitives.py` for the leaves,
`sift/validators/collections.py` for the collections). -/
def vval : Validator → Value → List PathSeg → Except ValidationError Value
  | .string minL maxL pat trim lower upper nonempty c, data, path =>
    -- String._validate (voltar/validators/primitives.py:205)
    if data.isNull && c.nullable then .ok .null
    else match data with
      | .str s =>
        let r := if trim then s.trim else s
        let r := if lower then r.toLower else r
        let r := if upper then r.toUpper else r
        do
        guardCheck (nonempty && r == "") "String cannot be empty" c path
        checkOpt minL (fun n => r.length < n)
          (fun n => "String must be at least " ++ toString n ++ " characters long")
          c path
        checkOpt maxL (fun n => r.length > n)
          (fun n => "String must be at most " ++ toString n ++ " characters long")
          c path
        checkOpt pat (fun p => !reMatch p r)
          (fun p => "String does not match pattern: " ++ p) c path
        .ok (.str r)
      | _ =>
        .error ⟨c.getErrorMessage ("Expected string, got " ++ data.typeName), path⟩
  | .number minV maxV _integer positive negative multipleOf c, data, path =>
    -- Number._validate (voltar/validators/primitives.py:406); numbers
    -- are modelled by Int, so the float-only integer-coercion branch
    -- is vacuous and the epsilon fallback of the multiple-of check
    -- never fires.
    if data.isNull && c.nullable then .ok .null
    else match data with
      | .int n => do
        guardCheck (positive && n ≤ 0) "Number must be positive (> 0)" c path
        guardCheck (negative && n ≥ 0) "Number must be negative (< 0)" c path
        checkOpt minV (fun b => n < b)
          (fun b => "Number must be at least " ++ toString b) c path
        checkOpt maxV (fun b => n > b)
          (fun b => "Number must be at most " ++ toString b) c path
        checkOpt multipleOf (fun b => n % b != 0)
          (fun b => "Number must be a multiple of " ++ toString b) c path
        .ok (.int n)
      | _ =>
        .error ⟨c.getErrorMessage ("Expected number, got " ++ data.typeName), path⟩
  | .boolean truthy c, data, path =>
    -- Boolean._validate (voltar/validators/primitives.py:500)
    if data.isNull && c.nullable then .ok .null
    else match data with
      | .bool b => .ok (.bool b)
      | _ =>
        if !truthy then
          .error ⟨c.getErrorMessage ("Expected boolean, got " ++ data.typeName), path⟩
        else match data with
          | .int n => .ok (.bool (n != 0))
          | .str s =>
            let l := s.toLower
            if l == "true" || l == "yes" || l == "1" || l == "y" then .ok (.bool true)
            else if l == "false" || l == "no" || l == "0" || l == "n" then
              .ok (.bool false)
            else .error ⟨c.getErrorMessage ("Cannot convert " ++ data.typeName ++
              " to boolean"), path⟩
          | _ => .error ⟨c.getErrorMessage ("Cannot convert " ++ data.typeName ++
              " to boolean"), path⟩
  | .anyV _, data, _ =>
    -- Any._validate: accept anything unchanged.
    .ok data
  | .nullV c, data, path =>
    -- Null._validate (voltar/validators/primitives.py:591)
    match data with
    | .null => .ok .null
    | _ => .error ⟨c.getErrorMessage ("Expected null/None, got " ++ data.typeName), path⟩
  | .list itemValidator minL maxL unique nonempty c, data, path =>
    -- List._validate (sift/validators/collections.py:112)
    if data.isNull && c.nullable then .ok .null
    else match data with
      | .list xs => vvalListBody itemValidator minL maxL unique nonempty c xs path
      | .tup xs => vvalListBody itemValidator minL maxL unique nonempty c xs path
      | _ =>
        .error ⟨c.getErrorMessage ("Expected list, got " ++ data.typeName), path⟩
  | .dict schema addl patternProps minProps maxProps requiredKeys excludedFields c,
      data, path =>
    -- Dict._validate (sift/validators/collections.py:367); the
    -- excludedFields handling is the spec-modelled voltar extension
    -- and vanishes when excludedFields = [].
    if data.isNull && c.nullable then .ok .null
    else match data with
      | .dict m => do
        checkOpt minProps (fun n => m.length < n)
          (fun n => "Object must have at least " ++ toString n ++ " properties")
          c path
        checkOpt maxProps (fun n => m.length > n)
          (fun n => "Object must have at most " ++ toString n ++ " properties")
          c path
        let missing := requiredKeys.filter
          (fun k => !Entries.hasKey m k && !excludedFields.contains k)
        guardCheck (!missing.isEmpty)
          ("Missing required properties: " ++ String.intercalate ", " missing)
          c path
        let (m, validated) ← schemaStep schema excludedFields m path []
        let (m, validated) ←
          patternsStep patternProps excludedFields m path validated
        let unvalidated := (Entries.keyList m).filter
          (fun k => !validated.contains k && !excludedFields.contains k)
        if !unvalidated.isEmpty then
          match addl with
          | .forbid =>
            .error ⟨c.getErrorMessage ("Unexpected additional properties: " ++
              String.intercalate ", " unvalidated), path⟩
          | .withV v => do
            let m ← addlStep v unvalidated m path
            .ok (.dict m)
          | .allow => .ok (.dict m)
        else .ok (.dict m)
      | _ =>
        .error ⟨c.getErrorMessage ("Expected object/dict, got " ++ data.typeName), path⟩
  | .tuple itemValidators restValidator minLength maxLength c, data, path =>
    -- Tuple._validate (sift/validators/collections.py:627)
    if data.isNull && c.nullable then .ok .null
    else match data with
      | .list xs => vvalTupleBody itemValidators restValidator minLength maxLength c xs path
      | .tup xs => vvalTupleBody itemValidators restValidator minLength maxLength c xs path
      | _ =>
        .error ⟨c.getErrorMessage ("Expected tuple, got " ++ data.typeName), path⟩
  | .union validators discriminator discriminatorMap c, data, path =>
    -- Union._validate (sift/validators/collections.py:785)
    match discriminator, data with
    | some d, .dict m =>
      if Entries.hasKey m d && !discriminatorMap.isEmpty then
        match Entries.lookup m d with
        | some dval =>
          match discrStep discriminatorMap dval (.dict m) path with
          | some r => r
          | none => unionStep validators c 0 [] (.dict m) path
        | none => unionStep validators c 0 [] (.dict m) path
      else unionStep validators c 0 [] (.dict m) path
    | _, _ => unionStep validators c 0 [] data path

termination_by v _ _ => (Validator.msize v, 0)
decreasing_by
all_goals first
  | omega
  | (simp [Prod.lex_def, Validator.msize, msizeOpt, msizeList, msizePairs,
      msizeVPairs, msizeAddl]; omega)
  | (simp [Prod.lex_def, Validator.msize, msizeOpt, msizeList, msizePairs,
      msizeVPairs, msizeAddl])

/-- Length/uniqueness checks and the in-order item loop of
`List._validate`, after the type check (the input may be a Python list
or tuple; the result is always a list). -/
def vvalListBody (itemValidator : Option Validator) (minL maxL : Option Nat)
    (unique nonempty : Bool) (c : Core) (xs : List Value)
    (path : List PathSeg) : Except ValidationError Value := do
  guardCheck (nonempty && xs.isEmpty) "List cannot be empty" c path
  checkOpt minL (fun n => xs.length < n)
    (fun n => "List must have at least " ++ toString n ++ " items") c path
  checkOpt maxL (fun n => xs.length > n)
    (fun n => "List must have at most " ++ toString n ++ " items") c path
  guardCheck (unique && hasDup xs) "List items must be unique" c path
  match itemValidator with
  | some iv => do
    let ys ← listItemsStep iv xs 0 path
    .ok (.list ys)
  | none => .ok (.list xs)

termination_by (msizeOpt itemValidator, xs.length + 1)
decreasing_by
all_goals first
  | omega
  | (simp [Prod.lex_def, Validator.msize, msizeOpt, msizeList, msizePairs,
      msizeVPairs, msizeAddl]; omega)
  | (simp [Prod.lex_def, Validator.msize, msizeOpt, msizeList, msizePairs,
      msizeVPairs, msizeAddl])

/-- The in-order item loop of `List._validate`
(`result[i] = self._item_validator._validate(item, path + [i])`). -/
def listItemsStep (iv : Validator) (xs : List Value) (i : Nat)
    (path : List PathSeg) : Except ValidationError (List Value) :=
  match xs with
  | [] => .ok []
  | x :: rest => do
    let y ← vval iv x (path ++ [.idx i])
    let ys ← listItemsStep iv rest (i + 1) path
    .ok (y :: ys)

termination_by (Validator.msize iv + 1, xs.length)
decreasing_by
all_goals first
  | omega
  | (simp [Prod.lex_def, Validator.msize, msizeOpt, msizeList, msizePairs,
      msizeVPairs, msizeAddl]; omega)
  | (simp [Prod.lex_def, Validator.msize, msizeOpt, msizeList, msizePairs,
      msizeVPairs, msizeAddl])

/-- The schema-key loop of `Dict._validate`: for each schema entry
whose key is present (and, in the spec-modelled voltar extension, not
excluded), validate the current value and record the key as
validated. -/
def schemaStep (schema : List (String × Validator)) (excluded : List String)
    (m : Entries) (path : List PathSeg) (validated : List String) :
    Except ValidationError (Entries × List String) :=
  match schema with
  | [] => .ok (m, validated)
  | (key, v) :: rest =>
    if !excluded.contains key then
      match Entries.lookup m key with
      | some val => do
        let newVal ← vval v val (path ++ [.field key])
        schemaStep rest excluded (Entries.set m key newVal) path (addKey validated key)
      | none => schemaStep rest excluded m path validated
    else schemaStep rest excluded m path validated

termination_by (msizePairs schema, 0)
decreasing_by
all_goals first
  | omega
  | (simp [Prod.lex_def, Validator.msize, msizeOpt, msizeList, msizePairs,
      msizeVPairs, msizeAddl]; omega)
  | (simp [Prod.lex_def, Validator.msize, msizeOpt, msizeList, msizePairs,
      msizeVPairs, msizeAddl])

/-- The pattern-rule loop of `Dict._validate`: each rule in turn scans
every key of the dict (there is no validated-keys guard in the
synchronous source, so schema keys and keys matching several rules are
re-validated). -/
def patternsStep (pats : List (String × Validator)) (excluded : List String)
    (m : Entries) (path : List PathSeg) (validated : List String) :
    Except ValidationError (Entries × List String) :=
  match pats with
  | [] => .ok (m, validated)
  | (p, v) :: rest => do
    let (m, validated) ←
      patternKeysStep v p excluded (Entries.keyList m) m path validated
    patternsStep rest excluded m path validated

termination_by (msizePairs pats, 0)
decreasing_by
all_goals first
  | omega
  | (simp [Prod.lex_def, Validator.msize, msizeOpt, msizeList, msizePairs,
      msizeVPairs, msizeAddl]; omega)
  | (simp [Prod.lex_def, Validator.msize, msizeOpt, msizeList, msizePairs,
      msizeVPairs, msizeAddl])

/-- The key scan of one pattern rule (`for key in result.keys(): if
pattern.match(key): ...`). -/
def patternKeysStep (v : Validator) (p : String) (excluded : List String)
    (ks : List String) (m : Entries) (path : List PathSeg)
    (validated : List String) : Except ValidationError (Entries × List String) :=
  match ks with
  | [] => .ok (m, validated)
  | k :: rest =>
    if !excluded.contains k && reMatch p k then
      match Entries.lookup m k with
      | some val => do
        let newVal ← vval v val (path ++ [.field k])
        patternKeysStep v p excluded rest (Entries.set m k newVal) path
          (addKey validated k)
      | none => patternKeysStep v p excluded rest m path validated
    else patternKeysStep v p excluded rest m path validated

termination_by (Validator.msize v, ks.length + 1)
decreasing_by
all_goals first
  | omega
  | (simp [Prod.lex_def, Validator.msize, msizeOpt, msizeList, msizePairs,
      msizeVPairs, msizeAddl]; omega)
  | (simp [Prod.lex_def, Validator.msize, msizeOpt, msizeList, msizePairs,
      msizeVPairs, msizeAddl])

/-- The additional-properties loop of `Dict._validate` when a validator
is configured for them. -/
def addlStep (v : Validator) (ks : List String) (m : Entries)
    (path : List PathSeg) : Except ValidationError Entries :=
  match ks with
  | [] => .ok m
  | k :: rest =>
    match Entries.lookup m k with
    | some val => do
      let newVal ← vval v val (path ++ [.field k])
      addlStep v rest (Entries.set m k newVal) path
    | none => addlStep v rest m path

termination_by (Validator.msize v, ks.length + 1)
decreasing_by
all_goals first
  | omega
  | (simp [Prod.lex_def, Validator.msize, msizeOpt, msizeList, msizePairs,
      msizeVPairs, msizeAddl]; omega)
  | (simp [Prod.lex_def, Validator.msize, msizeOpt, msizeList, msizePairs,
      msizeVPairs, msizeAddl])

/-- Length checks, positional loop and rest loop of `Tuple._validate`
(the result is always a Python tuple). -/
def vvalTupleBody (itemValidators : List Validator) (restValidator : Option Validator)
    (minLength : Nat) (maxLength : Option Nat) (c : Core) (xs : List Value)
    (path : List PathSeg) : Except ValidationError Value := do
    guardCheck (xs.length < minLength)
      ("Tuple must have at least " ++ toString minLength ++ " items") c path
    checkOpt maxLength (fun n => xs.length > n)
      (fun n => "Tuple must have at most " ++ toString n ++ " items") c path
    let ys ← tupleFixedStep itemValidators xs 0 c path
    match restValidator with
    | some rv =>
      if xs.length > itemValidators.length then do
        let zs ← tupleRestStep rv (ys.drop itemValidators.length)
          itemValidators.length path
        .ok (.tup (ys.take itemValidators.length ++ zs))
      else .ok (.tup ys)
    | none => .ok (.tup ys)

termination_by (msizeList itemValidators + msizeOpt restValidator, xs.length + 1)
decreasing_by
all_goals first
  | omega
  | (simp [Prod.lex_def, Validator.msize, msizeOpt, msizeList, msizePairs,
      msizeVPairs, msizeAddl]; omega)
  | (simp [Prod.lex_def, Validator.msize, msizeOpt, msizeList, msizePairs,
      msizeVPairs, msizeAddl])

/-- The fixed-position loop of `Tuple._validate`; items beyond the
positional validators are returned unchanged (the rest loop handles
them). A missing position raises, as in the source (unreachable when
the length bounds hold). -/
def tupleFixedStep (vs : List Validator) (xs : List Value) (i : Nat) (c : Core)
    (path : List PathSeg) : Except ValidationError (List Value) :=
  match vs, xs with
  | [], rest => .ok rest
  | _ :: _, [] =>
    .error ⟨c.getErrorMessage ("Missing item at position " ++ toString i), path⟩
  | v :: vrest, x :: xrest => do
    let y ← vval v x (path ++ [.idx i])
    let ys ← tupleFixedStep vrest xrest (i + 1) c path
    .ok (y :: ys)

termination_by (msizeList vs, xs.length)
decreasing_by
all_goals first
  | omega
  | (simp [Prod.lex_def, Validator.msize, msizeOpt, msizeList, msizePairs,
      msizeVPairs, msizeAddl]; omega)
  | (simp [Prod.lex_def, Validator.msize, msizeOpt, msizeList, msizePairs,
      msizeVPairs, msizeAddl])

/-- The rest-item loop of `Tuple._validate`. -/
def tupleRestStep (rv : Validator) (xs : List Value) (i : Nat)
    (path : List PathSeg) : Except ValidationError (List Value) :=
  match xs with
  | [] => .ok []
  | x :: rest => do
    let y ← vval rv x (path ++ [.idx i])
    let ys ← tupleRestStep rv rest (i + 1) path
    .ok (y :: ys)

termination_by (Validator.msize rv, xs.length + 1)
decreasing_by
all_goals first
  | omega
  | (simp [Prod.lex_def, Validator.msize, msizeOpt, msizeList, msizePairs,
      msizeVPairs, msizeAddl]; omega)
  | (simp [Prod.lex_def, Validator.msize, msizeOpt, msizeList, msizePairs,
      msizeVPairs, msizeAddl])

/-- The candidate loop of `Union._validate`: try each candidate in
declared order, return the first success, collect
`"Option N: str(e)"` strings, and aggregate them when all fail. -/
def unionStep (cands : List Validator) (c : Core) (i : Nat) (errs : List String)
    (data : Value) (path : List PathSeg) : Except ValidationError Value :=
  match cands with
  | [] =>
    .error ⟨c.getErrorMessage ("Value does not match any of the expected types:\n" ++
      String.intercalate "\n" errs.reverse), path⟩
  | v :: rest =>
    match vval v data path with
    | .ok r => .ok r
    | .error e =>
      unionStep rest c (i + 1)
        (("Option " ++ toString (i + 1) ++ ": " ++ e.render) :: errs) data path

termination_by (msizeList cands, 0)
decreasing_by
all_goals first
  | omega
  | (simp [Prod.lex_def, Validator.msize, msizeOpt, msizeList, msizePairs,
      msizeVPairs, msizeAddl]; omega)
  | (simp [Prod.lex_def, Validator.msize, msizeOpt, msizeList, msizePairs,
      msizeVPairs, msizeAddl])

/-- The discriminator dispatch of `Union._validate`: when the
discriminator value is mapped, delegate to the mapped validator alone;
`none` means the value has no mapping and the candidate loop runs. -/
def discrStep (dmap : List (Value × Validator)) (dval data : Value)
    (path : List PathSeg) : Option (Except ValidationError Value) :=
  match dmap with
  | [] => none
  | (k, v) :: rest =>
    if Value.beq k dval then some (vval v data path)
    else discrStep rest dval data path
termination_by (msizeVPairs dmap, 0)
decreasing_by
all_goals first
  | omega
  | (simp [Prod.lex_def, Validator.msize, msizeOpt, msizeList, msizePairs,
      msizeVPairs, msizeAddl]; omega)
  | (simp [Prod.lex_def, Validator.msize, msizeOpt, msizeList, msizePairs,
      msizeVPairs, msizeAddl])
end

/-- `asyncio.gather` followed by the in-order scan of the results that
the async collection validators perform: the reported failure is the
first failed subtask in declared order; when none failed, the list of
results. -/
def gatherFirstError : List (Except ValidationError Value) →
    Except ValidationError (List Value)
  | [] => .ok []
  | .error e :: _ => .error e
  | .ok v :: rest => (gatherFirstError rest).map (v :: ·)

/-- The result-consumption loop of `Dict._validate_async`: apply each
keyed result in creation order, raising the first failure observed. -/
def processResultsA (m : Entries) :
    List (String × Except ValidationError Value) → Except ValidationError Entries
  | [] => .ok m
  | (_, .error e) :: _ => .error e
  | (k, .ok v) :: rest => processResultsA (Entries.set m k v) rest

/-- The result scan of `Union._validate_async`: the first candidate in
declared order that succeeded wins; when none did, one aggregate
failure lists every candidate's failure text. -/
def unionGatherA : List (Except String Value) → Nat → List String → Core →
    List PathSeg → Except ValidationError Value
  | [], _, errs, c, path =>
    .error ⟨c.getErrorMessage ("Value does not match any of the expected types:\n" ++
      String.intercalate "\n" errs.reverse), path⟩
  | .ok r :: _, _, _, _, _ => .ok r
  | .error s :: rest, i, errs, c, path =>
    unionGatherA rest (i + 1) (("Option " ++ toString (i + 1) ++ ": " ++ s) :: errs)
      c path

mutual
/-- The asynchronous `_validate_async` dispatch. The leaf validators do
not override `_validate_async` (`Any` overrides it with the same body),
so the default implementation runs their synchronous `_validate`; the
collection validators create all subtasks eagerly and consume the
results in declared order, as transcribed from
`sift/validators/collections.py`. With pure children (no external
I/O — the scope of this embedding) cooperative scheduling is
deterministic and each subtask's result is its validator's result on
the value captured at task creation. -/
def vvalA : Validator → Value → List PathSeg → Except ValidationError Value
  | .string a b p t l u n c, data, path => vval (.string a b p t l u n c) data path
  | .number a b i p n m c, data, path => vval (.number a b i p n m c) data path
  | .boolean t c, data, path => vval (.boolean t c) data path
  | .anyV c, data, path => vval (.anyV c) data path
  | .nullV c, data, path => vval (.nullV c) data path
  | .list itemValidator minL maxL unique nonempty c, data, path =>
    -- List._validate_async (sift/validators/collections.py:171)
    if data.isNull && c.nullable then .ok .null
    else match data with
      | .list xs => vvalAListBody itemValidator minL maxL unique nonempty c xs path
      | .tup xs => vvalAListBody itemValidator minL maxL unique nonempty c xs path
      | _ =>
        .error ⟨c.getErrorMessage ("Expected list, got " ++ data.typeName), path⟩
  | .dict schema addl patternProps minProps maxProps requiredKeys excludedFields c,
      data, path =>
    -- Dict._validate_async (sift/validators/collections.py:438): schema
    -- tasks are created first (marking their keys validated), then
    -- pattern tasks for keys not yet validated (so the first matching
    -- rule claims a key), then additional-property tasks; results are
    -- consumed in that order and the forbid check runs last.
    if data.isNull && c.nullable then .ok .null
    else match data with
      | .dict m => do
        checkOpt minProps (fun n => m.length < n)
          (fun n => "Object must have at least " ++ toString n ++ " properties")
          c path
        checkOpt maxProps (fun n => m.length > n)
          (fun n => "Object must have at most " ++ toString n ++ " properties")
          c path
        let missing := requiredKeys.filter
          (fun k => !Entries.hasKey m k && !excludedFields.contains k)
        guardCheck (!missing.isEmpty)
          ("Missing required properties: " ++ String.intercalate ", " missing)
          c path
        let schemaTasks := schemaTasksA schema excludedFields m path
        let validated := (schemaTasks.map Prod.fst).foldl addKey []
        let (patternTasks, validated) :=
          patternTasksA patternProps excludedFields m path validated
        let addlTasks :=
          match addl with
          | .withV v =>
            addlTasksA v
              ((Entries.keyList m).filter
                (fun k => !validated.contains k && !excludedFields.contains k))
              m path
          | _ => []
        let m ← processResultsA m schemaTasks
        let m ← processResultsA m patternTasks
        let m ← processResultsA m addlTasks
        let unvalidated := (Entries.keyList m).filter
          (fun k => !validated.contains k && !excludedFields.contains k)
        match addl with
        | .forbid =>
          if !unvalidated.isEmpty then
            .error ⟨c.getErrorMessage ("Unexpected additional properties: " ++
              String.intercalate ", " unvalidated), path⟩
          else .ok (.dict m)
        | _ => .ok (.dict m)
      | _ =>
        .error ⟨c.getErrorMessage ("Expected object/dict, got " ++ data.typeName), path⟩
  | .tuple itemValidators restValidator minLength maxLength c, data, path =>
    -- Tuple._validate_async (sift/validators/collections.py:673)
    if data.isNull && c.nullable then .ok .null
    else match data with
      | .list xs =>
        vvalATupleBody itemValidators restValidator minLength maxLength c xs path
      | .tup xs =>
        vvalATupleBody itemValidators restValidator minLength maxLength c xs path
      | _ =>
        .error ⟨c.getErrorMessage ("Expected tuple, got " ++ data.typeName), path⟩
  | .union validators discriminator discriminatorMap c, data, path =>
    -- Union._validate_async (sift/validators/collections.py:812): the
    -- discriminator dispatch mirrors the synchronous path; otherwise
    -- every candidate runs (each catching its own failure) and the
    -- first success in declared order wins.
    match discriminator, data with
    | some d, .dict m =>
      if Entries.hasKey m d && !discriminatorMap.isEmpty then
        match Entries.lookup m d with
        | some dval =>
          match discrStepA discriminatorMap dval (.dict m) path with
          | some r => r
          | none => unionGatherA (unionTasksA validators (.dict m) path) 0 [] c path
        | none => unionGatherA (unionTasksA validators (.dict m) path) 0 [] c path
      else unionGatherA (unionTasksA validators (.dict m) path) 0 [] c path
    | _, _ => unionGatherA (unionTasksA validators data path) 0 [] c path

termination_by v _ _ => (Validator.msize v, 0)
decreasing_by
all_goals first
  | omega
  | (simp [Prod.lex_def, Validator.msize, msizeOpt, msizeList, msizePairs,
      msizeVPairs, msizeAddl]; omega)
  | (simp [Prod.lex_def, Validator.msize, msizeOpt, msizeList, msizePairs,
      msizeVPairs, msizeAddl])

/-- Checks of `List._validate_async` followed by gathering every item
subtask and reporting the lowest-index failure. -/
def vvalAListBody (itemValidator : Option Validator) (minL maxL : Option Nat)
    (unique nonempty : Bool) (c : Core) (xs : List Value)
    (path : List PathSeg) : Except ValidationError Value := do
  guardCheck (nonempty && xs.isEmpty) "List cannot be empty" c path
  checkOpt minL (fun n => xs.length < n)
    (fun n => "List must have at least " ++ toString n ++ " items") c path
  checkOpt maxL (fun n => xs.length > n)
    (fun n => "List must have at most " ++ toString n ++ " items") c path
  guardCheck (unique && hasDup xs) "List items must be unique" c path
  match itemValidator with
  | some iv => do
    let ys ← gatherFirstError (listItemsA iv xs 0 path)
    .ok (.list ys)
  | none => .ok (.list xs)

termination_by (msizeOpt itemValidator, xs.length + 1)
decreasing_by
all_goals first
  | omega
  | (simp [Prod.lex_def, Validator.msize, msizeOpt, msizeList, msizePairs,
      msizeVPairs, msizeAddl]; omega)
  | (simp [Prod.lex_def, Validator.msize, msizeOpt, msizeList, msizePairs,
      msizeVPairs, msizeAddl])

/-- One subtask per list item, created in index order. -/
def listItemsA (iv : Validator) (xs : List Value) (i : Nat)
    (path : List PathSeg) : List (Except ValidationError Value) :=
  match xs with
  | [] => []
  | x :: rest => vvalA iv x (path ++ [.idx i]) :: listItemsA iv rest (i + 1) path

termination_by (Validator.msize iv + 1, xs.length)
decreasing_by
all_goals first
  | omega
  | (simp [Prod.lex_def, Validator.msize, msizeOpt, msizeList, msizePairs,
      msizeVPairs, msizeAddl]; omega)
  | (simp [Prod.lex_def, Validator.msize, msizeOpt, msizeList, msizePairs,
      msizeVPairs, msizeAddl])

/-- Schema-key subtasks of `Dict._validate_async`, in schema order,
for the keys present in the input (each task captures the original
value of its key). -/
def schemaTasksA (schema : List (String × Validator)) (excluded : List String)
    (m : Entries) (path : List PathSeg) :
    List (String × Except ValidationError Value) :=
  match schema with
  | [] => []
  | (key, v) :: rest =>
    if !excluded.contains key then
      match Entries.lookup m key with
      | some val =>
        (key, vvalA v val (path ++ [.field key])) :: schemaTasksA rest excluded m path
      | none => schemaTasksA rest excluded m path
    else schemaTasksA rest excluded m path

termination_by (msizePairs schema, 0)
decreasing_by
all_goals first
  | omega
  | (simp [Prod.lex_def, Validator.msize, msizeOpt, msizeList, msizePairs,
      msizeVPairs, msizeAddl]; omega)
  | (simp [Prod.lex_def, Validator.msize, msizeOpt, msizeList, msizePairs,
      msizeVPairs, msizeAddl])

/-- Pattern-rule subtasks of `Dict._validate_async`: unlike the
synchronous path, a key already validated is skipped (`key not in
validated_keys`), so schema keys are not re-validated and only the
first matching rule claims a key. -/
def patternTasksA (pats : List (String × Validator)) (excluded : List String)
    (m : Entries) (path : List PathSeg) (validated : List String) :
    List (String × Except ValidationError Value) × List String :=
  match pats with
  | [] => ([], validated)
  | (p, v) :: rest =>
    let (tasks₁, validated₁) :=
      patternKeysTasksA v p excluded (Entries.keyList m) m path validated
    let (tasks₂, validated₂) := patternTasksA rest excluded m path validated₁
    (tasks₁ ++ tasks₂, validated₂)

termination_by (msizePairs pats, 0)
decreasing_by
all_goals first
  | omega
  | (simp [Prod.lex_def, Validator.msize, msizeOpt, msizeList, msizePairs,
      msizeVPairs, msizeAddl]; omega)
  | (simp [Prod.lex_def, Validator.msize, msizeOpt, msizeList, msizePairs,
      msizeVPairs, msizeAddl])

/-- The key scan creating the subtasks of one pattern rule. -/
def patternKeysTasksA (v : Validator) (p : String) (excluded : List String)
    (ks : List String) (m : Entries) (path : List PathSeg)
    (validated : List String) :
    List (String × Except ValidationError Value) × List String :=
  match ks with
  | [] => ([], validated)
  | k :: rest =>
    if !validated.contains k && !excluded.contains k && reMatch p k then
      match Entries.lookup m k with
      | some val =>
        let (ts, vd) :=
          patternKeysTasksA v p excluded rest m path (addKey validated k)
        ((k, vvalA v val (path ++ [.field k])) :: ts, vd)
      | none => patternKeysTasksA v p excluded rest m path validated
    else patternKeysTasksA v p excluded rest m path validated

termination_by (Validator.msize v, ks.length + 1)
decreasing_by
all_goals first
  | omega
  | (simp [Prod.lex_def, Validator.msize, msizeOpt, msizeList, msizePairs,
      msizeVPairs, msizeAddl]; omega)
  | (simp [Prod.lex_def, Validator.msize, msizeOpt, msizeList, msizePairs,
      msizeVPairs, msizeAddl])

/-- Additional-property subtasks of `Dict._validate_async`. -/
def addlTasksA (v : Validator) (ks : List String) (m : Entries)
    (path : List PathSeg) : List (String × Except ValidationError Value) :=
  match ks with
  | [] => []
  | k :: rest =>
    match Entries.lookup m k with
    | some val => (k, vvalA v val (path ++ [.field k])) :: addlTasksA v rest m path
    | none => addlTasksA v rest m path

termination_by (Validator.msize v, ks.length + 1)
decreasing_by
all_goals first
  | omega
  | (simp [Prod.lex_def, Validator.msize, msizeOpt, msizeList, msizePairs,
      msizeVPairs, msizeAddl]; omega)
  | (simp [Prod.lex_def, Validator.msize, msizeOpt, msizeList, msizePairs,
      msizeVPairs, msizeAddl])

/-- Checks and subtask creation of `Tuple._validate_async`; the
missing-position failure is raised during task creation, before any
result is consumed. -/
def vvalATupleBody (itemValidators : List Validator) (restValidator : Option Validator)
    (minLength : Nat) (maxLength : Option Nat) (c : Core) (xs : List Value)
    (path : List PathSeg) : Except ValidationError Value := do
    guardCheck (xs.length < minLength)
      ("Tuple must have at least " ++ toString minLength ++ " items") c path
    checkOpt maxLength (fun n => xs.length > n)
      (fun n => "Tuple must have at most " ++ toString n ++ " items") c path
    let fixedTasks ← tupleFixedTasksA itemValidators xs 0 c path
    let restTasks :=
      match restValidator with
      | some rv =>
        if xs.length > itemValidators.length then
          tupleRestTasksA rv (xs.drop itemValidators.length)
            itemValidators.length path
        else []
      | none => []
    let vals ← gatherFirstError (fixedTasks ++ restTasks)
    if restTasks.isEmpty then
      .ok (.tup (vals ++ xs.drop itemValidators.length))
    else
      .ok (.tup vals)

termination_by (msizeList itemValidators + msizeOpt restValidator, xs.length + 1)
decreasing_by
all_goals first
  | omega
  | (simp [Prod.lex_def, Validator.msize, msizeOpt, msizeList, msizePairs,
      msizeVPairs, msizeAddl]; omega)
  | (simp [Prod.lex_def, Validator.msize, msizeOpt, msizeList, msizePairs,
      msizeVPairs, msizeAddl])

/-- Fixed-position subtasks of `Tuple._validate_async`. -/
def tupleFixedTasksA (vs : List Validator) (xs : List Value) (i : Nat) (c : Core)
    (path : List PathSeg) :
    Except ValidationError (List (Except ValidationError Value)) :=
  match vs, xs with
  | [], _ => .ok []
  | _ :: _, [] =>
    .error ⟨c.getErrorMessage ("Missing item at position " ++ toString i), path⟩
  | v :: vrest, x :: xrest => do
    let ts ← tupleFixedTasksA vrest xrest (i + 1) c path
    .ok (vvalA v x (path ++ [.idx i]) :: ts)

termination_by (msizeList vs, xs.length)
decreasing_by
all_goals first
  | omega
  | (simp [Prod.lex_def, Validator.msize, msizeOpt, msizeList, msizePairs,
      msizeVPairs, msizeAddl]; omega)
  | (simp [Prod.lex_def, Validator.msize, msizeOpt, msizeList, msizePairs,
      msizeVPairs, msizeAddl])

/-- Rest-item subtasks of `Tuple._validate_async`. -/
def tupleRestTasksA (rv : Validator) (xs : List Value) (i : Nat)
    (path : List PathSeg) : List (Except ValidationError Value) :=
  match xs with
  | [] => []
  | x :: rest => vvalA rv x (path ++ [.idx i]) :: tupleRestTasksA rv rest (i + 1) path

termination_by (Validator.msize rv, xs.length + 1)
decreasing_by
all_goals first
  | omega
  | (simp [Prod.lex_def, Validator.msize, msizeOpt, msizeList, msizePairs,
      msizeVPairs, msizeAddl]; omega)
  | (simp [Prod.lex_def, Validator.msize, msizeOpt, msizeList, msizePairs,
      msizeVPairs, msizeAddl])

/-- One subtask per union candidate (`Union._try_validate_async`): the
task catches its own failure and yields the failure's rendered text. -/
def unionTasksA : List Validator → Value → List PathSeg →
    List (Except String Value)
  | [], _, _ => []
  | v :: rest, data, path =>
    (match vvalA v data path with
     | .ok r => .ok r
     | .error e => .error e.render) :: unionTasksA rest data path

termination_by cands _ _ => (msizeList cands, 0)
decreasing_by
all_goals first
  | omega
  | (simp [Prod.lex_def, Validator.msize, msizeOpt, msizeList, msizePairs,
      msizeVPairs, msizeAddl]; omega)
  | (simp [Prod.lex_def, Validator.msize, msizeOpt, msizeList, msizePairs,
      msizeVPairs, msizeAddl])

/-- The asynchronous discriminator dispatch of `Union`. -/
def discrStepA (dmap : List (Value × Validator)) (dval data : Value)
    (path : List PathSeg) : Option (Except ValidationError Value) :=
  match dmap with
  | [] => none
  | (k, v) :: rest =>
    if Value.beq k dval then some (vvalA v data path)
    else discrStepA rest dval data path
termination_by (msizeVPairs dmap, 0)
decreasing_by
all_goals first
  | omega
  | (simp [Prod.lex_def, Validator.msize, msizeOpt, msizeList, msizePairs,
      msizeVPairs, msizeAddl]; omega)
  | (simp [Prod.lex_def, Validator.msize, msizeOpt, msizeList, msizePairs,
      msizeVPairs, msizeAddl])
end

/-- The shared body of `Validator.validate`
(`sift/validators/base.py:142`, identical in
`voltar/validators/base.py:530`): the None-handling precedence for a
null input, otherwise `_validate` from an empty path with the failure
passed through `_wrap_error`. -/
def validateBase (v : Validator) (data : Value) : Except ValidationError Value :=
  if data.isNull then
    match v.core.dflt with
    | some d => .ok d.resolve
    | none =>
      if v.core.nullable || v.isNullableClass then .ok .null
      else if v.core.optional then .ok .null
      else .error ⟨v.core.getErrorMessage "Value is required", []⟩
  else
    match vval v data [] with
    | .ok r => .ok r
    | .error e => .error (siftWrapError v.core.customErrorMessage e)

/-- The public synchronous entry point. `Null.validate`
(`voltar/validators/primitives.py:578`) overrides the base method: a
null input returns null regardless of any configured default, and a
non-null input goes straight to `_validate` (no `_wrap_error` try
block). Every other validator uses the base method. -/
def Validator.validate (v : Validator) (data : Value) : Except ValidationError Value :=
  match v with
  | .nullV c => if data.isNull then .ok .null else vval (.nullV c) data []
  | _ => validateBase v data

/-- The public asynchronous entry point (`validate_async`,
`sift/validators/base.py:179`): the same None-handling precedence,
then `_validate_async` with `_wrap_error`. `Null` does not override
`validate_async`, so every validator uses this base method. -/
def Validator.validateAsync (v : Validator) (data : Value) :
    Except ValidationError Value :=
  if data.isNull then
    match v.core.dflt with
    | some d => .ok d.resolve
    | none =>
      if v.core.nullable || v.isNullableClass then .ok .null
      else if v.core.optional then .ok .null
      else .error ⟨v.core.getErrorMessage "Value is required", []⟩
  else
    match vvalA v data [] with
    | .ok r => .ok r
    | .error e => .error (siftWrapError v.core.customErrorMessage e)

/-! ### The voltar error model (`voltar/validators/base.py`)

The voltar revision of `ValidationError` carries, besides a message and
a path, a dictionary of field entries keyed by formatted path strings;
only the pieces exercised by `_wrap_error` are modelled (the
`ValidationIssue` bookkeeping is write-only mirror data). -/

/-- One entry of the voltar `errors` dictionary: a message and an
optional description. -/
structure VEntry where
  message : String
  description : Option String := none
deriving DecidableEq, Repr

/-- The voltar `ValidationError`, restricted to the attributes
`_wrap_error` reads and writes: `message`, `path`, `errors` (an
insertion-ordered field → entry map) and `description`. -/
structure VoltarError where
  message : String
  path : List PathSeg
  errors : List (String × VEntry)
  description : Option String := none
deriving DecidableEq, Repr

/-- `ValidationError._format_path` (`voltar/validators/base.py:255`):
`"_base"` for the empty path, else the segments joined by arrows with
indices bracketed. -/
def voltarFormatPath (path : List PathSeg) : String :=
  if path.isEmpty then "_base"
  else String.intercalate " → " (path.map (fun seg =>
    match seg with
    | .field s => s
    | .idx n => "[" ++ toString n ++ "]"))

/-- The voltar `ValidationError(message, path, description=...)`
constructor for a non-empty message and no explicit errors dict: one
entry is recorded under the formatted path
(`voltar/validators/base.py:194`). -/
def mkVoltarErrorMsg (m : String) (path : List PathSeg)
    (description : Option String) : VoltarError :=
  { message := m, path := path,
    errors := [(voltarFormatPath path, { message := m, description := description })],
    description := description }

/-- The voltar `ValidationError(errors=...)` constructor: the entries
are stored as given; `message` defaults to the empty string and `path`
to the empty path (`voltar/validators/base.py:143`). -/
def mkVoltarErrorErrors (es : List (String × VEntry)) : VoltarError :=
  { message := "", path := [], errors := es, description := none }

/-- The voltar `Validator._wrap_error`
(`voltar/validators/base.py:454`): no custom message passes the error
through; with more than one field entry, every entry's message is
replaced by the custom message and the result is built with
`ValidationError(errors=...)` (hence an empty path); otherwise
`ValidationError(custom, error.path, description=...)`. -/
def voltarWrapError (customErrorMessage : Option String) (e : VoltarError) :
    VoltarError :=
  match customErrorMessage with
  | none => e
  | some m =>
    if e.errors.length > 1 then
      mkVoltarErrorErrors
        (e.errors.map (fun kv => (kv.1, { message := m, description := e.description })))
    else
      mkVoltarErrorMsg m e.path e.description

/-! ### The Object composer (`voltar/validators/objects.py`)

An `Object` wraps an inner `DictValidator` built from its schema; the
wrapper carries its own contract attributes while the inner dict
validator keeps the defaults (no reachable operation ever modifies the
inner core: `extend` and `omit` rebuild it and `exclude` only touches
the excluded-fields set). -/

/-- The default required-key derivation of the `Dict`/`DictValidator`
constructor: every schema key whose validator is neither optional nor
nullable (only the explicit `_nullable` flag is consulted, not the
`_is_nullable` class property). -/
def requiredFromSchema (schema : List (String × Validator)) : List String :=
  (schema.filter (fun kv => !kv.2.core.optional && !kv.2.core.nullable)).map Prod.fst

/-- The `Object` validator: outer contract attributes plus the inner
dict-validator configuration. -/
structure ObjectV where
  core : Core := {}
  schema : List (String × Validator)
  addl : Addl := .allow
  patternProps : List (String × Validator) := []
  minProps : Option Nat := none
  maxProps : Option Nat := none
  requiredKeys : List String
  excludedFields : List String := []

/-- `Object(schema)` (`voltar/validators/objects.py:47`): fresh
contract attributes, inner `DictValidator(schema)` with the derived
required keys. -/
def ObjectV.make (schema : List (String × Validator)) : ObjectV :=
  { schema := schema, requiredKeys := requiredFromSchema schema }

/-- `Object.field_names`: the keys of the schema (a set in the source,
modelled in schema order). -/
def ObjectV.fieldNames (o : ObjectV) : List String := o.schema.map Prod.fst

/-- The inner `DictValidator` of an `Object`, as a validator tree node
(its own contract attributes are the defaults). -/
def ObjectV.toDict (o : ObjectV) : Validator :=
  .dict o.schema o.addl o.patternProps o.minProps o.maxProps o.requiredKeys
    o.excludedFields {}

/-- `Object.extend` (`voltar/validators/objects.py:57`): refuse
conflicting keys; otherwise build `Object(extended_schema)` (the new
fields appended, as `dict.update` appends fresh keys in order), then
copy the additional-properties policy, pattern rules, property-count
bounds, the *base* required-key set (overwriting the freshly derived
one), the outer nullable/optional/default/custom-error attributes, and
the excluded-fields set. The conflict failure carries the clashing
keys. -/
def ObjectV.extend (o : ObjectV) (additional : List (String × Validator)) :
    Except (List String) ObjectV :=
  let conflicts := (o.schema.map Prod.fst).filter
    (fun k => (additional.map Prod.fst).contains k)
  if !conflicts.isEmpty then .error conflicts
  else .ok
    { core := o.core,
      schema := o.schema ++ additional,
      addl := o.addl,
      patternProps := o.patternProps,
      minProps := o.minProps,
      maxProps := o.maxProps,
      requiredKeys := o.requiredKeys,
      excludedFields := o.excludedFields }

/-- `Object.exclude` (`voltar/validators/objects.py:105`): clone the
object and replace the inner dict validator by
`self._dict_validator.exclude(*fields)`. Modelled from the spec: the
`DictValidator.exclude` method lives in the missing
`voltar/validators/collections.py`; per spec §4.6 and the repository
tests it extends the excluded-fields set, leaving the declared schema
(and everything else) unchanged. -/
def ObjectV.exclude (o : ObjectV) (fields : List String) : ObjectV :=
  { o with excludedFields := fields.foldl addKey o.excludedFields }

/-- `Object.omit` (`voltar/validators/objects.py:126`): build
`Object(new_schema)` without the named keys, copy the
additional-properties policy, pattern rules and property-count bounds,
set the required keys to the base set minus the omitted fields, and
copy the outer contract attributes. The excluded-fields set is *not*
copied (the fresh inner `DictValidator` starts empty). -/
def ObjectV.omit (o : ObjectV) (fields : List String) : ObjectV :=
  { core := o.core,
    schema := o.schema.filter (fun kv => !fields.contains kv.1),
    addl := o.addl,
    patternProps := o.patternProps,
    minProps := o.minProps,
    maxProps := o.maxProps,
    requiredKeys := o.requiredKeys.filter (fun k => !fields.contains k),
    excludedFields := [] }

/-- `Object.validate`: the base `Validator.validate` with the outer
contract attributes (the `Object` class keeps the base `_is_nullable`,
which is false), delegating `_validate` to the inner dict validator. -/
def ObjectV.validate (o : ObjectV) (data : Value) : Except ValidationError Value :=
  if data.isNull then
    match o.core.dflt with
    | some d => .ok d.resolve
    | none =>
      if o.core.nullable then .ok .null
      else if o.core.optional then .ok .null
      else .error ⟨o.core.getErrorMessage "Value is required", []⟩
  else
    match vval o.toDict data [] with
    | .ok r => .ok r
    | .error e => .error (siftWrapError o.core.customErrorMessage e)

/-! ### Heap model of the collection validators

The frame claims about `List._validate`, `Dict._validate` and
`Tuple._validate` concern Python object identity: `result =
list(data)` / `dict(data)` copies the input container, item writes go
into the copy, and the returned container is freshly built. To state
this, the three `_validate` bodies are replayed over an explicit store
of containers: the input is passed as an address, the copy is a fresh
allocation, and every indexed assignment targets the copy's address.
Child validation reuses the pure interpreter `vval` (child validators
receive values, never the parent's container). -/

/-- A heap container: a Python list, tuple or dict object. -/
inductive Container where
  | clist (xs : List Value)
  | ctup (xs : List Value)
  | cdict (entries : Entries)

/-- The heap: containers addressed by allocation order. -/
abbrev Store := List Container

/-- `result[i] = v` on the list container at address `a`. -/
def setListItem (st : Store) (a i : Nat) (v : Value) : Store :=
  match st.get? a with
  | some (.clist xs) => st.set a (.clist (xs.set i v))
  | _ => st

/-- The contents of the list container at an address. -/
def getListItems (st : Store) (a : Nat) : List Value :=
  match st.get? a with
  | some (.clist xs) => xs
  | _ => []

/-- `result[key] = v` on the dict container at address `a`. -/
def setDictEntry (st : Store) (a : Nat) (k : String) (v : Value) : Store :=
  match st.get? a with
  | some (.cdict m) => st.set a (.cdict (Entries.set m k v))
  | _ => st

/-- The entries of the dict container at an address. -/
def getDictEntries (st : Store) (a : Nat) : Entries :=
  match st.get? a with
  | some (.cdict m) => m
  | _ => []

/-- The item loop of `List._validate` over the store: each validated
item is written into the copy at `raddr`; the iteration reads the
snapshot taken by `enumerate(result)` (writes never touch indices not
yet read). -/
def heapListItems (iv : Validator) (st : Store) (raddr : Nat) (xs : List Value)
    (i : Nat) (path : List PathSeg) : Store × Except ValidationError Unit :=
  match xs with
  | [] => (st, .ok ())
  | x :: rest =>
    match vval iv x (path ++ [.idx i]) with
    | .ok y => heapListItems iv (setListItem st raddr i y) raddr rest (i + 1) path
    | .error e => (st, .error e)

/-- The body of `List._validate` over the store after the type check:
copy the input items (`result = list(data)`), run the pure checks,
then the item loop writing only into the copy; the copy's address is
returned. -/
def heapListBody (itemValidator : Option Validator) (minL maxL : Option Nat)
    (unique nonempty : Bool) (c : Core) (st : Store) (xs : List Value)
    (path : List PathSeg) : Store × Except ValidationError Nat :=
  let raddr := st.length
  let st1 := st ++ [Container.clist xs]
  let checks : Except ValidationError Unit := do
    guardCheck (nonempty && xs.isEmpty) "List cannot be empty" c path
    checkOpt minL (fun n => xs.length < n)
      (fun n => "List must have at least " ++ toString n ++ " items") c path
    checkOpt maxL (fun n => xs.length > n)
      (fun n => "List must have at most " ++ toString n ++ " items") c path
    guardCheck (unique && hasDup xs) "List items must be unique" c path
  match checks with
  | .error e => (st1, .error e)
  | .ok _ =>
    match itemValidator with
    | some iv =>
      let (st2, r) := heapListItems iv st1 raddr xs 0 path
      (st2, r.map (fun _ => raddr))
    | none => (st1, .ok raddr)

/-- `List._validate` over the store: type check on the input
container, then the copying body. -/
def heapListValidate (itemValidator : Option Validator) (minL maxL : Option Nat)
    (unique nonempty : Bool) (c : Core) (st : Store) (addr : Nat)
    (path : List PathSeg) : Store × Except ValidationError Nat :=
  match st.get? addr with
  | some (.clist xs) => heapListBody itemValidator minL maxL unique nonempty c st xs path
  | some (.ctup xs) => heapListBody itemValidator minL maxL unique nonempty c st xs path
  | _ => (st, .error ⟨c.getErrorMessage "Expected list, got a non-sequence", path⟩)

/-- The schema-key loop of `Dict._validate` over the store. -/
def heapSchemaStep (schema : List (String × Validator)) (excluded : List String)
    (st : Store) (raddr : Nat) (path : List PathSeg) (validated : List String) :
    Store × Except ValidationError (List String) :=
  match schema with
  | [] => (st, .ok validated)
  | (key, v) :: rest =>
    if !excluded.contains key then
      match Entries.lookup (getDictEntries st raddr) key with
      | some val =>
        match vval v val (path ++ [.field key]) with
        | .ok y =>
          heapSchemaStep rest excluded (setDictEntry st raddr key y) raddr path
            (addKey validated key)
        | .error e => (st, .error e)
      | none => heapSchemaStep rest excluded st raddr path validated
    else heapSchemaStep rest excluded st raddr path validated

/-- The key scan of one pattern rule over the store. -/
def heapPatternKeys (v : Validator) (p : String) (excluded : List String)
    (ks : List String) (st : Store) (raddr : Nat) (path : List PathSeg)
    (validated : List String) : Store × Except ValidationError (List String) :=
  match ks with
  | [] => (st, .ok validated)
  | k :: rest =>
    if !excluded.contains k && reMatch p k then
      match Entries.lookup (getDictEntries st raddr) k with
      | some val =>
        match vval v val (path ++ [.field k]) with
        | .ok y =>
          heapPatternKeys v p excluded rest (setDictEntry st raddr k y) raddr path
            (addKey validated k)
        | .error e => (st, .error e)
      | none => heapPatternKeys v p excluded rest st raddr path validated
    else heapPatternKeys v p excluded rest st raddr path validated

/-- The pattern-rule loop of `Dict._validate` over the store. -/
def heapPatternsStep (pats : List (String × Validator)) (excluded : List String)
    (st : Store) (raddr : Nat) (path : List PathSeg) (validated : List String) :
    Store × Except ValidationError (List String) :=
  match pats with
  | [] => (st, .ok validated)
  | (p, v) :: rest =>
    match heapPatternKeys v p excluded
        (Entries.keyList (getDictEntries st raddr)) st raddr path validated with
    | (st, .ok validated) => heapPatternsStep rest excluded st raddr path validated
    | (st, .error e) => (st, .error e)

/-- The additional-properties loop of `Dict._validate` over the store. -/
def heapAddlStep (v : Validator) (ks : List String) (st : Store) (raddr : Nat)
    (path : List PathSeg) : Store × Except ValidationError Unit :=
  match ks with
  | [] => (st, .ok ())
  | k :: rest =>
    match Entries.lookup (getDictEntries st raddr) k with
    | some val =>
      match vval v val (path ++ [.field k]) with
      | .ok y => heapAddlStep v rest (setDictEntry st raddr k y) raddr path
      | .error e => (st, .error e)
    | none => heapAddlStep v rest st raddr path

/-- The body of `Dict._validate` over the store after the type check:
copy (`result = dict(data)`), pure property-count and required checks,
then the schema/pattern/additional loops writing only into the copy. -/
def heapDictBody (schema : List (String × Validator)) (addl : Addl)
    (patternProps : List (String × Validator)) (minProps maxProps : Option Nat)
    (requiredKeys excludedFields : List String) (c : Core) (st : Store)
    (m : Entries) (path : List PathSeg) : Store × Except ValidationError Nat :=
    let raddr := st.length
    let st1 := st ++ [Container.cdict m]
    let checks : Except ValidationError Unit := do
      checkOpt minProps (fun n => m.length < n)
        (fun n => "Object must have at least " ++ toString n ++ " properties")
        c path
      checkOpt maxProps (fun n => m.length > n)
        (fun n => "Object must have at most " ++ toString n ++ " properties")
        c path
      let missing := requiredKeys.filter
        (fun k => !Entries.hasKey m k && !excludedFields.contains k)
      guardCheck (!missing.isEmpty)
        ("Missing required properties: " ++ String.intercalate ", " missing)
        c path
    match checks with
    | .error e => (st1, .error e)
    | .ok _ =>
      match heapSchemaStep schema excludedFields st1 raddr path [] with
      | (st2, .error e) => (st2, .error e)
      | (st2, .ok validated) =>
        match heapPatternsStep patternProps excludedFields st2 raddr path validated with
        | (st3, .error e) => (st3, .error e)
        | (st3, .ok validated) =>
          let unvalidated := (Entries.keyList (getDictEntries st3 raddr)).filter
            (fun k => !validated.contains k && !excludedFields.contains k)
          if !unvalidated.isEmpty then
            match addl with
            | .forbid =>
              (st3, .error ⟨c.getErrorMessage ("Unexpected additional properties: " ++
                String.intercalate ", " unvalidated), path⟩)
            | .withV v =>
              match heapAddlStep v unvalidated st3 raddr path with
              | (st4, .ok _) => (st4, .ok raddr)
              | (st4, .error e) => (st4, .error e)
            | .allow => (st3, .ok raddr)
          else (st3, .ok raddr)

/-- `Dict._validate` over the store: type check on the input
container, then the copying body. -/
def heapDictValidate (schema : List (String × Validator)) (addl : Addl)
    (patternProps : List (String × Validator)) (minProps maxProps : Option Nat)
    (requiredKeys excludedFields : List String) (c : Core) (st : Store)
    (addr : Nat) (path : List PathSeg) : Store × Except ValidationError Nat :=
  match st.get? addr with
  | some (.cdict m) =>
    heapDictBody schema addl patternProps minProps maxProps requiredKeys
      excludedFields c st m path
  | _ => (st, .error ⟨c.getErrorMessage "Expected object/dict, got a non-mapping", path⟩)

/-- The fixed-position loop of `Tuple._validate` over the store. -/
def heapTupleFixed (vs : List Validator) (st : Store) (raddr : Nat)
    (xs : List Value) (i : Nat) (c : Core) (path : List PathSeg) :
    Store × Except ValidationError Unit :=
  match vs, xs with
  | [], _ => (st, .ok ())
  | _ :: _, [] =>
    (st, .error ⟨c.getErrorMessage ("Missing item at position " ++ toString i), path⟩)
  | v :: vrest, x :: xrest =>
    match vval v x (path ++ [.idx i]) with
    | .ok y => heapTupleFixed vrest (setListItem st raddr i y) raddr xrest (i + 1) c path
    | .error e => (st, .error e)

/-- The rest-item loop of `Tuple._validate` over the store. -/
def heapTupleRest (rv : Validator) (st : Store) (raddr : Nat) (xs : List Value)
    (i : Nat) (path : List PathSeg) : Store × Except ValidationError Unit :=
  match xs with
  | [] => (st, .ok ())
  | x :: rest =>
    match vval rv x (path ++ [.idx i]) with
    | .ok y => heapTupleRest rv (setListItem st raddr i y) raddr rest (i + 1) path
    | .error e => (st, .error e)

/-- The rest-item section of `Tuple._validate`: if a rest validator is
configured and there are surplus items, run the rest loop over them;
otherwise leave the store as is. -/
def heapTupleAfterRest (restValidator : Option Validator) (fixedLen : Nat)
    (st : Store) (raddr : Nat) (xs : List Value) (path : List PathSeg) :
    Store × Except ValidationError Unit :=
  match restValidator with
  | some rv =>
    if xs.length > fixedLen then
      heapTupleRest rv st raddr (xs.drop fixedLen) fixedLen path
    else (st, .ok ())
  | none => (st, .ok ())

/-- The body of `Tuple._validate` over the store after the type check:
working copy (`result = list(data)`), length checks, positional and
rest loops writing into the copy, and finally `tuple(result)` — a
second fresh allocation holding the copy's final contents, whose
address is returned. -/
def heapTupleBody (itemValidators : List Validator)
    (restValidator : Option Validator) (minLength : Nat) (maxLength : Option Nat)
    (c : Core) (st : Store) (xs : List Value) (path : List PathSeg) :
    Store × Except ValidationError Nat :=
  let raddr := st.length
  let st1 := st ++ [Container.clist xs]
  let checks : Except ValidationError Unit := do
    guardCheck (xs.length < minLength)
      ("Tuple must have at least " ++ toString minLength ++ " items") c path
    checkOpt maxLength (fun n => xs.length > n)
      (fun n => "Tuple must have at most " ++ toString n ++ " items") c path
  match checks with
  | .error e => (st1, .error e)
  | .ok _ =>
    match heapTupleFixed itemValidators st1 raddr xs 0 c path with
    | (st2, .error e) => (st2, .error e)
    | (st2, .ok _) =>
      match heapTupleAfterRest restValidator itemValidators.length st2 raddr xs path with
      | (st3, .error e) => (st3, .error e)
      | (st3, .ok _) =>
        (st3 ++ [Container.ctup (getListItems st3 raddr)], .ok st3.length)

/-- `Tuple._validate` over the store: type check on the input
container, then the copying body. -/
def heapTupleValidate (itemValidators : List Validator)
    (restValidator : Option Validator) (minLength : Nat) (maxLength : Option Nat)
    (c : Core) (st : Store) (addr : Nat) (path : List PathSeg) :
    Store × Except ValidationError Nat :=
  match st.get? addr with
  | some (.clist xs) =>
    heapTupleBody itemValidators restValidator minLength maxLength c st xs path
  | some (.ctup xs) =>
    heapTupleBody itemValidators restValidator minLength maxLength c st xs path
  | _ => (st, .error ⟨c.getErrorMessage "Expected tuple, got a non-sequence", path⟩)

/-! ### Heap model of the asynchronous collection validators

`List._validate_async`, `Dict._validate_async` and `Tuple._validate_async`
follow the same copy-first discipline: `result = list(data)` /
`dict(data)`, subtasks are created reading the copy (no write has
happened yet, so every task captures an original value), and the
result-consumption loops write only into the copy, stopping at the
first failed task. Task creation reuses the pure subtask builders of
the `_validate_async` interpreter (`listItemsA`, `schemaTasksA`,
`patternTasksA`, `addlTasksA`, `tupleFixedTasksA`, `tupleRestTasksA`);
only the write loops touch the store. -/

/-- The result-consumption loop over indexed item tasks (`for i, item
in enumerate(validated_items): ... result[i] = item` of
`List._validate_async`, and the `result[i] = await task` loop of
`Tuple._validate_async`): successes are written into the copy in
order until the first failure is raised. -/
def heapWriteItemsA (st : Store) (raddr : Nat)
    (rs : List (Except ValidationError Value)) (i : Nat) :
    Store × Except ValidationError Unit :=
  match rs with
  | [] => (st, .ok ())
  | .ok y :: rest => heapWriteItemsA (setListItem st raddr i y) raddr rest (i + 1)
  | .error e :: _ => (st, .error e)

/-- The result-consumption loop over keyed tasks (`result[key] =
value` / `result[key] = await task` of `Dict._validate_async`):
successes are written into the copy in task order until the first
failure is raised. -/
def heapWriteKeyedA (st : Store) (raddr : Nat)
    (rs : List (String × Except ValidationError Value)) :
    Store × Except ValidationError Unit :=
  match rs with
  | [] => (st, .ok ())
  | (k, .ok y) :: rest => heapWriteKeyedA (setDictEntry st raddr k y) raddr rest
  | (_, .error e) :: _ => (st, .error e)

/-- The body of `List._validate_async` over the store after the type
check: copy the input items, run the pure checks, create one task per
item of the (unwritten) copy, then consume the results writing only
into the copy; the copy's address is returned. -/
def heapListBodyA (itemValidator : Option Validator) (minL maxL : Option Nat)
    (unique nonempty : Bool) (c : Core) (st : Store) (xs : List Value)
    (path : List PathSeg) : Store × Except ValidationError Nat :=
  let raddr := st.length
  let st1 := st ++ [Container.clist xs]
  let checks : Except ValidationError Unit := do
    guardCheck (nonempty && xs.isEmpty) "List cannot be empty" c path
    checkOpt minL (fun n => xs.length < n)
      (fun n => "List must have at least " ++ toString n ++ " items") c path
    checkOpt maxL (fun n => xs.length > n)
      (fun n => "List must have at most " ++ toString n ++ " items") c path
    guardCheck (unique && hasDup xs) "List items must be unique" c path
  match checks with
  | .error e => (st1, .error e)
  | .ok _ =>
    match itemValidator with
    | some iv =>
      let (st2, r) := heapWriteItemsA st1 raddr (listItemsA iv xs 0 path) 0
      (st2, r.map (fun _ => raddr))
    | none => (st1, .ok raddr)

/-- `List._validate_async` over the store: type check on the input
container, then the copying body. -/
def heapListValidateA (itemValidator : Option Validator) (minL maxL : Option Nat)
    (unique nonempty : Bool) (c : Core) (st : Store) (addr : Nat)
    (path : List PathSeg) : Store × Except ValidationError Nat :=
  match st.get? addr with
  | some (.clist xs) => heapListBodyA itemValidator minL maxL unique nonempty c st xs path
  | some (.ctup xs) => heapListBodyA itemValidator minL maxL unique nonempty c st xs path
  | _ => (st, .error ⟨c.getErrorMessage "Expected list, got a non-sequence", path⟩)

/-- The body of `Dict._validate_async` over the store after the type
check: copy (`result = dict(data)`), pure property-count and required
checks, then schema, pattern and additional-property tasks are all
created reading the unwritten copy (marking their keys validated), and
the three result-consumption loops write only into the copy; the
forbid check runs last over the copy's keys. -/
def heapDictBodyA (schema : List (String × Validator)) (addl : Addl)
    (patternProps : List (String × Validator)) (minProps maxProps : Option Nat)
    (requiredKeys : List String) (c : Core) (st : Store)
    (m : Entries) (path : List PathSeg) : Store × Except ValidationError Nat :=
  let raddr := st.length
  let st1 := st ++ [Container.cdict m]
  let checks : Except ValidationError Unit := do
    checkOpt minProps (fun n => m.length < n)
      (fun n => "Object must have at least " ++ toString n ++ " properties")
      c path
    checkOpt maxProps (fun n => m.length > n)
      (fun n => "Object must have at most " ++ toString n ++ " properties")
      c path
    let missing := requiredKeys.filter (fun k => !Entries.hasKey m k)
    guardCheck (!missing.isEmpty)
      ("Missing required properties: " ++ String.intercalate ", " missing)
      c path
  match checks with
  | .error e => (st1, .error e)
  | .ok _ =>
    let schemaTasks := schemaTasksA schema [] m path
    let validated := (schemaTasks.map Prod.fst).foldl addKey []
    let (patternTasks, validated) := patternTasksA patternProps [] m path validated
    let addlTasks :=
      match addl with
      | .withV v =>
        addlTasksA v ((Entries.keyList m).filter (fun k => !validated.contains k))
          m path
      | _ => []
    match heapWriteKeyedA st1 raddr schemaTasks with
    | (st2, .error e) => (st2, .error e)
    | (st2, .ok _) =>
      match heapWriteKeyedA st2 raddr patternTasks with
      | (st3, .error e) => (st3, .error e)
      | (st3, .ok _) =>
        match heapWriteKeyedA st3 raddr addlTasks with
        | (st4, .error e) => (st4, .error e)
        | (st4, .ok _) =>
          let unvalidated := (Entries.keyList (getDictEntries st4 raddr)).filter
            (fun k => !validated.contains k)
          match addl with
          | .forbid =>
            if !unvalidated.isEmpty then
              (st4, .error ⟨c.getErrorMessage ("Unexpected additional properties: " ++
                String.intercalate ", " unvalidated), path⟩)
            else (st4, .ok raddr)
          | _ => (st4, .ok raddr)

/-- `Dict._validate_async` over the store: type check on the input
container, then the copying body. -/
def heapDictValidateA (schema : List (String × Validator)) (addl : Addl)
    (patternProps : List (String × Validator)) (minProps maxProps : Option Nat)
    (requiredKeys : List String) (c : Core) (st : Store)
    (addr : Nat) (path : List PathSeg) : Store × Except ValidationError Nat :=
  match st.get? addr with
  | some (.cdict m) =>
    heapDictBodyA schema addl patternProps minProps maxProps requiredKeys c st m path
  | _ => (st, .error ⟨c.getErrorMessage "Expected object/dict, got a non-mapping", path⟩)

/-- The body of `Tuple._validate_async` over the store after the type
check: working copy, length checks, fixed- and rest-position tasks
created reading the unwritten copy (the missing-position failure is
raised during task creation), one write loop consuming the results in
index order, and finally `tuple(result)` — a second fresh allocation
holding the copy's final contents, whose address is returned. -/
def heapTupleBodyA (itemValidators : List Validator)
    (restValidator : Option Validator) (minLength : Nat) (maxLength : Option Nat)
    (c : Core) (st : Store) (xs : List Value) (path : List PathSeg) :
    Store × Except ValidationError Nat :=
  let raddr := st.length
  let st1 := st ++ [Container.clist xs]
  let checks : Except ValidationError Unit := do
    guardCheck (xs.length < minLength)
      ("Tuple must have at least " ++ toString minLength ++ " items") c path
    checkOpt maxLength (fun n => xs.length > n)
      (fun n => "Tuple must have at most " ++ toString n ++ " items") c path
  match checks with
  | .error e => (st1, .error e)
  | .ok _ =>
    match tupleFixedTasksA itemValidators xs 0 c path with
    | .error e => (st1, .error e)
    | .ok fixedTasks =>
      let restTasks :=
        match restValidator with
        | some rv =>
          if xs.length > itemValidators.length then
            tupleRestTasksA rv (xs.drop itemValidators.length)
              itemValidators.length path
          else []
        | none => []
      match heapWriteItemsA st1 raddr (fixedTasks ++ restTasks) 0 with
      | (st2, .error e) => (st2, .error e)
      | (st2, .ok _) =>
        (st2 ++ [Container.ctup (getListItems st2 raddr)], .ok st2.length)

/-- `Tuple._validate_async` over the store: type check on the input
container, then the copying body. -/
def heapTupleValidateA (itemValidators : List Validator)
    (restValidator : Option Validator) (minLength : Nat) (maxLength : Option Nat)
    (c : Core) (st : Store) (addr : Nat) (path : List PathSeg) :
    Store × Except ValidationError Nat :=
  match st.get? addr with
  | some (.clist xs) =>
    heapTupleBodyA itemValidators restValidator minLength maxLength c st xs path
  | some (.ctup xs) =>
    heapTupleBodyA itemValidators restValidator minLength maxLength c st xs path
  | _ => (st, .error ⟨c.getErrorMessage "Expected tuple, got a non-sequence", path⟩)

/-! ### Predicates used by the theorems -/

/-- The `"Option N: ..."` tags of the failed candidates among a list of
candidate results, numbering positions from `i` (used to state the
aggregate failure message of `Union`). -/
def optionTags : List (Except ValidationError Value) → Nat → List String
  | [], _ => []
  | .error e :: rest, i =>
    ("Option " ++ toString (i + 1) ++ ": " ++ e.render) :: optionTags rest (i + 1)
  | .ok _ :: rest, i => optionTags rest (i + 1)

/-- Pairwise-distinct strings (Python `dict` keys are distinct by
construction). -/
def distinctKeys : List String → Bool
  | [] => true
  | k :: rest => !rest.contains k && distinctKeys rest

mutual
/-- Sufficient syntactic condition under which the synchronous and
asynchronous `_validate` paths agree: no Dict node carries pattern
rules (the two paths treat pattern rules differently), every Dict
node's schema keys are pairwise distinct (a Python `dict` invariant),
and every Tuple node keeps the constructor invariant
`len(item_validators) ≤ min_length` (established by `__init__` and
preserved by `min()`). -/
def Validator.syncAsyncSafe : Validator → Bool
  | .string _ _ _ _ _ _ _ _ => true
  | .number _ _ _ _ _ _ _ => true
  | .boolean _ _ => true
  | .anyV _ => true
  | .nullV _ => true
  | .list i _ _ _ _ _ => safeOpt i
  | .dict s a p _ _ _ _ _ =>
    p.isEmpty && distinctKeys (s.map Prod.fst) && safePairs s && safeAddl a
  | .tuple i r minL _ _ => decide (i.length ≤ minL) && safeList i && safeOpt r
  | .union v _ m _ => safeList v && safeVPairs m

/-- `syncAsyncSafe` on an optional child. -/
def safeOpt : Option Validator → Bool
  | none => true
  | some v => v.syncAsyncSafe

/-- `syncAsyncSafe` on a list of children. -/
def safeList : List Validator → Bool
  | [] => true
  | v :: rest => v.syncAsyncSafe && safeList rest

/-- `syncAsyncSafe` on keyed children. -/
def safePairs : List (String × Validator) → Bool
  | [] => true
  | (_, v) :: rest => v.syncAsyncSafe && safePairs rest

/-- `syncAsyncSafe` on a discriminator map. -/
def safeVPairs : List (Value × Validator) → Bool
  | [] => true
  | (_, v) :: rest => v.syncAsyncSafe && safeVPairs rest

/-- `syncAsyncSafe` on the additional-properties policy. -/
def safeAddl : Addl → Bool
  | .allow => true
  | .forbid => true
  | .withV v => v.syncAsyncSafe
end

mutual
/-- Every dict nested in the value has pairwise-distinct keys — true of
any value that entered through Python `dict` objects; association
lists in the embedding can violate it, so the sync/async agreement
theorem assumes it. -/
def Value.wfKeys : Value → Bool
  | .null => true
  | .bool _ => true
  | .int _ => true
  | .str _ => true
  | .list xs => wfKeysList xs
  | .tup xs => wfKeysList xs
  | .dict es => distinctKeys (es.map Prod.fst) && wfKeysEntries es

/-- `wfKeys` on the elements of a list. -/
def wfKeysList : List Value → Bool
  | [] => true
  | x :: rest => x.wfKeys && wfKeysList rest

/-- `wfKeys` on the values of dict entries. -/
def wfKeysEntries : Entries → Bool
  | [] => true
  | (_, v) :: rest => v.wfKeys && wfKeysEntries rest
end

/-! ### Helper lemmas -/

theorem Entries.length_set (m : Entries) (k : String) (v : Value) :
    (Entries.set m k v).length = m.length := by
  induction m with
  | nil => rfl
  | cons kv rest ih =>
    obtain ⟨k', v'⟩ := kv
    by_cases h : (k' == k)
    · simp [Entries.set, h]
    · simp [Entries.set, h, ih]

theorem Entries.keyList_set (m : Entries) (k : String) (v : Value) :
    Entries.keyList (Entries.set m k v) = Entries.keyList m := by
  induction m with
  | nil => rfl
  | cons kv rest ih =>
    obtain ⟨k', v'⟩ := kv
    by_cases h : (k' == k)
    · simp [Entries.set, Entries.keyList, h]
    · simp [Entries.set, Entries.keyList, h] at ih ⊢
      exact ih

theorem Entries.lookup_set_ne (m : Entries) (k k' : String) (v : Value)
    (h : k' ≠ k) : Entries.lookup (Entries.set m k v) k' = Entries.lookup m k' := by
  induction m with
  | nil => rfl
  | cons kv rest ih =>
    obtain ⟨k₀, v₀⟩ := kv
    by_cases h0 : (k₀ == k)
    · have : ¬(k₀ == k') := by
        simp only [beq_iff_eq] at h0 ⊢
        exact fun hk => h (hk ▸ h0 ▸ rfl)
      simp [Entries.set, Entries.lookup, h0, this]
    · by_cases h1 : (k₀ == k')
      · simp [Entries.set, Entries.lookup, h0, h1]
      · simp [Entries.set, Entries.lookup, h0, h1, ih]

theorem Entries.lookup_set_self (m : Entries) (k : String) (v : Value)
    (h : Entries.hasKey m k = true) :
    Entries.lookup (Entries.set m k v) k = some v := by
  induction m with
  | nil => simp [Entries.hasKey, Entries.lookup] at h
  | cons kv rest ih =>
    obtain ⟨k₀, v₀⟩ := kv
    by_cases h0 : (k₀ == k)
    · simp [Entries.set, Entries.lookup, h0]
    · simp [Entries.hasKey, Entries.lookup, h0] at h
      simp [Entries.set, Entries.lookup, h0, ih]
      exact ih (by simp [Entries.hasKey]; exact h)

theorem Entries.hasKey_set (m : Entries) (k k' : String) (v : Value) :
    Entries.hasKey (Entries.set m k v) k' = Entries.hasKey m k' := by
  by_cases h : k' = k
  · subst h
    by_cases hm : Entries.hasKey m k'
    · simp [Entries.hasKey, Entries.lookup_set_self m k' v hm, hm]
      exact hm
    · have : Entries.set m k' v = m := by
        induction m with
        | nil => rfl
        | cons kv rest ih =>
          obtain ⟨k₀, v₀⟩ := kv
          by_cases h0 : (k₀ == k')
          · simp [Entries.hasKey, Entries.lookup, h0] at hm
          · simp [Entries.hasKey, Entries.lookup, h0] at hm
            simp [Entries.set, h0]
            exact ih (by simp [Entries.hasKey]; exact hm)
      rw [this]
  · simp [Entries.hasKey, Entries.lookup_set_ne m k k' v h]

theorem Entries.set_self (m : Entries) (k : String) (v : Value)
    (h : Entries.lookup m k = some v) : Entries.set m k v = m := by
  induction m with
  | nil => rfl
  | cons kv rest ih =>
    obtain ⟨k₀, v₀⟩ := kv
    by_cases h0 : (k₀ == k)
    · simp [Entries.lookup, h0] at h
      simp [Entries.set, h0, h]
    · simp [Entries.lookup, h0] at h
      simp [Entries.set, h0, ih h]

theorem Entries.set_comm (m : Entries) (k k' : String) (v v' : Value)
    (h : k ≠ k') :
    Entries.set (Entries.set m k v) k' v' = Entries.set (Entries.set m k' v') k v := by
  induction m with
  | nil => rfl
  | cons kv rest ih =>
    obtain ⟨k₀, v₀⟩ := kv
    by_cases h0 : (k₀ == k)
    · have h1 : ¬(k₀ == k') := by
        simp only [beq_iff_eq] at h0 ⊢
        exact fun hk => h (h0 ▸ hk)
      simp [Entries.set, h0, h1]
    · by_cases h1 : (k₀ == k')
      · simp [Entries.set, h0, h1]
      · simp [Entries.set, h0, h1, ih]

theorem Validator.withCore_core (v : Validator) (c : Core) : (v.withCore c).core = c := by
  cases v <;> rfl

theorem Validator.withCore_self (v : Validator) : v.withCore v.core = v := by
  cases v <;> rfl

theorem Validator.withCore_withCore (v : Validator) (c c' : Core) :
    (v.withCore c).withCore c' = v.withCore c' := by
  cases v <;> rfl

/-- For validators other than `Null`, the public `validate` is the
shared base method. -/
theorem validate_eq_validateBase (v : Validator) (h : ∀ c, v ≠ .nullV c)
    (data : Value) : v.validate data = validateBase v data := by
  cases v <;> first
    | rfl
    | exact absurd rfl (h _)

/-! ### Claims -/

/-- Claim C5, counterexample: the claim says each builder method
changes exactly one attribute, but the voltar `default(value)` changes
two — it sets `_default` and also flips `_optional` to true on a
validator that was not optional. -/
theorem c5_counterexample :
    ((Validator.string none none none false false false false {}).voltarDefaultM
        (some (.val (.int 1)))).core.optional = true ∧
    (Validator.string none none none false false false false {}).core.optional = false ∧
    ((Validator.string none none none false false false false {}).voltarDefaultM
        (some (.val (.int 1)))).core.dflt.isSome = true ∧
    (Validator.string none none none false false false false {}).core.dflt.isSome = false := by
  refine ⟨rfl, rfl, rfl, rfl⟩

/-- Claim C5 (amended): the sift builders `optional()`, `nullable()`,
`default(...)` and `error(...)` each return a validator that differs
from the receiver in exactly the named contract attribute (the
type-specific configuration and the other contract attributes are
untouched, and the receiver itself — being a value in this embedding —
is unchanged); the voltar `default(...)` differs in exactly the two
attributes `_default` and `_optional`. -/
theorem c5_builders_one_attribute (v : Validator) (d : Option Dflt) (m : String) :
    ((v.optionalM).withCore v.core = v ∧
      (v.optionalM).core = { v.core with optional := true }) ∧
    ((v.nullableM).withCore v.core = v ∧
      (v.nullableM).core = { v.core with nullable := true }) ∧
    ((v.defaultM d).withCore v.core = v ∧
      (v.defaultM d).core = { v.core with dflt := d }) ∧
    ((v.errorM m).withCore v.core = v ∧
      (v.errorM m).core = { v.core with customErrorMessage := some m }) ∧
    ((v.voltarDefaultM d).withCore v.core = v ∧
      (v.voltarDefaultM d).core = { v.core with dflt := d, optional := true }) := by
  refine ⟨⟨?_, ?_⟩, ⟨?_, ?_⟩, ⟨?_, ?_⟩, ⟨?_, ?_⟩, ⟨?_, ?_⟩⟩ <;>
    simp [Validator.optionalM, Validator.nullableM, Validator.defaultM,
      Validator.errorM, Validator.voltarDefaultM, Validator.withCore_withCore,
      Validator.withCore_self, Validator.withCore_core]

/-- Claim C6, counterexample: the claim says a custom message replaces
the failure's message while preserving its path exactly, including for
multi-entry failures; but the voltar `_wrap_error`, on a failure with
two field entries and path `["a"]`, rebuilds the error with
`ValidationError(errors=...)`, whose path is the empty (root) path. -/
theorem c6_counterexample :
    (voltarWrapError (some "M")
        { message := "m", path := [.field "a"],
          errors := [("a", { message := "m1" }), ("b", { message := "m2" })] }).path
      = [] ∧
    ([PathSeg.field "a"] : List PathSeg) ≠ [] := by
  exact ⟨rfl, by decide⟩

/-- Claim C6 (amended): a custom error message replaces the message of
a failure surfacing through `validate` while preserving its path, in
the sift `_wrap_error` always and in the voltar `_wrap_error` whenever
the inner failure has at most one field entry; in the voltar
multi-entry branch every entry's message is replaced (entry keys kept)
but the rebuilt error's path is reset to the root. -/
theorem c6_wrap_error_message_path (m : String) (e : ValidationError)
    (ev : VoltarError) (v : Validator) (x : Value) :
    ((siftWrapError (some m) e).message = m ∧ (siftWrapError (some m) e).path = e.path) ∧
    (siftWrapError none e = e) ∧
    (ev.errors.length ≤ 1 →
      (voltarWrapError (some m) ev).message = m ∧
      (voltarWrapError (some m) ev).path = ev.path) ∧
    (ev.errors.length > 1 →
      (voltarWrapError (some m) ev).path = [] ∧
      (voltarWrapError (some m) ev).errors.map Prod.fst = ev.errors.map Prod.fst ∧
      ∀ kv ∈ (voltarWrapError (some m) ev).errors, kv.2.message = m) ∧
    ((∀ c, v ≠ .nullV c) → v.core.customErrorMessage = some m → ¬x.isNull →
      vval v x [] = .error e → v.validate x = .error ⟨m, e.path⟩) := by
  refine ⟨⟨rfl, rfl⟩, rfl, ?_, ?_, ?_⟩
  · intro h
    have hle : ¬ev.errors.length > 1 := by omega
    simp [voltarWrapError, hle, mkVoltarErrorMsg]
  · intro h
    simp [voltarWrapError, h, mkVoltarErrorErrors]
    intro a b k ent _ _ hb
    exact hb ▸ rfl
  · intro hv hm hx hval
    rw [validate_eq_validateBase v hv]
    unfold validateBase
    simp [hx, hval, siftWrapError, hm]

/-- Claim C6 witness: the amended statement applied at concrete
inputs — a single-entry voltar failure keeps its path under the custom
message, and the sift wrapper keeps the path too. -/
theorem c6_witness :
    (voltarWrapError (some "M")
        (mkVoltarErrorMsg "inner" [.field "f"] none)).path = [.field "f"] ∧
    (siftWrapError (some "M") ⟨"inner", [.idx 3]⟩).path = [.idx 3] := by
  have h := c6_wrap_error_message_path "M" ⟨"inner", [.idx 3]⟩
    (mkVoltarErrorMsg "inner" [.field "f"] none)
    (Validator.anyV {}) (.int 0)
  exact ⟨(h.2.2.1 (by decide)).2, h.1.2⟩

/-- Claim C1, counterexample: the claim says that whenever a default is
configured, `validate(None)` returns the default; but `Null.validate`
overrides the base method and returns `None` for a null input even with
a configured default (the repository's own test
`test_with_default` in `sift/tests/validators/test_primitives.py`
asserts exactly this behavior). -/
theorem c1_counterexample :
    Validator.validate (.nullV { dflt := some (.val (.str "default")) }) .null
      = .ok .null ∧
    (Except.ok Value.null : Except ValidationError Value) ≠ .ok (.str "default") := by
  exact ⟨rfl, by simp⟩

/-- Claim C1 (amended): the None-handling precedence — configured
default returned (producer resolved), else nullable (explicit flag or
the `_is_nullable` class property) returns null, else optional returns
null, else a "Value is required" failure (through
`_get_error_message`, so a custom message substitutes) — holds at
`validate` for every validator except `Null`, and at `validate_async`
for every validator including `Null`; `Null.validate` instead returns
null for a null input regardless of the configured default. -/
theorem c1_none_precedence (v : Validator) (c : Core) :
    ((∀ c', v ≠ .nullV c') →
      (∀ d, v.core.dflt = some d → v.validate .null = .ok d.resolve) ∧
      (v.core.dflt = none → (v.core.nullable || v.isNullableClass) = true →
        v.validate .null = .ok .null) ∧
      (v.core.dflt = none → (v.core.nullable || v.isNullableClass) = false →
        v.core.optional = true → v.validate .null = .ok .null) ∧
      (v.core.dflt = none → (v.core.nullable || v.isNullableClass) = false →
        v.core.optional = false →
        v.validate .null = .error ⟨v.core.getErrorMessage "Value is required", []⟩)) ∧
    ((∀ d, v.core.dflt = some d → v.validateAsync .null = .ok d.resolve) ∧
      (v.core.dflt = none → (v.core.nullable || v.isNullableClass) = true →
        v.validateAsync .null = .ok .null) ∧
      (v.core.dflt = none → (v.core.nullable || v.isNullableClass) = false →
        v.core.optional = true → v.validateAsync .null = .ok .null) ∧
      (v.core.dflt = none → (v.core.nullable || v.isNullableClass) = false →
        v.core.optional = false →
        v.validateAsync .null = .error ⟨v.core.getErrorMessage "Value is required", []⟩)) ∧
    (Validator.validate (.nullV c) .null = .ok .null) := by
  refine ⟨?_, ⟨?_, ?_, ?_, ?_⟩, rfl⟩
  · intro hv
    rw [show v.validate .null = validateBase v .null from
      validate_eq_validateBase v hv .null, validateBase]
    refine ⟨?_, ?_, ?_, ?_⟩
    · intro d hd; simp [Value.isNull, hd]
    · intro hd hn; simp [Value.isNull, hd, hn]
    · intro hd hn ho
      simp only [Bool.or_eq_false_iff] at hn
      simp [Value.isNull, hd, hn.1, hn.2, ho]
    · intro hd hn ho
      simp only [Bool.or_eq_false_iff] at hn
      simp [Value.isNull, hd, hn.1, hn.2, ho]
  all_goals
    unfold Validator.validateAsync
  · intro d hd; simp [Value.isNull, hd]
  · intro hd hn; simp [Value.isNull, hd, hn]
  · intro hd hn ho
    simp only [Bool.or_eq_false_iff] at hn
    simp [Value.isNull, hd, hn.1, hn.2, ho]
  · intro hd hn ho
    simp only [Bool.or_eq_false_iff] at hn
    simp [Value.isNull, hd, hn.1, hn.2, ho]

/-- Claim C1 witness: the precedence applied at concrete validators —
a String with a default produces the default, an optional Boolean
produces null, a bare Number raises the required failure (also
asynchronously), and `Null.validate` accepts null. -/
theorem c1_witness :
    (Validator.string none none none false false false false
      { dflt := some (.val (.str "d")) }).validate .null = .ok (.str "d") ∧
    (Validator.boolean false { optional := true }).validate .null = .ok .null ∧
    (Validator.number none none false false false none {}).validate .null =
      .error ⟨"Value is required", []⟩ ∧
    (Validator.number none none false false false none {}).validateAsync .null =
      .error ⟨"Value is required", []⟩ ∧
    (Validator.nullV {}).validate .null = .ok .null := by
  have h1 := c1_none_precedence
    (.string none none none false false false false
      { dflt := some (.val (.str "d")) }) {}
  have h2 := c1_none_precedence (.boolean false { optional := true }) {}
  have h3 := c1_none_precedence (.number none none false false false none {}) {}
  exact ⟨(h1.1 (by intro c' h; cases h)).1 _ rfl,
    ((h2.1 (by intro c' h; cases h)).2.2.1 rfl rfl rfl),
    ((h3.1 (by intro c' h; cases h)).2.2.2 rfl rfl rfl),
    (h3.2.1.2.2.2 rfl rfl rfl),
    h3.2.2⟩

set_option maxHeartbeats 2000000 in
/-- Claim C3, counterexample: the claim says the None precedence is
re-evaluated at every child node, so a child with a configured default
yields that default for a None slot and a merely-optional child accepts
None. In the code, children are invoked through `_validate`, which
skips the precedence: a String child with default `"x"` on slot `None`
raises a type error instead of producing `"x"`, and a merely-optional
String child raises the same type error. -/
theorem c3_counterexample :
    Validator.validate
      (.dict [("a", .string none none none false false false false
        { dflt := some (.val (.str "x")) })] .allow [] none none ["a"] [] {})
      (.dict [("a", .null)])
      = .error ⟨"Expected string, got NoneType", [.field "a"]⟩ ∧
    Validator.validate
      (.dict [("b", .string none none none false false false false
        { optional := true })] .allow [] none none [] [] {})
      (.dict [("b", .null)])
      = .error ⟨"Expected string, got NoneType", [.field "b"]⟩ := by
  constructor <;>
    simp +decide [Validator.validate, validateBase, vval, schemaStep, patternsStep,
      patternKeysStep, addlStep, Entries.lookup, Entries.set, Entries.hasKey,
      Entries.keyList, addKey, Value.isNull, Value.typeName, Validator.core,
      Validator.isNullableClass, Core.getErrorMessage, guardCheck, checkOpt,
      siftWrapError, Bind.bind, Except.bind]

set_option maxHeartbeats 2000000 in
/-- Claim C3 (amended): at a child slot holding None, only the child's
explicit nullable flag is re-checked (`if data is None and
self._nullable` in each `_validate`); configured defaults and the
optional flag are ignored at child nodes. For a one-field Dict built by
the constructor (required keys derived from the schema), a String child
whose slot holds None validates to None exactly when the child is
nullable, and otherwise fails with the child's type error at the
child's path — whatever its default and optional settings. -/
theorem c3_child_slot_nullability (c : Core) (k : String) :
    Validator.validate
      (.dict [(k, .string none none none false false false false c)] .allow []
        none none
        (requiredFromSchema [(k, .string none none none false false false false c)])
        [] {})
      (.dict [(k, .null)])
      = (if c.nullable then .ok (.dict [(k, .null)])
         else .error ⟨c.getErrorMessage "Expected string, got NoneType",
           [.field k]⟩) := by
  obtain ⟨copt, cnul, cdflt, cmsg⟩ := c
  cases copt <;> cases cnul <;>
    simp +decide [Validator.validate, validateBase, vval, schemaStep, patternsStep,
      patternKeysStep, addlStep, requiredFromSchema, Entries.lookup, Entries.set,
      Entries.hasKey, Entries.keyList, addKey, Value.isNull, Value.typeName,
      Validator.core, Validator.isNullableClass, Core.getErrorMessage, guardCheck,
      checkOpt, siftWrapError, Bind.bind, Except.bind]

/-- The candidate loop of `Union._validate` when every candidate
fails: one failure whose message appends, to the already-collected
tags, `"Option N: str(e)"` for each candidate in declared order. -/
theorem unionStep_all_fail (c : Core) (data : Value) (path : List PathSeg) :
    ∀ (cands : List Validator) (i : Nat) (errs : List String),
    (∀ (j : Nat) (hj : j < cands.length),
      ∃ e, vval (cands.get ⟨j, hj⟩) data path = .error e) →
    unionStep cands c i errs data path =
      .error ⟨c.getErrorMessage ("Value does not match any of the expected types:\n" ++
        String.intercalate "\n"
          (errs.reverse ++ optionTags (cands.map (fun v => vval v data path)) i)),
        path⟩ := by
  intro cands
  induction cands with
  | nil => intro i errs _; simp [unionStep, optionTags]
  | cons v rest ih =>
    intro i errs h
    obtain ⟨e, he⟩ := h 0 (by simp)
    simp only [List.get] at he
    have hrest : ∀ (j : Nat) (hj : j < rest.length),
        ∃ e, vval (rest.get ⟨j, hj⟩) data path = .error e := by
      intro j hj
      exact h (j + 1) (by simp; omega)
    rw [unionStep, he]
    show unionStep rest c (i + 1)
      (("Option " ++ toString (i + 1) ++ ": " ++ e.render) :: errs) data path = _
    rw [ih (i + 1) (("Option " ++ toString (i + 1) ++ ": " ++ e.render) :: errs) hrest]
    simp [optionTags, he, List.append_assoc]

/-- The candidate loop of `Union._validate` when the `k`-th candidate
succeeds after the earlier ones fail: the `k`-th result is returned. -/
theorem unionStep_first_success (c : Core) (data : Value) (path : List PathSeg) :
    ∀ (cands : List Validator) (i : Nat) (errs : List String) (k : Nat)
      (hk : k < cands.length),
    (∀ (j : Nat) (hj : j < k),
      ∃ e, vval (cands.get ⟨j, by omega⟩) data path = .error e) →
    ∀ r, vval (cands.get ⟨k, hk⟩) data path = .ok r →
    unionStep cands c i errs data path = .ok r := by
  intro cands
  induction cands with
  | nil => intro i errs k hk; simp at hk
  | cons v rest ih =>
    intro i errs k hk h r hr
    match k with
    | 0 =>
      simp only [List.get] at hr
      rw [unionStep, hr]
    | k' + 1 =>
      obtain ⟨e, he⟩ := h 0 (by omega)
      simp only [List.get] at he
      rw [unionStep, he]
      show unionStep rest c (i + 1)
        (("Option " ++ toString (i + 1) ++ ": " ++ e.render) :: errs) data path = .ok r
      refine ih (i + 1) _ k' (by simpa using hk) ?_ r (by simpa using hr)
      intro j hj
      exact h (j + 1) (by omega)

/-- Claim C7: an undiscriminated `Union` tries its candidates strictly
in declared order and returns the first success; when every candidate
fails it raises exactly one failure whose message enumerates every
candidate's rendered failure tagged `"Option N: ..."` in declared
order. -/
theorem c7_union_first_match (validators : List Validator) (c : Core)
    (data : Value) (path : List PathSeg) :
    (∀ (k : Nat) (hk : k < validators.length),
      (∀ (j : Nat) (hj : j < k),
        ∃ e, vval (validators.get ⟨j, by omega⟩) data path = .error e) →
      ∀ r, vval (validators.get ⟨k, hk⟩) data path = .ok r →
      vval (.union validators none [] c) data path = .ok r) ∧
    ((∀ (j : Nat) (hj : j < validators.length),
        ∃ e, vval (validators.get ⟨j, hj⟩) data path = .error e) →
      vval (.union validators none [] c) data path =
        .error ⟨c.getErrorMessage
          ("Value does not match any of the expected types:\n" ++
            String.intercalate "\n"
              (optionTags (validators.map (fun v => vval v data path)) 0)),
          path⟩) := by
  constructor
  · intro k hk h r hr
    have hu : vval (.union validators none [] c) data path =
        unionStep validators c 0 [] data path := by
      cases data <;> simp [vval]
    rw [hu]
    exact unionStep_first_success c data path validators 0 [] k hk h r hr
  · intro h
    have hu : vval (.union validators none [] c) data path =
        unionStep validators c 0 [] data path := by
      cases data <;> simp [vval]
    rw [hu]
    rw [unionStep_all_fail c data path validators 0 [] h]
    simp

/-- Claim C7 witness: the claim's own example —
`Union([String, Number]).validate(True)` (through `_validate`) fails
with the two enumerated option messages. -/
theorem c7_witness :
    vval (.union [.string none none none false false false false {},
        .number none none false false false none {}] none [] {})
      (.bool true) []
      = .error ⟨"Value does not match any of the expected types:\n" ++
          "Option 1: Expected string, got bool\nOption 2: Expected number, got bool",
          []⟩ := by
  have e1 : vval (.string none none none false false false false {})
      (.bool true) [] = .error ⟨"Expected string, got bool", []⟩ := by
    simp +decide [vval, Value.isNull, Value.typeName, Core.getErrorMessage]
  have e2 : vval (.number none none false false false none {})
      (.bool true) [] = .error ⟨"Expected number, got bool", []⟩ := by
    simp +decide [vval, Value.isNull, Value.typeName, Core.getErrorMessage]
  have h := (c7_union_first_match
    [.string none none none false false false false {},
      .number none none false false false none {}] {} (.bool true) []).2 (by
    intro j hj
    match j, hj with
    | 0, _ => exact ⟨_, e1⟩
    | 1, _ => exact ⟨_, e2⟩)
  rw [h]
  simp +decide [e1, e2, optionTags, ValidationError.render, Core.getErrorMessage]

theorem contains_cons (x : String) (l : List String) (k : String) :
    (x :: l).contains k = ((k == x) || l.contains k) := by
  cases h : k == x <;> simp [List.contains, List.elem, h]

theorem contains_append_or (a b : List String) (k : String) :
    (a ++ b).contains k = (a.contains k || b.contains k) := by
  induction a with
  | nil => simp
  | cons x xs ih =>
    rw [List.cons_append, contains_cons, contains_cons, ih, Bool.or_assoc]

theorem addKey_contains_mono (s : List String) (k0 k : String)
    (h : s.contains k = true) : (addKey s k0).contains k = true := by
  unfold addKey
  split
  · exact h
  · rw [contains_append_or, h, Bool.true_or]

/-- In the async pattern phase, accumulated validated keys are never
lost. -/
theorem patternKeysTasksA_validated_mono (v : Validator) (p : String)
    (ex : List String) (ks : List String) (m : Entries) (path : List PathSeg)
    (validated : List String) (k : String) (h : validated.contains k = true) :
    (patternKeysTasksA v p ex ks m path validated).2.contains k = true := by
  induction ks generalizing validated with
  | nil => unfold patternKeysTasksA; exact h
  | cons k0 rest ih =>
    unfold patternKeysTasksA
    by_cases h1 : (!validated.contains k0 && !ex.contains k0 && reMatch p k0) = true
    · simp only [h1, if_pos]
      cases hl : Entries.lookup m k0 with
      | none => exact ih validated h
      | some val =>
        rcases hres : patternKeysTasksA v p ex rest m path (addKey validated k0)
          with ⟨ts, vd⟩
        have hmono := ih (addKey validated k0) (addKey_contains_mono _ _ _ h)
        rw [hres] at hmono
        simpa using hmono
    · simp only [Bool.not_eq_true] at h1
      simp only [h1]
      exact ih validated h

/-- In the async pattern phase, no task is ever created for a key that
is already validated (`key not in validated_keys`). -/
theorem patternKeysTasksA_no_revalidate (v : Validator) (p : String)
    (ex : List String) (ks : List String) (m : Entries) (path : List PathSeg)
    (validated : List String) (k : String) (h : validated.contains k = true) :
    ((patternKeysTasksA v p ex ks m path validated).1.map Prod.fst).contains k
      = false := by
  induction ks generalizing validated with
  | nil => unfold patternKeysTasksA; rfl
  | cons k0 rest ih =>
    unfold patternKeysTasksA
    by_cases h1 : (!validated.contains k0 && !ex.contains k0 && reMatch p k0) = true
    · simp only [h1, if_pos]
      cases hl : Entries.lookup m k0 with
      | none => exact ih validated h
      | some val =>
        have hne : (k == k0) = false := by
          have h1' := h1
          simp only [Bool.and_eq_true] at h1'
          obtain ⟨⟨h1b, _⟩, _⟩ := h1'
          rw [beq_eq_false_iff_ne]
          intro he
          rw [← he] at h1b
          rw [h] at h1b
          exact Bool.false_ne_true (by simpa using h1b)
        rcases hres : patternKeysTasksA v p ex rest m path (addKey validated k0)
          with ⟨ts, vd⟩
        have hih := ih (addKey validated k0) (addKey_contains_mono _ _ _ h)
        rw [hres] at hih
        simp only [hres, List.map_cons]
        rw [contains_cons, hne, Bool.false_or]
        simpa using hih
    · simp only [Bool.not_eq_true] at h1
      simp only [h1]
      exact ih validated h

/-- Lifting of the two previous facts to the whole pattern-rule phase
of `Dict._validate_async`: a validated key gets no task from any rule
and stays validated. -/
theorem patternTasksA_no_revalidate (pats : List (String × Validator))
    (ex : List String) (m : Entries) (path : List PathSeg) :
    ∀ (validated : List String) (k : String), validated.contains k = true →
    ((patternTasksA pats ex m path validated).1.map Prod.fst).contains k = false ∧
    (patternTasksA pats ex m path validated).2.contains k = true := by
  induction pats with
  | nil => intro validated k h; unfold patternTasksA; exact ⟨rfl, h⟩
  | cons pv rest ih =>
    intro validated k h
    obtain ⟨p, v⟩ := pv
    unfold patternTasksA
    rcases hres : patternKeysTasksA v p ex (Entries.keyList m) m path validated
      with ⟨ts₁, vd₁⟩
    have h1 := patternKeysTasksA_no_revalidate v p ex (Entries.keyList m) m path
      validated k h
    have h2 := patternKeysTasksA_validated_mono v p ex (Entries.keyList m) m path
      validated k h
    rw [hres] at h1 h2
    rcases hres2 : patternTasksA rest ex m path vd₁ with ⟨ts₂, vd₂⟩
    have hih := ih vd₁ k h2
    rw [hres2] at hih
    simp only [hres, hres2, List.map_append]
    refine ⟨?_, hih.2⟩
    rw [contains_append_or]
    simp only at h1 hih
    rw [h1, hih.1]
    rfl

set_option maxHeartbeats 4000000 in
/-- Claim C4, counterexample: the claim says a key named in the
explicit schema is not re-validated by any pattern rule (explicit
wins) in both `validate` and `validate_async`. Synchronously, a schema
key `"ab"` that also matches the pattern rule `"a"` *is* re-validated
by the rule: with schema validator Number and pattern validator
String, input `{"ab": 5}` passes the schema step and then fails the
pattern step, while the asynchronous path (which has the
`key not in validated_keys` guard) accepts it. -/
theorem c4_counterexample :
    Validator.validate
      (.dict [("ab", .number none none false false false none {})] .allow
        [("a", .string none none none false false false false {})] none none
        ["ab"] [] {})
      (.dict [("ab", .int 5)])
      = .error ⟨"Expected string, got int", [.field "ab"]⟩ ∧
    Validator.validateAsync
      (.dict [("ab", .number none none false false false none {})] .allow
        [("a", .string none none none false false false false {})] none none
        ["ab"] [] {})
      (.dict [("ab", .int 5)])
      = .ok (.dict [("ab", .int 5)]) := by
  constructor
  · simp +decide [Validator.validate, validateBase, vval, schemaStep, patternsStep,
      patternKeysStep, addlStep, Entries.lookup, Entries.set, Entries.hasKey,
      Entries.keyList, addKey, reMatch, Value.isNull, Value.typeName, Validator.core,
      Validator.isNullableClass, Core.getErrorMessage, guardCheck, checkOpt,
      siftWrapError, Bind.bind, Except.bind]
  · simp +decide [Validator.validateAsync, vvalA, vval, schemaTasksA, patternTasksA,
      patternKeysTasksA, addlTasksA, processResultsA, gatherFirstError,
      Entries.lookup, Entries.set, Entries.hasKey, Entries.keyList, addKey, reMatch,
      Value.isNull, Value.typeName, Validator.core, Validator.isNullableClass,
      Core.getErrorMessage, guardCheck, checkOpt, siftWrapError, Bind.bind,
      Except.bind]

set_option maxHeartbeats 8000000 in
/-- Claim C4 (amended): in `validate_async` a key already validated
(in particular any present schema key) is never handed to a pattern
rule (explicit wins) and a non-schema key is validated only by the
first matching rule; in the synchronous `validate` the pattern loop
has no validated-keys guard, so a schema key matching a rule is
re-validated by every matching rule — applied to the value the schema
validator produced — and a non-schema key is validated by each
matching rule in turn. Keys matching neither schema nor rules are
additional properties: allowed unchanged, or rejected with one failure
naming all offending keys, or validated by the configured validator —
identically in both modes. The concrete parts use the truthy Boolean
validator (which transforms `5` to `True`) to make re-validation
observable: Number then rejects the transformed value with "got
bool". -/
theorem c4_pattern_dispatch (pats : List (String × Validator)) (ex : List String)
    (m : Entries) (path : List PathSeg) (validated : List String) (k : String)
    (h : validated.contains k = true) :
    (((patternTasksA pats ex m path validated).1.map Prod.fst).contains k = false) ∧
    (Validator.validate
        (.dict [("ab", .boolean true {})] .allow
          [("a", .number none none false false false none {})] none none ["ab"] [] {})
        (.dict [("ab", .int 5)])
      = .error ⟨"Expected number, got bool", [.field "ab"]⟩) ∧
    (Validator.validateAsync
        (.dict [("ab", .boolean true {})] .allow
          [("a", .number none none false false false none {})] none none ["ab"] [] {})
        (.dict [("ab", .int 5)])
      = .ok (.dict [("ab", .bool true)])) ∧
    (Validator.validate
        (.dict [] .allow [("a", .boolean true {}),
          ("ab", .number none none false false false none {})] none none [] [] {})
        (.dict [("ab", .int 5)])
      = .error ⟨"Expected number, got bool", [.field "ab"]⟩) ∧
    (Validator.validateAsync
        (.dict [] .allow [("a", .boolean true {}),
          ("ab", .number none none false false false none {})] none none [] [] {})
        (.dict [("ab", .int 5)])
      = .ok (.dict [("ab", .bool true)])) ∧
    (Validator.validate (.dict [] .forbid [] none none [] [] {})
        (.dict [("x", .int 1), ("y", .int 2)])
      = .error ⟨"Unexpected additional properties: x, y", []⟩) ∧
    (Validator.validateAsync (.dict [] .forbid [] none none [] [] {})
        (.dict [("x", .int 1), ("y", .int 2)])
      = .error ⟨"Unexpected additional properties: x, y", []⟩) ∧
    (Validator.validate
        (.dict [] (.withV (.number none none false false false none {})) [] none none
          [] [] {})
        (.dict [("x", .int 3)])
      = .ok (.dict [("x", .int 3)])) ∧
    (Validator.validate (.dict [] .allow [] none none [] [] {})
        (.dict [("x", .int 1)])
      = .ok (.dict [("x", .int 1)])) := by
  refine ⟨(patternTasksA_no_revalidate pats ex m path validated k h).1,
    ?_, ?_, ?_, ?_, ?_, ?_, ?_, ?_⟩ <;>
  first
  | simp +decide [Validator.validate, validateBase, vval, schemaStep, patternsStep,
      patternKeysStep, addlStep, Entries.lookup, Entries.set, Entries.hasKey,
      Entries.keyList, addKey, reMatch, Value.isNull, Value.typeName, Validator.core,
      Validator.isNullableClass, Core.getErrorMessage, guardCheck, checkOpt,
      siftWrapError, Bind.bind, Except.bind]
  | simp +decide [Validator.validateAsync, vvalA, vval, schemaTasksA, patternTasksA,
      patternKeysTasksA, addlTasksA, processResultsA, gatherFirstError,
      Entries.lookup, Entries.set, Entries.hasKey, Entries.keyList, addKey, reMatch,
      Value.isNull, Value.typeName, Validator.core, Validator.isNullableClass,
      Core.getErrorMessage, guardCheck, checkOpt, siftWrapError, Bind.bind,
      Except.bind]

/-- Claim C4 witness: the amended statement applied concretely — the
already-validated schema key `"ab"` receives no pattern task in the
async phase, and the additional-properties rejection names all
offending keys. -/
theorem c4_witness :
    ((patternTasksA [("a", .anyV {})] [] [("ab", .int 1)] [] ["ab"]).1.map
      Prod.fst).contains "ab" = false ∧
    Validator.validate (.dict [] .forbid [] none none [] [] {})
        (.dict [("x", .int 1), ("y", .int 2)])
      = .error ⟨"Unexpected additional properties: x, y", []⟩ := by
  have h := c4_pattern_dispatch [("a", .anyV {})] [] [("ab", .int 1)] [] ["ab"] "ab"
    (by decide)
  exact ⟨h.1, h.2.2.2.2.2.1⟩

set_option maxHeartbeats 4000000 in
/-- Claim C8, counterexample: for a base Object with an excluded field,
`extend` then `omit` of the fresh field is *not* behaviorally
equivalent to the base: `extend` copies the excluded-fields set but
`omit` drops it (it builds a fresh inner `DictValidator` and copies
only the policy/pattern/bounds/required/contract settings), so the
excluded field is validated again. `Object({"a": String}).exclude("a")`
accepts `{"a": 5}`; after `.extend({"x": Any}).omit(["x"])` — same
`field_names` — the same input is rejected. -/
theorem c8_counterexample :
    ((ObjectV.make [("a", .string none none none false false false false {})]).exclude
        ["a"]).validate (.dict [("a", .int 5)]) = .ok (.dict [("a", .int 5)]) ∧
    ∃ o', ((ObjectV.make
        [("a", .string none none none false false false false {})]).exclude
          ["a"]).extend [("x", .anyV {})] = .ok o' ∧
      (o'.omit ["x"]).fieldNames =
        ((ObjectV.make
          [("a", .string none none none false false false false {})]).exclude
            ["a"]).fieldNames ∧
      (o'.omit ["x"]).validate (.dict [("a", .int 5)]) =
        .error ⟨"Expected string, got int", [.field "a"]⟩ := by
  refine ⟨?_,
    { core := {},
      schema := [("a", .string none none none false false false false {}),
        ("x", .anyV {})],
      addl := .allow, patternProps := [], minProps := none, maxProps := none,
      requiredKeys := ["a"], excludedFields := ["a"] },
    rfl, ?_, ?_⟩ <;>
    simp +decide [ObjectV.validate, ObjectV.toDict, ObjectV.make, ObjectV.exclude,
      ObjectV.omit, ObjectV.fieldNames, requiredFromSchema, Validator.validate,
      validateBase, vval, schemaStep, patternsStep, patternKeysStep, addlStep,
      Entries.lookup, Entries.set, Entries.hasKey, Entries.keyList, addKey, reMatch,
      Value.isNull, Value.typeName, Validator.core, Validator.isNullableClass,
      Core.getErrorMessage, guardCheck, checkOpt, siftWrapError, Bind.bind,
      Except.bind]

/-- Claim C8 (amended): for a base Object whose excluded-fields set is
empty, extending by a fresh field `x` (not a schema key and not a
required key) and then omitting `x` gives back exactly the base
configuration — hence the same `field_names`, the same required keys
and the same validate outcome on every input; `omit` discards the
excluded-fields set, so the cancellation fails for bases with excluded
fields (see the counterexample). -/
theorem c8_extend_omit_cancel (o o' : ObjectV) (x : String) (v : Validator)
    (hx : (o.schema.map Prod.fst).contains x = false)
    (hr : o.requiredKeys.contains x = false)
    (he : o.excludedFields = [])
    (h : o.extend [(x, v)] = .ok o') :
    o'.omit [x] = o ∧
    (o'.omit [x]).fieldNames = o.fieldNames ∧
    (o'.omit [x]).requiredKeys = o.requiredKeys ∧
    ∀ d, (o'.omit [x]).validate d = o.validate d := by
  obtain ⟨oc, os, oa, opp, omin, omax, oreq, oex⟩ := o
  simp only [] at hx hr he h ⊢
  subst he
  have hx' : x ∉ os.map Prod.fst := by simpa using hx
  have hr' : x ∉ oreq := by simpa using hr
  have hconf : (os.map Prod.fst).filter
      (fun k => ([(x, v)].map Prod.fst).contains k) = [] := by
    rw [List.filter_eq_nil]
    intro k hk hcon
    apply hx'
    have hkx : k = x := by simpa using hcon
    exact hkx ▸ hk
  have h' : o' =
      { core := oc, schema := os ++ [(x, v)], addl := oa,
        patternProps := opp, minProps := omin, maxProps := omax,
        requiredKeys := oreq, excludedFields := [] } := by
    unfold ObjectV.extend at h
    simp only [hconf, List.isEmpty_nil, Bool.not_true, Bool.false_eq_true,
      if_false, Except.ok.injEq] at h
    exact h.symm
  subst h'
  have hschema : (os ++ [(x, v)]).filter (fun kv => !([x].contains kv.1)) = os := by
    rw [List.filter_append]
    have h1 : os.filter (fun kv => !([x].contains kv.1)) = os := by
      rw [List.filter_eq_self]
      intro kv hkv
      simp
      intro hkx
      exact hx' (hkx ▸ List.mem_map_of_mem Prod.fst hkv)
    have h2 : ([(x, v)] : List (String × Validator)).filter
        (fun kv => !([x].contains kv.1)) = [] := by simp
    rw [h1, h2, List.append_nil]
  have hreq : oreq.filter (fun k => !([x].contains k)) = oreq := by
    rw [List.filter_eq_self]
    intro k hk
    simp
    intro hkx
    exact hr' (hkx ▸ hk)
  have hmain : ObjectV.omit
      { core := oc, schema := os ++ [(x, v)], addl := oa,
        patternProps := opp, minProps := omin, maxProps := omax,
        requiredKeys := oreq, excludedFields := [] } [x] =
      ({ core := oc, schema := os, addl := oa, patternProps := opp,
         minProps := omin, maxProps := omax, requiredKeys := oreq,
         excludedFields := [] } : ObjectV) := by
    unfold ObjectV.omit
    simp only [hschema, hreq]
  exact ⟨hmain, by rw [hmain], by rw [hmain], fun d => by rw [hmain]⟩

/-- Claim C8 witness: the cancellation applied concretely —
`Object({"a": Number}).extend({"x": Any}).omit(["x"])` is exactly
`Object({"a": Number})`. -/
theorem c8_witness :
    (({ core := {},
        schema := [("a", .number none none false false false none {}),
          ("x", .anyV {})],
        addl := .allow, patternProps := [], minProps := none, maxProps := none,
        requiredKeys := ["a"], excludedFields := [] } : ObjectV).omit ["x"])
      = ObjectV.make [("a", .number none none false false false none {})] := by
  exact (c8_extend_omit_cancel
    (ObjectV.make [("a", .number none none false false false none {})])
    { core := {},
      schema := [("a", .number none none false false false none {}),
        ("x", .anyV {})],
      addl := .allow, patternProps := [], minProps := none, maxProps := none,
      requiredKeys := ["a"], excludedFields := [] }
    "x" (.anyV {}) rfl rfl rfl rfl).1

theorem setListItem_get?_ne (st : Store) (a i : Nat) (v : Value) (b : Nat)
    (h : a ≠ b) : (setListItem st a i v).get? b = st.get? b := by
  unfold setListItem
  cases hc : st.get? a with
  | none => rfl
  | some c =>
    cases c with
    | clist xs => exact List.get?_set_ne _ _ h
    | ctup xs => rfl
    | cdict es => rfl

theorem setListItem_length (st : Store) (a i : Nat) (v : Value) :
    (setListItem st a i v).length = st.length := by
  unfold setListItem
  cases hc : st.get? a with
  | none => rfl
  | some c =>
    cases c with
    | clist xs => exact List.length_set ..
    | ctup xs => rfl
    | cdict es => rfl

theorem setDictEntry_get?_ne (st : Store) (a : Nat) (k : String) (v : Value)
    (b : Nat) (h : a ≠ b) : (setDictEntry st a k v).get? b = st.get? b := by
  unfold setDictEntry
  cases hc : st.get? a with
  | none => rfl
  | some c =>
    cases c with
    | clist xs => rfl
    | ctup xs => rfl
    | cdict es => exact List.get?_set_ne _ _ h

theorem setDictEntry_length (st : Store) (a : Nat) (k : String) (v : Value) :
    (setDictEntry st a k v).length = st.length := by
  unfold setDictEntry
  cases hc : st.get? a with
  | none => rfl
  | some c =>
    cases c with
    | clist xs => rfl
    | ctup xs => rfl
    | cdict es => exact List.length_set ..

theorem heapListItems_frame (iv : Validator) (raddr : Nat) (path : List PathSeg) :
    ∀ (xs : List Value) (st : Store) (i : Nat),
    (∀ b, raddr ≠ b →
      (heapListItems iv st raddr xs i path).1.get? b = st.get? b) ∧
    (heapListItems iv st raddr xs i path).1.length = st.length := by
  intro xs
  induction xs with
  | nil => intro st i; exact ⟨fun b _ => rfl, rfl⟩
  | cons x rest ih =>
    intro st i
    unfold heapListItems
    rcases hv : vval iv x (path ++ [.idx i]) with e | y <;> simp only [hv]
    · refine ⟨fun b _ => ?_, ?_⟩ <;> trivial
    · constructor
      · intro b hb
        exact ((ih (setListItem st raddr i y) (i + 1)).1 b hb).trans
          (setListItem_get?_ne st raddr i y b hb)
      · exact ((ih (setListItem st raddr i y) (i + 1)).2).trans
          (setListItem_length st raddr i y)

theorem heapSchemaStep_frame (excluded : List String) (raddr : Nat)
    (path : List PathSeg) :
    ∀ (schema : List (String × Validator)) (st : Store) (validated : List String),
    (∀ b, raddr ≠ b →
      (heapSchemaStep schema excluded st raddr path validated).1.get? b = st.get? b) ∧
    (heapSchemaStep schema excluded st raddr path validated).1.length = st.length := by
  intro schema
  induction schema with
  | nil => intro st validated; exact ⟨fun b _ => rfl, rfl⟩
  | cons kv rest ih =>
    intro st validated
    obtain ⟨key, v⟩ := kv
    unfold heapSchemaStep
    by_cases hex : (!excluded.contains key) = true
    · simp only [hex, if_pos]
      rcases hl : Entries.lookup (getDictEntries st raddr) key with _ | val <;>
        (try simp only [hl])
      · exact ih st validated
      · rcases hv : vval v val (path ++ [.field key]) with e | y <;> simp only [hv]
        · refine ⟨fun b _ => ?_, ?_⟩ <;> trivial
        · constructor
          · intro b hb
            exact ((ih (setDictEntry st raddr key y) (addKey validated key)).1 b
              hb).trans (setDictEntry_get?_ne st raddr key y b hb)
          · exact ((ih (setDictEntry st raddr key y) (addKey validated key)).2).trans
              (setDictEntry_length st raddr key y)
    · simp only [Bool.not_eq_true] at hex
      simp only [hex, Bool.false_eq_true, if_false]
      exact ih st validated

theorem heapPatternKeys_frame (v : Validator) (p : String) (excluded : List String)
    (raddr : Nat) (path : List PathSeg) :
    ∀ (ks : List String) (st : Store) (validated : List String),
    (∀ b, raddr ≠ b →
      (heapPatternKeys v p excluded ks st raddr path validated).1.get? b = st.get? b) ∧
    (heapPatternKeys v p excluded ks st raddr path validated).1.length = st.length := by
  intro ks
  induction ks with
  | nil => intro st validated; exact ⟨fun b _ => rfl, rfl⟩
  | cons k rest ih =>
    intro st validated
    unfold heapPatternKeys
    by_cases hc : (!excluded.contains k && reMatch p k) = true
    · simp only [hc, if_pos]
      rcases hl : Entries.lookup (getDictEntries st raddr) k with _ | val <;>
        (try simp only [hl])
      · exact ih st validated
      · rcases hv : vval v val (path ++ [.field k]) with e | y <;> simp only [hv]
        · refine ⟨fun b _ => ?_, ?_⟩ <;> trivial
        · constructor
          · intro b hb
            exact ((ih (setDictEntry st raddr k y) (addKey validated k)).1 b
              hb).trans (setDictEntry_get?_ne st raddr k y b hb)
          · exact ((ih (setDictEntry st raddr k y) (addKey validated k)).2).trans
              (setDictEntry_length st raddr k y)
    · simp only [Bool.not_eq_true] at hc
      simp only [hc, Bool.false_eq_true, if_false]
      exact ih st validated

theorem heapPatternsStep_frame (excluded : List String) (raddr : Nat)
    (path : List PathSeg) :
    ∀ (pats : List (String × Validator)) (st : Store) (validated : List String),
    (∀ b, raddr ≠ b →
      (heapPatternsStep pats excluded st raddr path validated).1.get? b = st.get? b) ∧
    (heapPatternsStep pats excluded st raddr path validated).1.length = st.length := by
  intro pats
  induction pats with
  | nil => intro st validated; exact ⟨fun b _ => rfl, rfl⟩
  | cons pv rest ih =>
    intro st validated
    obtain ⟨p, v⟩ := pv
    unfold heapPatternsStep
    rcases hres : heapPatternKeys v p excluded
        (Entries.keyList (getDictEntries st raddr)) st raddr path validated
      with ⟨st', r⟩
    have hfr := heapPatternKeys_frame v p excluded raddr path
      (Entries.keyList (getDictEntries st raddr)) st validated
    rw [hres] at hfr
    try simp only [hres]
    cases r with
    | ok validated' =>
      constructor
      · intro b hb
        exact ((ih st' validated').1 b hb).trans (hfr.1 b hb)
      · exact ((ih st' validated').2).trans hfr.2
    | error e => exact ⟨fun b hb => hfr.1 b hb, hfr.2⟩

theorem heapAddlStep_frame (v : Validator) (raddr : Nat) (path : List PathSeg) :
    ∀ (ks : List String) (st : Store),
    (∀ b, raddr ≠ b →
      (heapAddlStep v ks st raddr path).1.get? b = st.get? b) ∧
    (heapAddlStep v ks st raddr path).1.length = st.length := by
  intro ks
  induction ks with
  | nil => intro st; exact ⟨fun b _ => rfl, rfl⟩
  | cons k rest ih =>
    intro st
    unfold heapAddlStep
    rcases hl : Entries.lookup (getDictEntries st raddr) k with _ | val <;>
      (try simp only [hl])
    · exact ih st
    · rcases hv : vval v val (path ++ [.field k]) with e | y <;> simp only [hv]
      · refine ⟨fun b _ => ?_, ?_⟩ <;> trivial
      · constructor
        · intro b hb
          exact ((ih (setDictEntry st raddr k y)).1 b hb).trans
            (setDictEntry_get?_ne st raddr k y b hb)
        · exact ((ih (setDictEntry st raddr k y)).2).trans
            (setDictEntry_length st raddr k y)

theorem heapTupleFixed_frame (c : Core) (raddr : Nat) (path : List PathSeg) :
    ∀ (vs : List Validator) (xs : List Value) (st : Store) (i : Nat),
    (∀ b, raddr ≠ b →
      (heapTupleFixed vs st raddr xs i c path).1.get? b = st.get? b) ∧
    (heapTupleFixed vs st raddr xs i c path).1.length = st.length := by
  intro vs
  induction vs with
  | nil => intro xs st i; exact ⟨fun b _ => rfl, rfl⟩
  | cons v vrest ih =>
    intro xs st i
    cases xs with
    | nil => exact ⟨fun b _ => rfl, rfl⟩
    | cons x xrest =>
      unfold heapTupleFixed
      rcases hv : vval v x (path ++ [.idx i]) with e | y <;> simp only [hv]
      · refine ⟨fun b _ => ?_, ?_⟩ <;> trivial
      · constructor
        · intro b hb
          exact ((ih xrest (setListItem st raddr i y) (i + 1)).1 b hb).trans
            (setListItem_get?_ne st raddr i y b hb)
        · exact ((ih xrest (setListItem st raddr i y) (i + 1)).2).trans
            (setListItem_length st raddr i y)

theorem heapTupleRest_frame (rv : Validator) (raddr : Nat) (path : List PathSeg) :
    ∀ (xs : List Value) (st : Store) (i : Nat),
    (∀ b, raddr ≠ b →
      (heapTupleRest rv st raddr xs i path).1.get? b = st.get? b) ∧
    (heapTupleRest rv st raddr xs i path).1.length = st.length := by
  intro xs
  induction xs with
  | nil => intro st i; exact ⟨fun b _ => rfl, rfl⟩
  | cons x rest ih =>
    intro st i
    unfold heapTupleRest
    rcases hv : vval rv x (path ++ [.idx i]) with e | y <;> simp only [hv]
    · refine ⟨fun b _ => ?_, ?_⟩ <;> trivial
    · constructor
      · intro b hb
        exact ((ih (setListItem st raddr i y) (i + 1)).1 b hb).trans
          (setListItem_get?_ne st raddr i y b hb)
      · exact ((ih (setListItem st raddr i y) (i + 1)).2).trans
          (setListItem_length st raddr i y)

theorem heapTupleAfterRest_frame (rv? : Option Validator) (L raddr : Nat)
    (xs : List Value) (st : Store) (path : List PathSeg) :
    (∀ b, raddr ≠ b →
      (heapTupleAfterRest rv? L st raddr xs path).1.get? b = st.get? b) ∧
    (heapTupleAfterRest rv? L st raddr xs path).1.length = st.length := by
  cases rv? with
  | none => exact ⟨fun b _ => rfl, rfl⟩
  | some rv =>
    simp only [heapTupleAfterRest]
    split
    · exact heapTupleRest_frame rv raddr path (xs.drop L) st L
    · exact ⟨fun b _ => rfl, rfl⟩

theorem heapListBody_no_mutation (iv : Option Validator) (minL maxL : Option Nat)
    (u ne : Bool) (c : Core) (st : Store) (xs : List Value) (path : List PathSeg) :
    (∀ b, b < st.length →
      (heapListBody iv minL maxL u ne c st xs path).1.get? b = st.get? b) ∧
    (∀ r, (heapListBody iv minL maxL u ne c st xs path).2 = .ok r →
      st.length ≤ r) := by
  constructor
  · intro b hb
    have hne : st.length ≠ b := by omega
    simp only [heapListBody]
    split
    · exact List.get?_append hb
    · split
      · next v =>
        rcases heq : heapListItems v (st ++ [Container.clist xs]) st.length xs 0 path
          with ⟨st2, rr⟩
        have hfr := heapListItems_frame v st.length path xs
          (st ++ [Container.clist xs]) 0
        rw [heq] at hfr
        simp only [heq]
        exact (hfr.1 b hne).trans (List.get?_append hb)
      · exact List.get?_append hb
  · intro r hr
    simp only [heapListBody] at hr
    split at hr
    · simp at hr
    · split at hr
      · next v =>
        rcases heq : heapListItems v (st ++ [Container.clist xs]) st.length xs 0 path
          with ⟨st2, rr⟩
        rw [heq] at hr
        cases rr with
        | ok y => simp [Except.map] at hr; omega
        | error e => simp [Except.map] at hr
      · simp at hr; omega

theorem heapDictBody_no_mutation (schema : List (String × Validator)) (addl : Addl)
    (pats : List (String × Validator)) (minP maxP : Option Nat)
    (req exc : List String) (c : Core) (st : Store) (m : Entries)
    (path : List PathSeg) :
    (∀ b, b < st.length →
      (heapDictBody schema addl pats minP maxP req exc c st m path).1.get? b =
        st.get? b) ∧
    (∀ r, (heapDictBody schema addl pats minP maxP req exc c st m path).2 = .ok r →
      st.length ≤ r) := by
  constructor
  · intro b hb
    have hne : st.length ≠ b := by omega
    have happ : (st ++ [Container.cdict m]).get? b = st.get? b := List.get?_append hb
    simp only [heapDictBody]
    split
    · exact happ
    · split
      · next st2 e heq2 =>
        have hf2 := heapSchemaStep_frame exc st.length path schema
          (st ++ [Container.cdict m]) []
        rw [heq2] at hf2
        exact (hf2.1 b hne).trans happ
      · next st2 validated heq2 =>
        have hf2 := heapSchemaStep_frame exc st.length path schema
          (st ++ [Container.cdict m]) []
        rw [heq2] at hf2
        split
        · next st3 e heq3 =>
          have hf3 := heapPatternsStep_frame exc st.length path pats st2 validated
          rw [heq3] at hf3
          exact ((hf3.1 b hne).trans (hf2.1 b hne)).trans happ
        · next st3 validated2 heq3 =>
          have hf3 := heapPatternsStep_frame exc st.length path pats st2 validated
          rw [heq3] at hf3
          have hchain : st3.get? b = st.get? b :=
            ((hf3.1 b hne).trans (hf2.1 b hne)).trans happ
          split
          · split
            · exact hchain
            · next v =>
              split
              · next st4 a heq4 =>
                have hf4 := heapAddlStep_frame v st.length path
                  ((Entries.keyList (getDictEntries st3 st.length)).filter
                    (fun k => !validated2.contains k && !exc.contains k)) st3
                rw [heq4] at hf4
                exact (hf4.1 b hne).trans hchain
              · next st4 e heq4 =>
                have hf4 := heapAddlStep_frame v st.length path
                  ((Entries.keyList (getDictEntries st3 st.length)).filter
                    (fun k => !validated2.contains k && !exc.contains k)) st3
                rw [heq4] at hf4
                exact (hf4.1 b hne).trans hchain
            · exact hchain
          · exact hchain
  · intro r hr
    simp only [heapDictBody] at hr
    split at hr
    · simp at hr
    · split at hr
      · simp at hr
      · split at hr
        · simp at hr
        · split at hr
          · split at hr
            · simp at hr
            · split at hr
              · simp at hr; omega
              · simp at hr
            · simp at hr; omega
          · simp at hr; omega

theorem heapTupleBody_no_mutation (ivs : List Validator) (rv? : Option Validator)
    (minLen : Nat) (maxLen : Option Nat) (c : Core) (st : Store) (xs : List Value)
    (path : List PathSeg) :
    (∀ b, b < st.length →
      (heapTupleBody ivs rv? minLen maxLen c st xs path).1.get? b = st.get? b) ∧
    (∀ r, (heapTupleBody ivs rv? minLen maxLen c st xs path).2 = .ok r →
      st.length ≤ r) := by
  constructor
  · intro b hb
    have hne : st.length ≠ b := by omega
    have happ : (st ++ [Container.clist xs]).get? b = st.get? b := List.get?_append hb
    simp only [heapTupleBody]
    split
    · exact happ
    · split
      · next st2 e heq2 =>
        have hf2 := heapTupleFixed_frame c st.length path ivs xs
          (st ++ [Container.clist xs]) 0
        rw [heq2] at hf2
        exact (hf2.1 b hne).trans happ
      · next st2 a heq2 =>
        have hf2 := heapTupleFixed_frame c st.length path ivs xs
          (st ++ [Container.clist xs]) 0
        rw [heq2] at hf2
        split
        · next st3 e heq3 =>
          have hf3 := heapTupleAfterRest_frame rv? ivs.length st.length xs st2 path
          rw [heq3] at hf3
          exact ((hf3.1 b hne).trans (hf2.1 b hne)).trans happ
        · next st3 a3 heq3 =>
          have hf3 := heapTupleAfterRest_frame rv? ivs.length st.length xs st2 path
          rw [heq3] at hf3
          have h2 : st2.length = st.length + 1 := by simpa using hf2.2
          have h3 : st3.length = st2.length := by simpa using hf3.2
          have hblt : b < st3.length := by omega
          exact (List.get?_append hblt).trans
            (((hf3.1 b hne).trans (hf2.1 b hne)).trans happ)
  · intro r hr
    simp only [heapTupleBody] at hr
    split at hr
    · simp at hr
    · split at hr
      · simp at hr
      · next st2 a heq2 =>
        split at hr
        · simp at hr
        · next st3 a3 heq3 =>
          simp at hr
          have hf2 := heapTupleFixed_frame c st.length path ivs xs
            (st ++ [Container.clist xs]) 0
          rw [heq2] at hf2
          have hf3 := heapTupleAfterRest_frame rv? ivs.length st.length xs st2 path
          rw [heq3] at hf3
          have h2 : st2.length = st.length + 1 := by simpa using hf2.2
          have h3 : st3.length = st2.length := by simpa using hf3.2
          omega

theorem heapListValidate_no_mutation (iv : Option Validator) (minL maxL : Option Nat)
    (u ne : Bool) (c : Core) (st : Store) (addr : Nat) (path : List PathSeg) :
    (∀ b, b < st.length →
      (heapListValidate iv minL maxL u ne c st addr path).1.get? b = st.get? b) ∧
    (∀ r, (heapListValidate iv minL maxL u ne c st addr path).2 = .ok r →
      st.length ≤ r) := by
  cases hga : st.get? addr with
  | none =>
    refine ⟨fun b hb => ?_, fun r hr => ?_⟩
    · simp only [heapListValidate, hga]
    · simp only [heapListValidate, hga] at hr
      simp at hr
  | some cont =>
    cases cont with
    | clist xs =>
      simp only [heapListValidate, hga]
      exact heapListBody_no_mutation iv minL maxL u ne c st xs path
    | ctup xs =>
      simp only [heapListValidate, hga]
      exact heapListBody_no_mutation iv minL maxL u ne c st xs path
    | cdict m =>
      refine ⟨fun b hb => ?_, fun r hr => ?_⟩
      · simp only [heapListValidate, hga]
      · simp only [heapListValidate, hga] at hr
        simp at hr

theorem heapDictValidate_no_mutation (schema : List (String × Validator)) (addl : Addl)
    (pats : List (String × Validator)) (minP maxP : Option Nat)
    (req exc : List String) (c : Core) (st : Store) (addr : Nat)
    (path : List PathSeg) :
    (∀ b, b < st.length →
      (heapDictValidate schema addl pats minP maxP req exc c st addr path).1.get? b =
        st.get? b) ∧
    (∀ r, (heapDictValidate schema addl pats minP maxP req exc c st addr path).2 =
        .ok r → st.length ≤ r) := by
  cases hga : st.get? addr with
  | none =>
    refine ⟨fun b hb => ?_, fun r hr => ?_⟩
    · simp only [heapDictValidate, hga]
    · simp only [heapDictValidate, hga] at hr
      simp at hr
  | some cont =>
    cases cont with
    | clist xs =>
      refine ⟨fun b hb => ?_, fun r hr => ?_⟩
      · simp only [heapDictValidate, hga]
      · simp only [heapDictValidate, hga] at hr
        simp at hr
    | ctup xs =>
      refine ⟨fun b hb => ?_, fun r hr => ?_⟩
      · simp only [heapDictValidate, hga]
      · simp only [heapDictValidate, hga] at hr
        simp at hr
    | cdict m =>
      simp only [heapDictValidate, hga]
      exact heapDictBody_no_mutation schema addl pats minP maxP req exc c st m path

theorem heapTupleValidate_no_mutation (ivs : List Validator) (rv? : Option Validator)
    (minLen : Nat) (maxLen : Option Nat) (c : Core) (st : Store) (addr : Nat)
    (path : List PathSeg) :
    (∀ b, b < st.length →
      (heapTupleValidate ivs rv? minLen maxLen c st addr path).1.get? b = st.get? b) ∧
    (∀ r, (heapTupleValidate ivs rv? minLen maxLen c st addr path).2 = .ok r →
      st.length ≤ r) := by
  cases hga : st.get? addr with
  | none =>
    refine ⟨fun b hb => ?_, fun r hr => ?_⟩
    · simp only [heapTupleValidate, hga]
    · simp only [heapTupleValidate, hga] at hr
      simp at hr
  | some cont =>
    cases cont with
    | clist xs =>
      simp only [heapTupleValidate, hga]
      exact heapTupleBody_no_mutation ivs rv? minLen maxLen c st xs path
    | ctup xs =>
      simp only [heapTupleValidate, hga]
      exact heapTupleBody_no_mutation ivs rv? minLen maxLen c st xs path
    | cdict m =>
      refine ⟨fun b hb => ?_, fun r hr => ?_⟩
      · simp only [heapTupleValidate, hga]
      · simp only [heapTupleValidate, hga] at hr
        simp at hr

theorem heapWriteItemsA_frame (raddr : Nat) :
    ∀ (rs : List (Except ValidationError Value)) (st : Store) (i : Nat),
    (∀ b, raddr ≠ b → (heapWriteItemsA st raddr rs i).1.get? b = st.get? b) ∧
    (heapWriteItemsA st raddr rs i).1.length = st.length := by
  intro rs
  induction rs with
  | nil => intro st i; exact ⟨fun b _ => rfl, rfl⟩
  | cons r rest ih =>
    intro st i
    cases r with
    | error e => exact ⟨fun b _ => rfl, rfl⟩
    | ok y =>
      constructor
      · intro b hb
        exact ((ih (setListItem st raddr i y) (i + 1)).1 b hb).trans
          (setListItem_get?_ne st raddr i y b hb)
      · exact ((ih (setListItem st raddr i y) (i + 1)).2).trans
          (setListItem_length st raddr i y)

theorem heapWriteKeyedA_frame (raddr : Nat) :
    ∀ (rs : List (String × Except ValidationError Value)) (st : Store),
    (∀ b, raddr ≠ b → (heapWriteKeyedA st raddr rs).1.get? b = st.get? b) ∧
    (heapWriteKeyedA st raddr rs).1.length = st.length := by
  intro rs
  induction rs with
  | nil => intro st; exact ⟨fun b _ => rfl, rfl⟩
  | cons kr rest ih =>
    intro st
    obtain ⟨k, r⟩ := kr
    cases r with
    | error e => exact ⟨fun b _ => rfl, rfl⟩
    | ok y =>
      constructor
      · intro b hb
        exact ((ih (setDictEntry st raddr k y)).1 b hb).trans
          (setDictEntry_get?_ne st raddr k y b hb)
      · exact ((ih (setDictEntry st raddr k y)).2).trans
          (setDictEntry_length st raddr k y)

theorem heapWriteItemsA_frame_eq (raddr : Nat)
    (rs : List (Except ValidationError Value)) (st : Store) (i : Nat)
    (st2 : Store) (r : Except ValidationError Unit)
    (heq : heapWriteItemsA st raddr rs i = (st2, r)) :
    (∀ b, raddr ≠ b → st2.get? b = st.get? b) ∧ st2.length = st.length := by
  have h := heapWriteItemsA_frame raddr rs st i
  rw [heq] at h
  exact h

theorem heapWriteKeyedA_frame_eq (raddr : Nat)
    (rs : List (String × Except ValidationError Value)) (st : Store)
    (st2 : Store) (r : Except ValidationError Unit)
    (heq : heapWriteKeyedA st raddr rs = (st2, r)) :
    (∀ b, raddr ≠ b → st2.get? b = st.get? b) ∧ st2.length = st.length := by
  have h := heapWriteKeyedA_frame raddr rs st
  rw [heq] at h
  exact h

theorem heapListBodyA_no_mutation (iv : Option Validator) (minL maxL : Option Nat)
    (u ne : Bool) (c : Core) (st : Store) (xs : List Value) (path : List PathSeg) :
    (∀ b, b < st.length →
      (heapListBodyA iv minL maxL u ne c st xs path).1.get? b = st.get? b) ∧
    (∀ r, (heapListBodyA iv minL maxL u ne c st xs path).2 = .ok r →
      st.length ≤ r) := by
  constructor
  · intro b hb
    have hne : st.length ≠ b := by omega
    simp only [heapListBodyA]
    split
    · exact List.get?_append hb
    · split
      · next v =>
        rcases heq : heapWriteItemsA (st ++ [Container.clist xs]) st.length
          (listItemsA v xs 0 path) 0 with ⟨st2, rr⟩
        have hfr := heapWriteItemsA_frame st.length (listItemsA v xs 0 path)
          (st ++ [Container.clist xs]) 0
        rw [heq] at hfr
        simp only [heq]
        exact (hfr.1 b hne).trans (List.get?_append hb)
      · exact List.get?_append hb
  · intro r hr
    simp only [heapListBodyA] at hr
    split at hr
    · simp at hr
    · split at hr
      · next v =>
        rcases heq : heapWriteItemsA (st ++ [Container.clist xs]) st.length
          (listItemsA v xs 0 path) 0 with ⟨st2, rr⟩
        rw [heq] at hr
        cases rr with
        | ok y => simp [Except.map] at hr; omega
        | error e => simp [Except.map] at hr
      · simp at hr; omega

theorem heapDictBodyA_no_mutation (schema : List (String × Validator)) (addl : Addl)
    (pats : List (String × Validator)) (minP maxP : Option Nat)
    (req : List String) (c : Core) (st : Store) (m : Entries)
    (path : List PathSeg) :
    (∀ b, b < st.length →
      (heapDictBodyA schema addl pats minP maxP req c st m path).1.get? b =
        st.get? b) ∧
    (∀ r, (heapDictBodyA schema addl pats minP maxP req c st m path).2 = .ok r →
      st.length ≤ r) := by
  constructor
  · intro b hb
    have hne : st.length ≠ b := by omega
    have happ : (st ++ [Container.cdict m]).get? b = st.get? b := List.get?_append hb
    simp only [heapDictBodyA]
    split
    · exact happ
    · split
      · next st2 e heq2 =>
        have hf2 := heapWriteKeyedA_frame st.length (schemaTasksA schema [] m path)
          (st ++ [Container.cdict m])
        rw [heq2] at hf2
        exact (hf2.1 b hne).trans happ
      · next st2 a2 heq2 =>
        have hf2 := heapWriteKeyedA_frame st.length (schemaTasksA schema [] m path)
          (st ++ [Container.cdict m])
        rw [heq2] at hf2
        have h2 : st2.get? b = st.get? b := (hf2.1 b hne).trans happ
        split
        · next st3 e heq3 =>
          have hf3 := heapWriteKeyedA_frame_eq st.length _ st2 st3 _ heq3
          exact (hf3.1 b hne).trans h2
        · next st3 a3 heq3 =>
          have hf3 := heapWriteKeyedA_frame_eq st.length _ st2 st3 _ heq3
          have h3 : st3.get? b = st.get? b := (hf3.1 b hne).trans h2
          split
          · next st4 e heq4 =>
            have hf4 := heapWriteKeyedA_frame_eq st.length _ st3 st4 _ heq4
            exact (hf4.1 b hne).trans h3
          · next st4 a4 heq4 =>
            have hf4 := heapWriteKeyedA_frame_eq st.length _ st3 st4 _ heq4
            have h4 : st4.get? b = st.get? b := (hf4.1 b hne).trans h3
            split
            · split
              · exact h4
              · exact h4
            · exact h4
  · intro r hr
    simp only [heapDictBodyA] at hr
    split at hr
    · simp at hr
    · split at hr
      · simp at hr
      · split at hr
        · simp at hr
        · split at hr
          · simp at hr
          · split at hr
            · split at hr
              · simp at hr
              · simp at hr; omega
            · simp at hr; omega

theorem heapTupleBodyA_no_mutation (ivs : List Validator) (rv? : Option Validator)
    (minLen : Nat) (maxLen : Option Nat) (c : Core) (st : Store) (xs : List Value)
    (path : List PathSeg) :
    (∀ b, b < st.length →
      (heapTupleBodyA ivs rv? minLen maxLen c st xs path).1.get? b = st.get? b) ∧
    (∀ r, (heapTupleBodyA ivs rv? minLen maxLen c st xs path).2 = .ok r →
      st.length ≤ r) := by
  constructor
  · intro b hb
    have hne : st.length ≠ b := by omega
    have happ : (st ++ [Container.clist xs]).get? b = st.get? b := List.get?_append hb
    simp only [heapTupleBodyA]
    split
    · exact happ
    · split
      · exact happ
      · next fixedTasks heq1 =>
        split
        · next st2 e heq2 =>
          have hf2 := heapWriteItemsA_frame_eq st.length _
            (st ++ [Container.clist xs]) 0 st2 _ heq2
          exact (hf2.1 b hne).trans happ
        · next st2 a2 heq2 =>
          have hf2 := heapWriteItemsA_frame_eq st.length _
            (st ++ [Container.clist xs]) 0 st2 _ heq2
          have h2len : st2.length = st.length + 1 := by simpa using hf2.2
          have hblt : b < st2.length := by omega
          exact (List.get?_append hblt).trans ((hf2.1 b hne).trans happ)
  · intro r hr
    simp only [heapTupleBodyA] at hr
    split at hr
    · simp at hr
    · split at hr
      · simp at hr
      · next fixedTasks heq1 =>
        split at hr
        · simp at hr
        · next st2 a2 heq2 =>
          simp at hr
          have hf2 := heapWriteItemsA_frame_eq st.length _
            (st ++ [Container.clist xs]) 0 st2 _ heq2
          have h2len : st2.length = st.length + 1 := by simpa using hf2.2
          omega

theorem heapListValidateA_no_mutation (iv : Option Validator) (minL maxL : Option Nat)
    (u ne : Bool) (c : Core) (st : Store) (addr : Nat) (path : List PathSeg) :
    (∀ b, b < st.length →
      (heapListValidateA iv minL maxL u ne c st addr path).1.get? b = st.get? b) ∧
    (∀ r, (heapListValidateA iv minL maxL u ne c st addr path).2 = .ok r →
      st.length ≤ r) := by
  cases hga : st.get? addr with
  | none =>
    refine ⟨fun b hb => ?_, fun r hr => ?_⟩
    · simp only [heapListValidateA, hga]
    · simp only [heapListValidateA, hga] at hr
      simp at hr
  | some cont =>
    cases cont with
    | clist xs =>
      simp only [heapListValidateA, hga]
      exact heapListBodyA_no_mutation iv minL maxL u ne c st xs path
    | ctup xs =>
      simp only [heapListValidateA, hga]
      exact heapListBodyA_no_mutation iv minL maxL u ne c st xs path
    | cdict m =>
      refine ⟨fun b hb => ?_, fun r hr => ?_⟩
      · simp only [heapListValidateA, hga]
      · simp only [heapListValidateA, hga] at hr
        simp at hr

theorem heapDictValidateA_no_mutation (schema : List (String × Validator))
    (addl : Addl) (pats : List (String × Validator)) (minP maxP : Option Nat)
    (req : List String) (c : Core) (st : Store) (addr : Nat)
    (path : List PathSeg) :
    (∀ b, b < st.length →
      (heapDictValidateA schema addl pats minP maxP req c st addr path).1.get? b =
        st.get? b) ∧
    (∀ r, (heapDictValidateA schema addl pats minP maxP req c st addr path).2 =
        .ok r → st.length ≤ r) := by
  cases hga : st.get? addr with
  | none =>
    refine ⟨fun b hb => ?_, fun r hr => ?_⟩
    · simp only [heapDictValidateA, hga]
    · simp only [heapDictValidateA, hga] at hr
      simp at hr
  | some cont =>
    cases cont with
    | clist xs =>
      refine ⟨fun b hb => ?_, fun r hr => ?_⟩
      · simp only [heapDictValidateA, hga]
      · simp only [heapDictValidateA, hga] at hr
        simp at hr
    | ctup xs =>
      refine ⟨fun b hb => ?_, fun r hr => ?_⟩
      · simp only [heapDictValidateA, hga]
      · simp only [heapDictValidateA, hga] at hr
        simp at hr
    | cdict m =>
      simp only [heapDictValidateA, hga]
      exact heapDictBodyA_no_mutation schema addl pats minP maxP req c st m path

theorem heapTupleValidateA_no_mutation (ivs : List Validator) (rv? : Option Validator)
    (minLen : Nat) (maxLen : Option Nat) (c : Core) (st : Store) (addr : Nat)
    (path : List PathSeg) :
    (∀ b, b < st.length →
      (heapTupleValidateA ivs rv? minLen maxLen c st addr path).1.get? b = st.get? b) ∧
    (∀ r, (heapTupleValidateA ivs rv? minLen maxLen c st addr path).2 = .ok r →
      st.length ≤ r) := by
  cases hga : st.get? addr with
  | none =>
    refine ⟨fun b hb => ?_, fun r hr => ?_⟩
    · simp only [heapTupleValidateA, hga]
    · simp only [heapTupleValidateA, hga] at hr
      simp at hr
  | some cont =>
    cases cont with
    | clist xs =>
      simp only [heapTupleValidateA, hga]
      exact heapTupleBodyA_no_mutation ivs rv? minLen maxLen c st xs path
    | ctup xs =>
      simp only [heapTupleValidateA, hga]
      exact heapTupleBodyA_no_mutation ivs rv? minLen maxLen c st xs path
    | cdict m =>
      refine ⟨fun b hb => ?_, fun r hr => ?_⟩
      · simp only [heapTupleValidateA, hga]
      · simp only [heapTupleValidateA, hga] at hr
        simp at hr

/-- C10: List, Dict and Tuple validation never mutate the input
collection and build the result freshly, in `validate` and in
`validate_async` alike. Over the store semantics of `_validate` and
`_validate_async` (`result = list(data)` / `dict(data)`, subtasks
created reading the copy, and writes going only to `result`): every
store cell `b` existing before the call holds exactly its original
container afterwards, whether validation succeeds or fails, and on
success the returned collection is at a fresh address allocated by the
call (`st.length ≤ r`), so validated child values are written only
into the copy. -/
theorem c10_no_input_mutation
    (iv : Option Validator) (minL maxL : Option Nat) (u ne : Bool)
    (schema : List (String × Validator)) (addl : Addl)
    (pats : List (String × Validator)) (minP maxP : Option Nat)
    (req exc : List String)
    (ivs : List Validator) (rv? : Option Validator) (minLen : Nat)
    (maxLen : Option Nat) (c : Core) (st : Store) (addr : Nat)
    (path : List PathSeg) (b : Nat) (hb : b < st.length) :
    ((heapListValidate iv minL maxL u ne c st addr path).1.get? b = st.get? b ∧
      (∀ r, (heapListValidate iv minL maxL u ne c st addr path).2 = .ok r →
        st.length ≤ r)) ∧
    ((heapDictValidate schema addl pats minP maxP req exc c st addr path).1.get? b =
        st.get? b ∧
      (∀ r, (heapDictValidate schema addl pats minP maxP req exc c st addr path).2 =
          .ok r → st.length ≤ r)) ∧
    ((heapTupleValidate ivs rv? minLen maxLen c st addr path).1.get? b = st.get? b ∧
      (∀ r, (heapTupleValidate ivs rv? minLen maxLen c st addr path).2 = .ok r →
        st.length ≤ r)) ∧
    ((heapListValidateA iv minL maxL u ne c st addr path).1.get? b = st.get? b ∧
      (∀ r, (heapListValidateA iv minL maxL u ne c st addr path).2 = .ok r →
        st.length ≤ r)) ∧
    ((heapDictValidateA schema addl pats minP maxP req c st addr path).1.get? b =
        st.get? b ∧
      (∀ r, (heapDictValidateA schema addl pats minP maxP req c st addr path).2 =
          .ok r → st.length ≤ r)) ∧
    ((heapTupleValidateA ivs rv? minLen maxLen c st addr path).1.get? b = st.get? b ∧
      (∀ r, (heapTupleValidateA ivs rv? minLen maxLen c st addr path).2 = .ok r →
        st.length ≤ r)) := by
  refine ⟨⟨?_, ?_⟩, ⟨?_, ?_⟩, ⟨?_, ?_⟩, ⟨?_, ?_⟩, ⟨?_, ?_⟩, ⟨?_, ?_⟩⟩
  · exact (heapListValidate_no_mutation iv minL maxL u ne c st addr path).1 b hb
  · exact (heapListValidate_no_mutation iv minL maxL u ne c st addr path).2
  · exact (heapDictValidate_no_mutation schema addl pats minP maxP req exc c st
      addr path).1 b hb
  · exact (heapDictValidate_no_mutation schema addl pats minP maxP req exc c st
      addr path).2
  · exact (heapTupleValidate_no_mutation ivs rv? minLen maxLen c st addr path).1 b hb
  · exact (heapTupleValidate_no_mutation ivs rv? minLen maxLen c st addr path).2
  · exact (heapListValidateA_no_mutation iv minL maxL u ne c st addr path).1 b hb
  · exact (heapListValidateA_no_mutation iv minL maxL u ne c st addr path).2
  · exact (heapDictValidateA_no_mutation schema addl pats minP maxP req c st
      addr path).1 b hb
  · exact (heapDictValidateA_no_mutation schema addl pats minP maxP req c st
      addr path).2
  · exact (heapTupleValidateA_no_mutation ivs rv? minLen maxLen c st addr path).1 b hb
  · exact (heapTupleValidateA_no_mutation ivs rv? minLen maxLen c st addr path).2

/-- Witness for `c10_no_input_mutation`: the one-cell store holding the
input list `[1]`, inspected at cell `0`, for all six validators. -/
theorem c10_witness :
    0 < ([Container.clist [Value.int 1]] : Store).length ∧
    (((heapListValidate none none none false false {}
          [Container.clist [Value.int 1]] 0 []).1.get? 0 =
        ([Container.clist [Value.int 1]] : Store).get? 0 ∧
      (∀ r, (heapListValidate none none none false false {}
          [Container.clist [Value.int 1]] 0 []).2 = .ok r →
        ([Container.clist [Value.int 1]] : Store).length ≤ r)) ∧
    ((heapDictValidate [] .allow [] none none [] [] {}
          [Container.clist [Value.int 1]] 0 []).1.get? 0 =
        ([Container.clist [Value.int 1]] : Store).get? 0 ∧
      (∀ r, (heapDictValidate [] .allow [] none none [] [] {}
          [Container.clist [Value.int 1]] 0 []).2 = .ok r →
        ([Container.clist [Value.int 1]] : Store).length ≤ r)) ∧
    ((heapTupleValidate [] none 0 none {}
          [Container.clist [Value.int 1]] 0 []).1.get? 0 =
        ([Container.clist [Value.int 1]] : Store).get? 0 ∧
      (∀ r, (heapTupleValidate [] none 0 none {}
          [Container.clist [Value.int 1]] 0 []).2 = .ok r →
        ([Container.clist [Value.int 1]] : Store).length ≤ r)) ∧
    ((heapListValidateA none none none false false {}
          [Container.clist [Value.int 1]] 0 []).1.get? 0 =
        ([Container.clist [Value.int 1]] : Store).get? 0 ∧
      (∀ r, (heapListValidateA none none none false false {}
          [Container.clist [Value.int 1]] 0 []).2 = .ok r →
        ([Container.clist [Value.int 1]] : Store).length ≤ r)) ∧
    ((heapDictValidateA [] .allow [] none none [] {}
          [Container.clist [Value.int 1]] 0 []).1.get? 0 =
        ([Container.clist [Value.int 1]] : Store).get? 0 ∧
      (∀ r, (heapDictValidateA [] .allow [] none none [] {}
          [Container.clist [Value.int 1]] 0 []).2 = .ok r →
        ([Container.clist [Value.int 1]] : Store).length ≤ r)) ∧
    ((heapTupleValidateA [] none 0 none {}
          [Container.clist [Value.int 1]] 0 []).1.get? 0 =
        ([Container.clist [Value.int 1]] : Store).get? 0 ∧
      (∀ r, (heapTupleValidateA [] none 0 none {}
          [Container.clist [Value.int 1]] 0 []).2 = .ok r →
        ([Container.clist [Value.int 1]] : Store).length ≤ r))) :=
  ⟨by decide,
   c10_no_input_mutation none none none false false [] .allow [] none none [] []
     [] none 0 none {} [Container.clist [Value.int 1]] 0 [] 0 (by decide)⟩

theorem addKey_contains_self (s : List String) (k : String) :
    (addKey s k).contains k = true := by
  unfold addKey
  split
  · next h => exact h
  · rw [contains_append_or]
    have h1 : ([k] : List String).contains k = true := by
      rw [contains_cons]
      simp
    rw [h1, Bool.or_true]

theorem filter_excl_contains (ex : List String) (a : String)
    (ha : ex.contains a = true) (f : String → Bool) :
    ∀ l : List String,
    (l.filter (fun k => f k && !ex.contains k)).contains a = false := by
  intro l
  induction l with
  | nil => rfl
  | cons k rest ih =>
    by_cases hk : (f k && !ex.contains k) = true
    · simp only [List.filter, hk, contains_cons]
      have hne : (a == k) = false := by
        rw [beq_eq_false_iff_ne]
        intro he
        rw [← he, ha] at hk
        simp at hk
      rw [hne, Bool.false_or]
      exact ih
    · simp only [Bool.not_eq_true] at hk
      simp only [List.filter, hk]
      exact ih

/-- Replacing the value under an excluded key commutes with the
schema-key loop: the loop never touches the key, so the replacement
just rides along into the result. -/
theorem schemaStep_subst (ex : List String) (a : String) (g : Value)
    (path : List PathSeg) (ha : ex.contains a = true) :
    ∀ (schema : List (String × Validator)) (m : Entries) (validated : List String),
    schemaStep schema ex (Entries.set m a g) path validated =
      (schemaStep schema ex m path validated).map
        (fun r => (Entries.set r.1 a g, r.2)) := by
  intro schema
  induction schema with
  | nil =>
    intro m validated
    unfold schemaStep
    rfl
  | cons kv rest ih =>
    intro m validated
    obtain ⟨key, v⟩ := kv
    unfold schemaStep
    by_cases hex : (!ex.contains key) = true
    · have hne : key ≠ a := by
        intro he
        rw [he, ha] at hex
        simp at hex
      simp only [hex, if_pos]
      rw [Entries.lookup_set_ne m a key g hne]
      cases hl : Entries.lookup m key with
      | none =>
        simp only [hl]
        exact ih m validated
      | some val =>
        simp only [hl]
        cases hv : vval v val (path ++ [.field key]) with
        | error e => simp [hv, Bind.bind, Except.bind, Except.map]
        | ok newVal =>
          simp only [hv, Bind.bind, Except.bind]
          rw [Entries.set_comm m a key g newVal (Ne.symm hne)]
          exact ih (Entries.set m key newVal) (addKey validated key)
    · simp only [Bool.not_eq_true] at hex
      simp only [hex, Bool.false_eq_true, if_false]
      exact ih m validated

/-- The same commutation for the key scan of one pattern rule. -/
theorem patternKeysStep_subst (v : Validator) (p : String) (ex : List String)
    (a : String) (g : Value) (path : List PathSeg) (ha : ex.contains a = true) :
    ∀ (ks : List String) (m : Entries) (validated : List String),
    patternKeysStep v p ex ks (Entries.set m a g) path validated =
      (patternKeysStep v p ex ks m path validated).map
        (fun r => (Entries.set r.1 a g, r.2)) := by
  intro ks
  induction ks with
  | nil =>
    intro m validated
    unfold patternKeysStep
    rfl
  | cons k rest ih =>
    intro m validated
    unfold patternKeysStep
    by_cases hc : (!ex.contains k && reMatch p k) = true
    · have hne : k ≠ a := by
        intro he
        rw [he, ha] at hc
        simp at hc
      simp only [hc, if_pos]
      rw [Entries.lookup_set_ne m a k g hne]
      cases hl : Entries.lookup m k with
      | none =>
        simp only [hl]
        exact ih m validated
      | some val =>
        simp only [hl]
        cases hv : vval v val (path ++ [.field k]) with
        | error e => simp [hv, Bind.bind, Except.bind, Except.map]
        | ok newVal =>
          simp only [hv, Bind.bind, Except.bind]
          rw [Entries.set_comm m a k g newVal (Ne.symm hne)]
          exact ih (Entries.set m k newVal) (addKey validated k)
    · simp only [Bool.not_eq_true] at hc
      simp only [hc, Bool.false_eq_true, if_false]
      exact ih m validated

/-- The same commutation for the whole pattern-rule phase. -/
theorem patternsStep_subst (ex : List String) (a : String) (g : Value)
    (path : List PathSeg) (ha : ex.contains a = true) :
    ∀ (pats : List (String × Validator)) (m : Entries) (validated : List String),
    patternsStep pats ex (Entries.set m a g) path validated =
      (patternsStep pats ex m path validated).map
        (fun r => (Entries.set r.1 a g, r.2)) := by
  intro pats
  induction pats with
  | nil =>
    intro m validated
    unfold patternsStep
    rfl
  | cons pv rest ih =>
    intro m validated
    obtain ⟨p, v⟩ := pv
    unfold patternsStep
    rw [Entries.keyList_set, patternKeysStep_subst v p ex a g path ha]
    cases hres : patternKeysStep v p ex (Entries.keyList m) m path validated with
    | error e => simp [hres, Bind.bind, Except.bind, Except.map]
    | ok r =>
      obtain ⟨m₁, vd₁⟩ := r
      simp only [hres, Bind.bind, Except.bind, Except.map]
      exact ih m₁ vd₁

/-- The same commutation for the additional-properties loop, whose key
list never contains the excluded key. -/
theorem addlStep_subst (v : Validator) (a : String) (g : Value)
    (path : List PathSeg) :
    ∀ (ks : List String) (m : Entries), ks.contains a = false →
    addlStep v ks (Entries.set m a g) path =
      (addlStep v ks m path).map (fun mr => Entries.set mr a g) := by
  intro ks
  induction ks with
  | nil =>
    intro m _
    unfold addlStep
    rfl
  | cons k rest ih =>
    intro m hks
    rw [contains_cons] at hks
    simp only [Bool.or_eq_false_iff, beq_eq_false_iff_ne] at hks
    obtain ⟨hne, hrest⟩ := hks
    unfold addlStep
    rw [Entries.lookup_set_ne m a k g (Ne.symm hne)]
    cases hl : Entries.lookup m k with
    | none =>
      simp only [hl]
      exact ih m hrest
    | some val =>
      simp only [hl]
      cases hv : vval v val (path ++ [.field k]) with
      | error e => simp [hv, Bind.bind, Except.bind, Except.map]
      | ok y =>
        simp only [hv, Bind.bind, Except.bind]
        rw [Entries.set_comm m a k g y hne]
        exact ih (Entries.set m k y) hrest

/-- The schema-key loop returns the excluded key's value untouched. -/
theorem schemaStep_lookup (ex : List String) (a : String) (path : List PathSeg)
    (ha : ex.contains a = true) :
    ∀ (schema : List (String × Validator)) (m : Entries) (validated : List String)
      (mr : Entries) (vd : List String),
    schemaStep schema ex m path validated = .ok (mr, vd) →
    Entries.lookup mr a = Entries.lookup m a := by
  intro schema
  induction schema with
  | nil =>
    intro m validated mr vd h
    unfold schemaStep at h
    simp at h
    rw [h.1]
  | cons kv rest ih =>
    intro m validated mr vd h
    obtain ⟨key, v⟩ := kv
    unfold schemaStep at h
    by_cases hex : (!ex.contains key) = true
    · have hne : key ≠ a := by
        intro he
        rw [he, ha] at hex
        simp at hex
      simp only [hex, if_pos] at h
      cases hl : Entries.lookup m key with
      | none =>
        simp only [hl] at h
        exact ih m validated mr vd h
      | some val =>
        simp only [hl] at h
        cases hv : vval v val (path ++ [.field key]) with
        | error e =>
          simp [hv, Bind.bind, Except.bind] at h
        | ok newVal =>
          simp only [hv, Bind.bind, Except.bind] at h
          rw [ih (Entries.set m key newVal) (addKey validated key) mr vd h,
            Entries.lookup_set_ne m key a newVal (Ne.symm hne)]
    · simp only [Bool.not_eq_true] at hex
      simp only [hex, Bool.false_eq_true, if_false] at h
      exact ih m validated mr vd h

/-- The key scan of one pattern rule returns the excluded key's value
untouched. -/
theorem patternKeysStep_lookup (v : Validator) (p : String) (ex : List String)
    (a : String) (path : List PathSeg) (ha : ex.contains a = true) :
    ∀ (ks : List String) (m : Entries) (validated : List String)
      (mr : Entries) (vd : List String),
    patternKeysStep v p ex ks m path validated = .ok (mr, vd) →
    Entries.lookup mr a = Entries.lookup m a := by
  intro ks
  induction ks with
  | nil =>
    intro m validated mr vd h
    unfold patternKeysStep at h
    simp at h
    rw [h.1]
  | cons k rest ih =>
    intro m validated mr vd h
    unfold patternKeysStep at h
    by_cases hc : (!ex.contains k && reMatch p k) = true
    · have hne : k ≠ a := by
        intro he
        rw [he, ha] at hc
        simp at hc
      simp only [hc, if_pos] at h
      cases hl : Entries.lookup m k with
      | none =>
        simp only [hl] at h
        exact ih m validated mr vd h
      | some val =>
        simp only [hl] at h
        cases hv : vval v val (path ++ [.field k]) with
        | error e =>
          simp [hv, Bind.bind, Except.bind] at h
        | ok newVal =>
          simp only [hv, Bind.bind, Except.bind] at h
          rw [ih (Entries.set m k newVal) (addKey validated k) mr vd h,
            Entries.lookup_set_ne m k a newVal (Ne.symm hne)]
    · simp only [Bool.not_eq_true] at hc
      simp only [hc, Bool.false_eq_true, if_false] at h
      exact ih m validated mr vd h

/-- The whole pattern-rule phase returns the excluded key's value
untouched. -/
theorem patternsStep_lookup (ex : List String) (a : String) (path : List PathSeg)
    (ha : ex.contains a = true) :
    ∀ (pats : List (String × Validator)) (m : Entries) (validated : List String)
      (mr : Entries) (vd : List String),
    patternsStep pats ex m path validated = .ok (mr, vd) →
    Entries.lookup mr a = Entries.lookup m a := by
  intro pats
  induction pats with
  | nil =>
    intro m validated mr vd h
    unfold patternsStep at h
    simp at h
    rw [h.1]
  | cons pv rest ih =>
    intro m validated mr vd h
    obtain ⟨p, v⟩ := pv
    unfold patternsStep at h
    cases hres : patternKeysStep v p ex (Entries.keyList m) m path validated with
    | error e =>
      simp [hres, Bind.bind, Except.bind] at h
    | ok r =>
      obtain ⟨m₁, vd₁⟩ := r
      simp only [hres, Bind.bind, Except.bind] at h
      rw [ih m₁ vd₁ mr vd h,
        patternKeysStep_lookup v p ex a path ha (Entries.keyList m) m validated
          m₁ vd₁ hres]

/-- The additional-properties loop returns the excluded key's value
untouched (the key is never among the unvalidated keys). -/
theorem addlStep_lookup (v : Validator) (a : String) (path : List PathSeg) :
    ∀ (ks : List String) (m : Entries), ks.contains a = false →
    ∀ mr, addlStep v ks m path = .ok mr →
    Entries.lookup mr a = Entries.lookup m a := by
  intro ks
  induction ks with
  | nil =>
    intro m _ mr h
    unfold addlStep at h
    simp at h
    rw [h]
  | cons k rest ih =>
    intro m hks mr h
    rw [contains_cons] at hks
    simp only [Bool.or_eq_false_iff, beq_eq_false_iff_ne] at hks
    obtain ⟨hne, hrest⟩ := hks
    unfold addlStep at h
    cases hl : Entries.lookup m k with
    | none =>
      simp only [hl] at h
      exact ih m hrest mr h
    | some val =>
      simp only [hl] at h
      cases hv : vval v val (path ++ [.field k]) with
      | error e =>
        simp [hv, Bind.bind, Except.bind] at h
      | ok y =>
        simp only [hv, Bind.bind, Except.bind] at h
        rw [ih (Entries.set m k y) hrest mr h,
          Entries.lookup_set_ne m k a y hne]

set_option maxHeartbeats 1000000 in
/-- Changing the value under an excluded key of a `Dict` validation
changes exactly the passthrough slot of the result: the outcome is
otherwise identical, so the excluded key is never checked. -/
theorem vvalDict_subst (schema : List (String × Validator)) (addl : Addl)
    (pats : List (String × Validator)) (minP maxP : Option Nat)
    (req ex : List String) (c : Core) (a : String) (g : Value)
    (path : List PathSeg) (ha : ex.contains a = true) (m : Entries) :
    vval (.dict schema addl pats minP maxP req ex c)
        (.dict (Entries.set m a g)) path =
      (vval (.dict schema addl pats minP maxP req ex c) (.dict m) path).map
        (fun r => match r with
          | .dict mr => .dict (Entries.set mr a g)
          | other => other) := by
  simp only [vval]
  simp only [Value.isNull, Bool.false_and, Bool.false_eq_true, if_false,
    Entries.length_set, Entries.hasKey_set]
  cases h1 : checkOpt minP (fun n => m.length < n)
      (fun n => "Object must have at least " ++ toString n ++ " properties")
      c path with
  | error e => simp [h1, Bind.bind, Except.bind, Except.map]
  | ok u1 =>
    simp only [h1, Bind.bind, Except.bind]
    cases h2 : checkOpt maxP (fun n => m.length > n)
        (fun n => "Object must have at most " ++ toString n ++ " properties")
        c path with
    | error e => simp [h2, Bind.bind, Except.bind, Except.map]
    | ok u2 =>
      simp only [h2, Bind.bind, Except.bind]
      cases h3 : guardCheck
          (!(req.filter (fun k => !Entries.hasKey m k && !ex.contains k)).isEmpty)
          ("Missing required properties: " ++ String.intercalate ", "
            (req.filter (fun k => !Entries.hasKey m k && !ex.contains k)))
          c path with
      | error e => simp [h3, Bind.bind, Except.bind, Except.map]
      | ok u3 =>
        simp only [h3, Bind.bind, Except.bind]
        rw [schemaStep_subst ex a g path ha schema m []]
        cases h4 : schemaStep schema ex m path [] with
        | error e => simp [h4, Bind.bind, Except.bind, Except.map]
        | ok r4 =>
          obtain ⟨m₁, vd₁⟩ := r4
          simp only [h4, Bind.bind, Except.bind, Except.map]
          rw [patternsStep_subst ex a g path ha pats m₁ vd₁]
          cases h5 : patternsStep pats ex m₁ path vd₁ with
          | error e => simp [h5, Bind.bind, Except.bind, Except.map]
          | ok r5 =>
            obtain ⟨m₂, vd₂⟩ := r5
            simp only [h5, Bind.bind, Except.bind, Except.map,
              Entries.keyList_set]
            by_cases hu : (!((Entries.keyList m₂).filter
                (fun k => !vd₂.contains k && !ex.contains k)).isEmpty) = true
            · simp only [hu, if_pos]
              cases addl with
              | forbid => simp [Except.map]
              | allow => simp [Except.map]
              | withV v =>
                simp only [Bind.bind, Except.bind]
                rw [addlStep_subst v a g path
                  ((Entries.keyList m₂).filter
                    (fun k => !vd₂.contains k && !ex.contains k)) m₂
                  (filter_excl_contains ex a ha
                    (fun k => !vd₂.contains k) (Entries.keyList m₂))]
                cases h6 : addlStep v ((Entries.keyList m₂).filter
                    (fun k => !vd₂.contains k && !ex.contains k)) m₂ path with
                | error e => simp [h6, Bind.bind, Except.bind, Except.map]
                | ok m₃ => simp [h6, Bind.bind, Except.bind, Except.map]
            · simp only [Bool.not_eq_true] at hu
              simp only [hu, Bool.false_eq_true, if_false]

set_option maxHeartbeats 1000000 in
/-- A successful `Dict` validation returns an excluded key's value
untouched. -/
theorem vvalDict_lookup (schema : List (String × Validator)) (addl : Addl)
    (pats : List (String × Validator)) (minP maxP : Option Nat)
    (req ex : List String) (c : Core) (a : String) (path : List PathSeg)
    (ha : ex.contains a = true) (m mr : Entries)
    (h : vval (.dict schema addl pats minP maxP req ex c) (.dict m) path =
      .ok (.dict mr)) :
    Entries.lookup mr a = Entries.lookup m a := by
  simp only [vval] at h
  simp only [Value.isNull, Bool.false_and, Bool.false_eq_true, if_false] at h
  cases h1 : checkOpt minP (fun n => m.length < n)
      (fun n => "Object must have at least " ++ toString n ++ " properties")
      c path with
  | error e =>
    simp only [h1, Bind.bind, Except.bind] at h
    exact Except.noConfusion h
  | ok u1 =>
    simp only [h1, Bind.bind, Except.bind] at h
    cases h2 : checkOpt maxP (fun n => m.length > n)
        (fun n => "Object must have at most " ++ toString n ++ " properties")
        c path with
    | error e =>
      simp only [h2, Bind.bind, Except.bind] at h
      exact Except.noConfusion h
    | ok u2 =>
      simp only [h2, Bind.bind, Except.bind] at h
      cases h3 : guardCheck
          (!(req.filter (fun k => !Entries.hasKey m k && !ex.contains k)).isEmpty)
          ("Missing required properties: " ++ String.intercalate ", "
            (req.filter (fun k => !Entries.hasKey m k && !ex.contains k)))
          c path with
      | error e =>
        simp only [h3, Bind.bind, Except.bind] at h
        exact Except.noConfusion h
      | ok u3 =>
        simp only [h3, Bind.bind, Except.bind] at h
        cases h4 : schemaStep schema ex m path [] with
        | error e =>
          simp only [h4, Bind.bind, Except.bind] at h
          exact Except.noConfusion h
        | ok r4 =>
          obtain ⟨m₁, vd₁⟩ := r4
          simp only [h4, Bind.bind, Except.bind] at h
          cases h5 : patternsStep pats ex m₁ path vd₁ with
          | error e =>
            simp only [h5, Bind.bind, Except.bind] at h
            exact Except.noConfusion h
          | ok r5 =>
            obtain ⟨m₂, vd₂⟩ := r5
            simp only [h5, Bind.bind, Except.bind] at h
            have e4 := schemaStep_lookup ex a path ha schema m [] m₁ vd₁ h4
            have e5 := patternsStep_lookup ex a path ha pats m₁ vd₁ m₂ vd₂ h5
            by_cases hu : (!((Entries.keyList m₂).filter
                (fun k => !vd₂.contains k && !ex.contains k)).isEmpty) = true
            · simp only [hu, if_pos] at h
              cases addl with
              | forbid => simp at h
              | allow =>
                simp at h
                rw [← h, e5, e4]
              | withV v =>
                simp only [Bind.bind, Except.bind] at h
                cases h6 : addlStep v ((Entries.keyList m₂).filter
                    (fun k => !vd₂.contains k && !ex.contains k)) m₂ path with
                | error e =>
                  simp only [h6] at h
                  exact Except.noConfusion h
                | ok m₃ =>
                  simp only [h6] at h
                  simp at h
                  have e6 := addlStep_lookup v a path
                    ((Entries.keyList m₂).filter
                      (fun k => !vd₂.contains k && !ex.contains k)) m₂
                    (filter_excl_contains ex a ha
                      (fun k => !vd₂.contains k) (Entries.keyList m₂)) m₃ h6
                  rw [← h, e6, e5, e4]
            · simp only [Bool.not_eq_true] at hu
              simp only [hu, Bool.false_eq_true, if_false] at h
              simp at h
              rw [← h, e5, e4]

set_option maxHeartbeats 1000000 in
/-- C9: `exclude` returns an Object over the same declared schema (the
excluded key stays in `field_names` and the schema is unchanged) whose
validation skips the key entirely: replacing the key's value by
arbitrary garbage `g` changes exactly the passthrough slot of the
result — in particular the outcome (success or the exact failure) never
depends on the value under the key, even when the key's own validator
would reject it — and a successful validation returns the value stored
under the key unmodified. -/
theorem c9_exclude_skips_key (o : ObjectV) (a : String) (g : Value)
    (m : Entries) (hfield : o.fieldNames.contains a = true)
    (hm : Entries.hasKey m a = true) :
    (o.exclude [a]).fieldNames = o.fieldNames ∧
    (o.exclude [a]).schema = o.schema ∧
    ((o.exclude [a]).validate (.dict (Entries.set m a g)) =
      ((o.exclude [a]).validate (.dict m)).map
        (fun r => match r with
          | .dict mr => .dict (Entries.set mr a g)
          | other => other)) ∧
    (∀ mr, (o.exclude [a]).validate (.dict m) = .ok (.dict mr) →
      Entries.lookup mr a = Entries.lookup m a) := by
  have ha : (addKey o.excludedFields a).contains a = true :=
    addKey_contains_self o.excludedFields a
  refine ⟨rfl, rfl, ?_, ?_⟩
  · unfold ObjectV.validate
    simp only [Value.isNull, Bool.false_eq_true, if_false, ObjectV.toDict,
      ObjectV.exclude, List.foldl]
    rw [vvalDict_subst o.schema o.addl o.patternProps o.minProps o.maxProps
      o.requiredKeys (addKey o.excludedFields a) {} a g [] ha m]
    cases hvv : vval (.dict o.schema o.addl o.patternProps o.minProps o.maxProps
        o.requiredKeys (addKey o.excludedFields a) {}) (.dict m) [] with
    | ok r => simp [hvv, Except.map]
    | error e => simp [hvv, Except.map]
  · intro mr hmr
    unfold ObjectV.validate at hmr
    simp only [Value.isNull, Bool.false_eq_true, if_false, ObjectV.toDict,
      ObjectV.exclude, List.foldl] at hmr
    cases hvv : vval (.dict o.schema o.addl o.patternProps o.minProps o.maxProps
        o.requiredKeys (addKey o.excludedFields a) {}) (.dict m) [] with
    | error e => simp [hvv] at hmr
    | ok r =>
      simp only [hvv] at hmr
      simp at hmr
      subst hmr
      exact vvalDict_lookup o.schema o.addl o.patternProps o.minProps o.maxProps
        o.requiredKeys (addKey o.excludedFields a) {} a [] ha m mr hvv

/-- Witness for `c9_exclude_skips_key`: a one-field object excluding
its own field, on the entry list `[("a", 3)]` and garbage value
`"garbage"` that its Number field validator would reject. -/
theorem c9_witness :
    ((ObjectV.make [("a", Validator.number none none false false false none {})]).fieldNames.contains "a" = true) ∧
    (Entries.hasKey [("a", Value.int 3)] "a" = true) ∧
    (((ObjectV.make [("a", Validator.number none none false false false none {})]).exclude ["a"]).fieldNames =
        (ObjectV.make [("a", Validator.number none none false false false none {})]).fieldNames ∧
      ((ObjectV.make [("a", Validator.number none none false false false none {})]).exclude ["a"]).schema =
        (ObjectV.make [("a", Validator.number none none false false false none {})]).schema ∧
      (((ObjectV.make [("a", Validator.number none none false false false none {})]).exclude ["a"]).validate
          (.dict (Entries.set [("a", Value.int 3)] "a" (Value.str "garbage"))) =
        (((ObjectV.make [("a", Validator.number none none false false false none {})]).exclude ["a"]).validate
            (.dict [("a", Value.int 3)])).map
          (fun r => match r with
            | .dict mr => .dict (Entries.set mr "a" (Value.str "garbage"))
            | other => other)) ∧
      (∀ mr, ((ObjectV.make [("a", Validator.number none none false false false none {})]).exclude ["a"]).validate
          (.dict [("a", Value.int 3)]) = .ok (.dict mr) →
        Entries.lookup mr "a" = Entries.lookup [("a", Value.int 3)] "a")) :=
  ⟨by decide, by decide,
   c9_exclude_skips_key
     (ObjectV.make [("a", Validator.number none none false false false none {})])
     "a" (Value.str "garbage") [("a", Value.int 3)] (by decide) (by decide)⟩

theorem gatherFirstError_length :
    ∀ (ts : List (Except ValidationError Value)) (vals : List Value),
    gatherFirstError ts = .ok vals → vals.length = ts.length := by
  intro ts
  induction ts with
  | nil =>
    intro vals h
    simp [gatherFirstError] at h
    rw [h]
    rfl
  | cons t rest ih =>
    intro vals h
    cases t with
    | error e => simp [gatherFirstError] at h
    | ok v =>
      simp only [gatherFirstError] at h
      cases hg : gatherFirstError rest with
      | error e =>
        rw [hg] at h
        simp [Except.map] at h
      | ok ys =>
        rw [hg] at h
        simp only [Except.map] at h
        have hv : v :: ys = vals := by simpa using h
        rw [← hv]
        simp [ih ys hg]

theorem gatherFirstError_append :
    ∀ (a b : List (Except ValidationError Value)),
    gatherFirstError (a ++ b) =
      (gatherFirstError a).bind
        (fun xs => (gatherFirstError b).map (fun ys => xs ++ ys)) := by
  intro a
  induction a with
  | nil =>
    intro b
    cases hg : gatherFirstError b with
    | error e => simp [gatherFirstError, hg, Bind.bind, Except.bind, Except.map]
    | ok ys => simp [gatherFirstError, hg, Bind.bind, Except.bind, Except.map]
  | cons t rest ih =>
    intro b
    cases t with
    | error e => simp [gatherFirstError, Bind.bind, Except.bind]
    | ok v =>
      rw [List.cons_append]
      simp only [gatherFirstError]
      rw [ih b]
      cases hg : gatherFirstError rest with
      | error e => simp [hg, Except.map, Bind.bind, Except.bind]
      | ok xs =>
        simp only [hg, Except.map, Bind.bind, Except.bind]
        cases hgb : gatherFirstError b with
        | error e => simp [hgb, Except.map, Except.bind]
        | ok ys => simp [hgb, Except.map, Except.bind]

theorem contains_filter_mono (p : String → Bool) :
    ∀ (l : List String) (k : String),
    (l.filter p).contains k = true → l.contains k = true := by
  intro l
  induction l with
  | nil => intro k h; simpa using h
  | cons a rest ih =>
    intro k h
    rw [contains_cons]
    by_cases hp : p a = true
    · simp only [List.filter, hp] at h
      rw [contains_cons] at h
      cases hka : (k == a) with
      | true => simp
      | false =>
        rw [hka, Bool.false_or] at h
        rw [Bool.false_or]
        exact ih k h
    · simp only [Bool.not_eq_true] at hp
      simp only [List.filter, hp] at h
      rw [ih k h, Bool.or_true]

theorem distinctKeys_filter (p : String → Bool) :
    ∀ (l : List String), distinctKeys l = true →
    distinctKeys (l.filter p) = true := by
  intro l
  induction l with
  | nil => intro h; simpa using h
  | cons a rest ih =>
    intro h
    simp only [distinctKeys, Bool.and_eq_true] at h
    obtain ⟨hna, hd⟩ := h
    by_cases hp : p a = true
    · simp only [List.filter, hp, distinctKeys, Bool.and_eq_true]
      refine ⟨?_, ih hd⟩
      have hc0 : (rest.filter p).contains a = false := by
        cases hc : (rest.filter p).contains a with
        | false => rfl
        | true =>
          rw [contains_filter_mono p rest a hc] at hna
          simp at hna
      rw [hc0]
      rfl
    · simp only [Bool.not_eq_true] at hp
      simp only [List.filter, hp]
      exact ih hd

theorem foldl_addKey_mono :
    ∀ (l s : List String) (k : String), s.contains k = true →
    (l.foldl addKey s).contains k = true := by
  intro l
  induction l with
  | nil => intro s k h; simpa using h
  | cons a rest ih =>
    intro s k h
    simp only [List.foldl_cons]
    exact ih (addKey s a) k (addKey_contains_mono s a k h)

theorem foldl_addKey_mem :
    ∀ (l s : List String) (k : String), l.contains k = true →
    (l.foldl addKey s).contains k = true := by
  intro l
  induction l with
  | nil => intro s k h; simp at h
  | cons a rest ih =>
    intro s k h
    rw [contains_cons] at h
    simp only [List.foldl_cons]
    cases hka : (k == a) with
    | true =>
      have hk : k = a := beq_iff_eq.mp hka
      subst hk
      exact foldl_addKey_mono rest (addKey s k) k (addKey_contains_self s k)
    | false =>
      rw [hka, Bool.false_or] at h
      exact ih (addKey s a) k h

theorem processResultsA_keyList :
    ∀ (ts : List (String × Except ValidationError Value)) (m mr : Entries),
    processResultsA m ts = .ok mr → Entries.keyList mr = Entries.keyList m := by
  intro ts
  induction ts with
  | nil =>
    intro m mr h
    simp [processResultsA] at h
    rw [h]
  | cons t rest ih =>
    intro m mr h
    obtain ⟨k, res⟩ := t
    cases res with
    | error e => simp [processResultsA] at h
    | ok v =>
      simp only [processResultsA] at h
      rw [ih (Entries.set m k v) mr h, Entries.keyList_set]

theorem processResultsA_lookup_notin :
    ∀ (ts : List (String × Except ValidationError Value)) (m mr : Entries)
      (k : String),
    processResultsA m ts = .ok mr → (ts.map Prod.fst).contains k = false →
    Entries.lookup mr k = Entries.lookup m k := by
  intro ts
  induction ts with
  | nil =>
    intro m mr k h _
    simp [processResultsA] at h
    rw [h]
  | cons t rest ih =>
    intro m mr k h hnk
    obtain ⟨k0, res⟩ := t
    simp only [List.map_cons] at hnk
    rw [contains_cons] at hnk
    simp only [Bool.or_eq_false_iff, beq_eq_false_iff_ne] at hnk
    obtain ⟨hne, hrest⟩ := hnk
    cases res with
    | error e => simp [processResultsA] at h
    | ok v =>
      simp only [processResultsA] at h
      rw [ih (Entries.set m k0 v) mr k h hrest,
        Entries.lookup_set_ne m k0 k v hne]

theorem msizePairs_mem :
    ∀ (s : List (String × Validator)) (k : String) (v : Validator),
    (k, v) ∈ s → Validator.msize v < msizePairs s := by
  intro s
  induction s with
  | nil => intro k v h; simp at h
  | cons kv rest ih =>
    intro k v h
    obtain ⟨k0, v0⟩ := kv
    simp only [msizePairs]
    rcases List.mem_cons.mp h with he | hm
    · rw [Prod.mk.injEq] at he
      obtain ⟨-, hv⟩ := he
      rw [← hv]
      omega
    · have := ih k v hm
      omega

theorem msizeList_mem :
    ∀ (l : List Validator) (v : Validator),
    v ∈ l → Validator.msize v < msizeList l := by
  intro l
  induction l with
  | nil => intro v h; simp at h
  | cons v0 rest ih =>
    intro v h
    simp only [msizeList]
    rcases List.mem_cons.mp h with he | hm
    · rw [he]; omega
    · have := ih v hm
      omega

theorem msizeVPairs_mem :
    ∀ (s : List (Value × Validator)) (k : Value) (v : Validator),
    (k, v) ∈ s → Validator.msize v < msizeVPairs s := by
  intro s
  induction s with
  | nil => intro k v h; simp at h
  | cons kv rest ih =>
    intro k v h
    obtain ⟨k0, v0⟩ := kv
    simp only [msizeVPairs]
    rcases List.mem_cons.mp h with he | hm
    · rw [Prod.mk.injEq] at he
      obtain ⟨-, hv⟩ := he
      rw [← hv]
      omega
    · have := ih k v hm
      omega

theorem safePairs_mem :
    ∀ (s : List (String × Validator)) (k : String) (v : Validator),
    safePairs s = true → (k, v) ∈ s → v.syncAsyncSafe = true := by
  intro s
  induction s with
  | nil => intro k v _ h; simp at h
  | cons kv rest ih =>
    intro k v hs h
    obtain ⟨k0, v0⟩ := kv
    simp only [safePairs, Bool.and_eq_true] at hs
    rcases List.mem_cons.mp h with he | hm
    · rw [Prod.mk.injEq] at he
      obtain ⟨-, hv⟩ := he
      rw [hv]
      exact hs.1
    · exact ih k v hs.2 hm

theorem safeList_mem :
    ∀ (l : List Validator) (v : Validator),
    safeList l = true → v ∈ l → v.syncAsyncSafe = true := by
  intro l
  induction l with
  | nil => intro v _ h; simp at h
  | cons v0 rest ih =>
    intro v hs h
    simp only [safeList, Bool.and_eq_true] at hs
    rcases List.mem_cons.mp h with he | hm
    · rw [he]; exact hs.1
    · exact ih v hs.2 hm

theorem safeVPairs_mem :
    ∀ (s : List (Value × Validator)) (k : Value) (v : Validator),
    safeVPairs s = true → (k, v) ∈ s → v.syncAsyncSafe = true := by
  intro s
  induction s with
  | nil => intro k v _ h; simp at h
  | cons kv rest ih =>
    intro k v hs h
    obtain ⟨k0, v0⟩ := kv
    simp only [safeVPairs, Bool.and_eq_true] at hs
    rcases List.mem_cons.mp h with he | hm
    · rw [Prod.mk.injEq] at he
      obtain ⟨-, hv⟩ := he
      rw [hv]
      exact hs.1
    · exact ih k v hs.2 hm

theorem wfKeysList_mem :
    ∀ (xs : List Value) (x : Value),
    wfKeysList xs = true → x ∈ xs → x.wfKeys = true := by
  intro xs
  induction xs with
  | nil => intro x _ h; simp at h
  | cons x0 rest ih =>
    intro x hw h
    simp only [wfKeysList, Bool.and_eq_true] at hw
    rcases List.mem_cons.mp h with he | hm
    · rw [he]; exact hw.1
    · exact ih x hw.2 hm

theorem wfKeysEntries_lookup :
    ∀ (m : Entries) (k : String) (val : Value),
    wfKeysEntries m = true → Entries.lookup m k = some val →
    val.wfKeys = true := by
  intro m
  induction m with
  | nil => intro k val _ h; simp [Entries.lookup] at h
  | cons kv rest ih =>
    intro k val hw h
    obtain ⟨k0, v0⟩ := kv
    simp only [wfKeysEntries, Bool.and_eq_true] at hw
    simp only [Entries.lookup] at h
    by_cases hk : (k0 == k) = true
    · simp only [hk, if_pos] at h
      have hv : v0 = val := by simpa using h
      rw [← hv]
      exact hw.1
    · simp only [Bool.not_eq_true] at hk
      simp only [hk, Bool.false_eq_true, if_false] at h
      exact ih k val hw.2 h

/-- With pointwise-agreeing children, gathering the item subtasks and
scanning for the first failure is the sequential item loop. -/
theorem listItemsA_eq (iv : Validator) (path : List PathSeg) :
    ∀ (xs : List Value) (i : Nat),
    (∀ x ∈ xs, ∀ p, vvalA iv x p = vval iv x p) →
    gatherFirstError (listItemsA iv xs i path) = listItemsStep iv xs i path := by
  intro xs
  induction xs with
  | nil =>
    intro i _
    simp [listItemsA, listItemsStep, gatherFirstError]
  | cons x rest ih =>
    intro i h
    simp only [listItemsA, listItemsStep]
    rw [h x (by simp) (path ++ [PathSeg.idx i])]
    cases hv : vval iv x (path ++ [PathSeg.idx i]) with
    | error e => simp [hv, gatherFirstError, Bind.bind, Except.bind]
    | ok y =>
      simp only [hv, gatherFirstError, Bind.bind, Except.bind]
      rw [ih (i + 1) (fun x' hx' p => h x' (by simp [hx']) p)]
      cases hr : listItemsStep iv rest (i + 1) path with
      | error e => simp [hr, Except.map, Except.bind]
      | ok ys => simp [hr, Except.map, Except.bind]

/-- `List._validate_async` agrees with `List._validate` on list
contents whose items the item validator treats identically. -/
theorem vvalAListBody_eq (itemValidator : Option Validator) (minL maxL : Option Nat)
    (u ne : Bool) (c : Core) (xs : List Value) (path : List PathSeg)
    (hch : ∀ iv, itemValidator = some iv →
      ∀ x ∈ xs, ∀ p, vvalA iv x p = vval iv x p) :
    vvalAListBody itemValidator minL maxL u ne c xs path =
      vvalListBody itemValidator minL maxL u ne c xs path := by
  unfold vvalAListBody vvalListBody
  cases hg1 : guardCheck (ne && xs.isEmpty) "List cannot be empty" c path with
  | error e => simp [hg1, Bind.bind, Except.bind]
  | ok u1 =>
    simp only [hg1, Bind.bind, Except.bind]
    cases hg2 : checkOpt minL (fun n => xs.length < n)
        (fun n => "List must have at least " ++ toString n ++ " items") c path with
    | error e => simp [hg2, Bind.bind, Except.bind]
    | ok u2 =>
      simp only [hg2, Bind.bind, Except.bind]
      cases hg3 : checkOpt maxL (fun n => xs.length > n)
          (fun n => "List must have at most " ++ toString n ++ " items") c path with
      | error e => simp [hg3, Bind.bind, Except.bind]
      | ok u3 =>
        simp only [hg3, Bind.bind, Except.bind]
        cases hg4 : guardCheck (u && hasDup xs) "List items must be unique" c path with
        | error e => simp [hg4, Bind.bind, Except.bind]
        | ok u4 =>
          simp only [hg4, Bind.bind, Except.bind]
          cases itemValidator with
          | none => rfl
          | some iv =>
            have hrw := listItemsA_eq iv path xs 0 (hch iv rfl)
            simp only [hrw]

/-- With pointwise-agreeing children, gathering the rest-item subtasks
is the sequential rest loop. -/
theorem tupleRestTasksA_eq (rv : Validator) (path : List PathSeg) :
    ∀ (xs : List Value) (i : Nat),
    (∀ x ∈ xs, ∀ p, vvalA rv x p = vval rv x p) →
    gatherFirstError (tupleRestTasksA rv xs i path) = tupleRestStep rv xs i path := by
  intro xs
  induction xs with
  | nil =>
    intro i _
    simp [tupleRestTasksA, tupleRestStep, gatherFirstError]
  | cons x rest ih =>
    intro i h
    simp only [tupleRestTasksA, tupleRestStep]
    rw [h x (by simp) (path ++ [PathSeg.idx i])]
    cases hv : vval rv x (path ++ [PathSeg.idx i]) with
    | error e => simp [hv, gatherFirstError, Bind.bind, Except.bind]
    | ok y =>
      simp only [hv, gatherFirstError, Bind.bind, Except.bind]
      rw [ih (i + 1) (fun x' hx' p => h x' (by simp [hx']) p)]
      cases hr : tupleRestStep rv rest (i + 1) path with
      | error e => simp [hr, Except.map, Except.bind]
      | ok ys => simp [hr, Except.map, Except.bind]

/-- When there are enough items for every positional validator, the
async task creation succeeds, produces one task per validator, and the
synchronous positional loop is the gather of those tasks followed by
the untouched surplus items. -/
theorem tupleFixedTasksA_eq (c : Core) (path : List PathSeg) :
    ∀ (vs : List Validator) (xs : List Value) (i : Nat),
    vs.length ≤ xs.length →
    (∀ v ∈ vs, ∀ x ∈ xs, ∀ p, vvalA v x p = vval v x p) →
    ∃ ts, tupleFixedTasksA vs xs i c path = .ok ts ∧ ts.length = vs.length ∧
      tupleFixedStep vs xs i c path =
        (gatherFirstError ts).map (fun ys => ys ++ xs.drop vs.length) := by
  intro vs
  induction vs with
  | nil =>
    intro xs i _ _
    refine ⟨[], by simp [tupleFixedTasksA], by simp, ?_⟩
    simp [tupleFixedStep, gatherFirstError, Except.map]
  | cons v vrest ih =>
    intro xs i hlen hch
    cases xs with
    | nil => simp at hlen
    | cons x xrest =>
      have hlen' : vrest.length ≤ xrest.length := by
        simp only [List.length_cons] at hlen
        omega
      obtain ⟨ts', hts', htlen', hsync'⟩ := ih xrest (i + 1) hlen'
        (fun v' hv' x' hx' p => hch v' (by simp [hv']) x' (by simp [hx']) p)
      refine ⟨vvalA v x (path ++ [PathSeg.idx i]) :: ts', ?_, ?_, ?_⟩
      · simp only [tupleFixedTasksA, hts', Bind.bind, Except.bind]
      · simp [htlen']
      · simp only [tupleFixedStep]
        rw [hch v (by simp) x (by simp) (path ++ [PathSeg.idx i])]
        cases hv : vval v x (path ++ [PathSeg.idx i]) with
        | error e => simp [hv, gatherFirstError, Bind.bind, Except.bind, Except.map]
        | ok y =>
          simp only [hv, gatherFirstError, Bind.bind, Except.bind]
          rw [hsync']
          cases hg : gatherFirstError ts' with
          | error e => simp [hg, Except.map, Except.bind]
          | ok ys => simp [hg, Except.map, Except.bind, List.cons_append]

/-- With pointwise-agreeing candidates, the async result scan over the
candidate subtasks is the synchronous candidate loop. -/
theorem unionTasksA_eq (c : Core) (data : Value) (path : List PathSeg) :
    ∀ (cands : List Validator),
    (∀ v ∈ cands, ∀ p, vvalA v data p = vval v data p) →
    ∀ (i : Nat) (errs : List String),
    unionGatherA (unionTasksA cands data path) i errs c path =
      unionStep cands c i errs data path := by
  intro cands
  induction cands with
  | nil =>
    intro _ i errs
    simp [unionTasksA, unionGatherA, unionStep]
  | cons v rest ih =>
    intro h i errs
    simp only [unionTasksA, unionStep]
    rw [h v (by simp) path]
    cases hv : vval v data path with
    | ok r => simp [hv, unionGatherA]
    | error e =>
      simp only [hv, unionGatherA]
      exact ih (fun v' hv' p => h v' (by simp [hv']) p) (i + 1)
        (("Option " ++ toString (i + 1) ++ ": " ++ e.render) :: errs)

/-- With pointwise-agreeing mapped validators, the async discriminator
dispatch is the synchronous one. -/
theorem discrStepA_eq (dval data : Value) (path : List PathSeg) :
    ∀ (dmap : List (Value × Validator)),
    (∀ kv ∈ dmap, ∀ p, vvalA (Prod.snd kv) data p = vval (Prod.snd kv) data p) →
    discrStepA dmap dval data path = discrStep dmap dval data path := by
  intro dmap
  induction dmap with
  | nil => intro _; simp [discrStepA, discrStep]
  | cons kv rest ih =>
    intro h
    obtain ⟨k, v⟩ := kv
    simp only [discrStepA, discrStep]
    by_cases hbeq : Value.beq k dval = true
    · simp only [hbeq, if_pos]
      rw [h (k, v) (by simp) path]
    · simp only [Bool.not_eq_true] at hbeq
      simp only [hbeq, Bool.false_eq_true, if_false]
      exact ih (fun kv' hkv' p => h kv' (by simp [hkv']) p)

/-- `Tuple._validate_async` agrees with `Tuple._validate` whenever the
constructor invariant `len(item_validators) ≤ min_length` holds and the
children agree pointwise (the length guard then fires before either
loop can observe a missing position). -/
theorem vvalATupleBody_eq (ivs : List Validator) (rv? : Option Validator)
    (minLen : Nat) (maxLen : Option Nat) (c : Core) (xs : List Value)
    (path : List PathSeg) (hmin : ivs.length ≤ minLen)
    (hch : ∀ v ∈ ivs, ∀ x ∈ xs, ∀ p, vvalA v x p = vval v x p)
    (hchR : ∀ rv, rv? = some rv → ∀ x ∈ xs, ∀ p, vvalA rv x p = vval rv x p) :
    vvalATupleBody ivs rv? minLen maxLen c xs path =
      vvalTupleBody ivs rv? minLen maxLen c xs path := by
  unfold vvalATupleBody vvalTupleBody
  cases hg1 : guardCheck (xs.length < minLen)
      ("Tuple must have at least " ++ toString minLen ++ " items") c path with
  | error e => simp [hg1, Bind.bind, Except.bind]
  | ok u1 =>
    have hxs : ¬ (xs.length < minLen) := by
      by_contra hc
      simp [guardCheck, hc] at hg1
    have hlenOK : ivs.length ≤ xs.length := by omega
    simp only [hg1, Bind.bind, Except.bind]
    cases hg2 : checkOpt maxLen (fun n => xs.length > n)
        (fun n => "Tuple must have at most " ++ toString n ++ " items") c path with
    | error e => simp [hg2, Bind.bind, Except.bind]
    | ok u2 =>
      simp only [hg2, Bind.bind, Except.bind]
      obtain ⟨ts, hts, htslen, hsync⟩ := tupleFixedTasksA_eq c path ivs xs 0 hlenOK hch
      rw [hts, hsync]
      simp only [Bind.bind, Except.bind]
      cases rv? with
      | none =>
        simp only [List.append_nil]
        cases hg : gatherFirstError ts with
        | error e => simp [hg, Except.map, Except.bind]
        | ok vals => simp [hg, Except.map, Except.bind, List.isEmpty]
      | some rv =>
        by_cases hgt : xs.length > ivs.length
        · simp only [if_pos hgt]
          rw [gatherFirstError_append]
          have hrteq := tupleRestTasksA_eq rv path (xs.drop ivs.length) ivs.length
            (fun x hx p => hchR rv rfl x (List.mem_of_mem_drop hx) p)
          obtain ⟨y, ys, hd⟩ : ∃ y ys, xs.drop ivs.length = y :: ys := by
            cases hd : xs.drop ivs.length with
            | nil =>
              have hlen2 := congrArg List.length hd
              simp at hlen2
              omega
            | cons y ys => exact ⟨y, ys, rfl⟩
          have hie : (tupleRestTasksA rv (xs.drop ivs.length) ivs.length
              path).isEmpty = false := by
            rw [hd]
            simp [tupleRestTasksA, List.isEmpty]
          cases hg : gatherFirstError ts with
          | error e => simp [hg, Except.map, Except.bind, Bind.bind]
          | ok vals =>
            have hvlen : vals.length = ivs.length := by
              rw [gatherFirstError_length ts vals hg, htslen]
            simp only [hg, Except.map, Except.bind, Bind.bind]
            have hdrop : (vals ++ xs.drop ivs.length).drop ivs.length =
                xs.drop ivs.length := by
              rw [← hvlen, List.drop_left]
            have htake : (vals ++ xs.drop ivs.length).take ivs.length = vals := by
              rw [← hvlen, List.take_left]
            simp only [hdrop, htake, ← hrteq]
            cases hgr : gatherFirstError (tupleRestTasksA rv (xs.drop ivs.length)
                ivs.length path) with
            | error e => simp [hgr, Except.map, Except.bind]
            | ok zs =>
              simp only [hgr, Except.map, Except.bind, hie, Bool.false_eq_true,
                if_false]
        · simp only [if_neg hgt]
          simp only [List.append_nil]
          cases hg : gatherFirstError ts with
          | error e => simp [hg, Except.map, Except.bind]
          | ok vals => simp [hg, Except.map, Except.bind, List.isEmpty]

/-- With distinct schema keys and pointwise-agreeing children, the
synchronous schema loop is: create the schema tasks from the original
dict, apply their results in order, and mark the task keys validated —
exactly the async schema phase. -/
theorem schemaStep_eq_tasks (ex : List String) (path : List PathSeg) :
    ∀ (schema : List (String × Validator)) (mcur m0 : Entries)
      (validated : List String),
    distinctKeys (schema.map Prod.fst) = true →
    (∀ k, (schema.map Prod.fst).contains k = true →
      Entries.lookup mcur k = Entries.lookup m0 k) →
    (∀ key v, (key, v) ∈ schema → ∀ val p, Entries.lookup m0 key = some val →
      vvalA v val p = vval v val p) →
    schemaStep schema ex mcur path validated =
      (processResultsA mcur (schemaTasksA schema ex m0 path)).map
        (fun mr => (mr,
          ((schemaTasksA schema ex m0 path).map Prod.fst).foldl addKey validated)) := by
  intro schema
  induction schema with
  | nil =>
    intro mcur m0 validated _ _ _
    simp [schemaStep, schemaTasksA, processResultsA, Except.map]
  | cons kv rest ih =>
    intro mcur m0 validated hdist hlk hch
    obtain ⟨key, v⟩ := kv
    have hdist' : distinctKeys (rest.map Prod.fst) = true := by
      simp only [List.map_cons, distinctKeys, Bool.and_eq_true] at hdist
      exact hdist.2
    have hnotin : (rest.map Prod.fst).contains key = false := by
      simp only [List.map_cons, distinctKeys, Bool.and_eq_true] at hdist
      have h1 := hdist.1
      cases hc : (rest.map Prod.fst).contains key with
      | false => rfl
      | true => rw [hc] at h1; simp at h1
    have hlk' : ∀ k, (rest.map Prod.fst).contains k = true →
        Entries.lookup mcur k = Entries.lookup m0 k := by
      intro k hk
      refine hlk k ?_
      rw [List.map_cons, contains_cons, hk, Bool.or_true]
    have hch' : ∀ key' v', (key', v') ∈ rest → ∀ val p,
        Entries.lookup m0 key' = some val → vvalA v' val p = vval v' val p :=
      fun key' v' hm val p hl => hch key' v' (List.mem_cons_of_mem _ hm) val p hl
    simp only [schemaStep, schemaTasksA]
    by_cases hex : (!ex.contains key) = true
    · simp only [hex, if_pos]
      rw [hlk key (by rw [List.map_cons, contains_cons]; simp)]
      cases hl : Entries.lookup m0 key with
      | none =>
        simp only [hl]
        exact ih mcur m0 validated hdist' hlk' hch'
      | some val =>
        simp only [hl]
        rw [hch key v (List.mem_cons_self _ _) val (path ++ [PathSeg.field key]) hl]
        cases hv : vval v val (path ++ [PathSeg.field key]) with
        | error e => simp [hv, Bind.bind, Except.bind, processResultsA, Except.map]
        | ok newVal =>
          simp only [hv, Bind.bind, Except.bind, processResultsA, List.map_cons,
            List.foldl_cons]
          exact ih (Entries.set mcur key newVal) m0 (addKey validated key) hdist'
            (fun k hk => by
              have hkne : k ≠ key := by
                intro he
                rw [he, hnotin] at hk
                exact Bool.false_ne_true hk
              rw [Entries.lookup_set_ne mcur key k newVal hkne]
              exact hlk' k hk)
            hch'
    · simp only [Bool.not_eq_true] at hex
      simp only [hex, Bool.false_eq_true, if_false]
      exact ih mcur m0 validated hdist' hlk' hch'

/-- With distinct unvalidated keys and a pointwise-agreeing validator,
the synchronous additional-properties loop is: create the tasks from
the original dict and apply their results in order. -/
theorem addlStep_eq_tasks (v : Validator) (path : List PathSeg) :
    ∀ (ks : List String) (mcur m0 : Entries),
    distinctKeys ks = true →
    (∀ k, ks.contains k = true → Entries.lookup mcur k = Entries.lookup m0 k) →
    (∀ k val p, Entries.lookup m0 k = some val → vvalA v val p = vval v val p) →
    addlStep v ks mcur path = processResultsA mcur (addlTasksA v ks m0 path) := by
  intro ks
  induction ks with
  | nil => intro mcur m0 _ _ _; simp [addlStep, addlTasksA, processResultsA]
  | cons k rest ih =>
    intro mcur m0 hdist hlk hch
    have hdist' : distinctKeys rest = true := by
      simp only [distinctKeys, Bool.and_eq_true] at hdist
      exact hdist.2
    have hnotin : rest.contains k = false := by
      simp only [distinctKeys, Bool.and_eq_true] at hdist
      have h1 := hdist.1
      cases hc : rest.contains k with
      | false => rfl
      | true => rw [hc] at h1; simp at h1
    have hlk' : ∀ k', rest.contains k' = true →
        Entries.lookup mcur k' = Entries.lookup m0 k' := by
      intro k' hk'
      refine hlk k' ?_
      rw [contains_cons, hk', Bool.or_true]
    simp only [addlStep, addlTasksA]
    rw [hlk k (by rw [contains_cons]; simp)]
    cases hl : Entries.lookup m0 k with
    | none =>
      simp only [hl]
      exact ih mcur m0 hdist' hlk' hch
    | some val =>
      simp only [hl]
      rw [hch k val (path ++ [PathSeg.field k]) hl]
      cases hv : vval v val (path ++ [PathSeg.field k]) with
      | error e => simp [hv, Bind.bind, Except.bind, processResultsA]
      | ok y =>
        simp only [hv, Bind.bind, Except.bind, processResultsA]
        exact ih (Entries.set mcur k y) m0 hdist'
          (fun k' hk' => by
            have hkne : k' ≠ k := by
              intro he
              rw [he, hnotin] at hk'
              exact Bool.false_ne_true hk'
            rw [Entries.lookup_set_ne mcur k k' y hkne]
            exact hlk' k' hk')
          hch

theorem contains_filter_prop (p : String → Bool) :
    ∀ (l : List String) (k : String),
    (l.filter p).contains k = true → p k = true := by
  intro l
  induction l with
  | nil => intro k h; simpa using h
  | cons a rest ih =>
    intro k h
    by_cases hp : p a = true
    · simp only [List.filter, hp] at h
      rw [contains_cons] at h
      cases hka : (k == a) with
      | true =>
        have hk : k = a := beq_iff_eq.mp hka
        rw [hk]
        exact hp
      | false =>
        rw [hka, Bool.false_or] at h
        exact ih k h
    · simp only [Bool.not_eq_true] at hp
      simp only [List.filter, hp] at h
      exact ih k h

set_option maxHeartbeats 2000000 in
/-- With no pattern rules, distinct schema keys, a distinct-keyed input
dict and pointwise-agreeing children, `Dict._validate_async` computes
exactly `Dict._validate`. -/
theorem vvalADict_eq (schema : List (String × Validator)) (addl : Addl)
    (minP maxP : Option Nat) (req ex : List String) (c : Core) (m : Entries)
    (path : List PathSeg)
    (hdist : distinctKeys (schema.map Prod.fst) = true)
    (hwfm : distinctKeys (Entries.keyList m) = true)
    (hch : ∀ key v, (key, v) ∈ schema → ∀ val p, Entries.lookup m key = some val →
      vvalA v val p = vval v val p)
    (hchA : ∀ vx, addl = .withV vx → ∀ k val p, Entries.lookup m k = some val →
      vvalA vx val p = vval vx val p) :
    vvalA (.dict schema addl [] minP maxP req ex c) (.dict m) path =
      vval (.dict schema addl [] minP maxP req ex c) (.dict m) path := by
  simp only [vvalA, vval]
  simp only [Value.isNull, Bool.false_and, Bool.false_eq_true, if_false]
  cases h1 : checkOpt minP (fun n => m.length < n)
      (fun n => "Object must have at least " ++ toString n ++ " properties")
      c path with
  | error e => simp [h1, Bind.bind, Except.bind]
  | ok u1 =>
    simp only [h1, Bind.bind, Except.bind]
    cases h2 : checkOpt maxP (fun n => m.length > n)
        (fun n => "Object must have at most " ++ toString n ++ " properties")
        c path with
    | error e => simp [h2, Bind.bind, Except.bind]
    | ok u2 =>
      simp only [h2, Bind.bind, Except.bind]
      cases h3 : guardCheck
          (!(req.filter (fun k => !Entries.hasKey m k && !ex.contains k)).isEmpty)
          ("Missing required properties: " ++ String.intercalate ", "
            (req.filter (fun k => !Entries.hasKey m k && !ex.contains k)))
          c path with
      | error e => simp [h3, Bind.bind, Except.bind]
      | ok u3 =>
        simp only [h3, Bind.bind, Except.bind, patternTasksA, patternsStep]
        rw [schemaStep_eq_tasks ex path schema m m [] hdist (fun k _ => rfl) hch]
        cases hpr : processResultsA m (schemaTasksA schema ex m path) with
        | error e => simp [hpr, Except.map, Bind.bind, Except.bind]
        | ok m₂ =>
          simp only [hpr, Except.map, Bind.bind, Except.bind, processResultsA,
            patternsStep, patternTasksA]
          have hkeys : Entries.keyList m₂ = Entries.keyList m :=
            processResultsA_keyList (schemaTasksA schema ex m path) m m₂ hpr
          have hlkp : ∀ k, (((schemaTasksA schema ex m path).map Prod.fst).foldl
              addKey []).contains k = false →
              Entries.lookup m₂ k = Entries.lookup m k := by
            intro k hk
            refine processResultsA_lookup_notin (schemaTasksA schema ex m path)
              m m₂ k hpr ?_
            cases hc : ((schemaTasksA schema ex m path).map Prod.fst).contains k with
            | false => rfl
            | true =>
              rw [foldl_addKey_mem ((schemaTasksA schema ex m path).map Prod.fst)
                [] k hc] at hk
              exact absurd hk (by simp)
          simp only [hkeys]
          cases addl with
          | allow => simp [processResultsA, hkeys]
          | forbid => simp [processResultsA, hkeys]
          | withV v =>
            have hdistks : distinctKeys ((Entries.keyList m).filter
                (fun k => !(((schemaTasksA schema ex m path).map Prod.fst).foldl
                  addKey []).contains k && !ex.contains k)) = true :=
              distinctKeys_filter _ (Entries.keyList m) hwfm
            have hlks : ∀ k, ((Entries.keyList m).filter
                (fun k => !(((schemaTasksA schema ex m path).map Prod.fst).foldl
                  addKey []).contains k && !ex.contains k)).contains k = true →
                Entries.lookup m₂ k = Entries.lookup m k := by
              intro k hk
              have hpk := contains_filter_prop _ (Entries.keyList m) k hk
              simp only [Bool.and_eq_true] at hpk
              obtain ⟨hnv, -⟩ := hpk
              refine hlkp k ?_
              cases hc : (((schemaTasksA schema ex m path).map Prod.fst).foldl
                  addKey []).contains k with
              | false => rfl
              | true => rw [hc] at hnv; simp at hnv
            by_cases hu : (!((Entries.keyList m).filter
                (fun k => !(((schemaTasksA schema ex m path).map Prod.fst).foldl
                  addKey []).contains k && !ex.contains k)).isEmpty) = true
            · simp only [hu, if_pos]
              rw [addlStep_eq_tasks v path ((Entries.keyList m).filter
                (fun k => !(((schemaTasksA schema ex m path).map Prod.fst).foldl
                  addKey []).contains k && !ex.contains k)) m₂ m hdistks hlks
                (hchA v rfl)]
            · simp only [Bool.not_eq_true] at hu
              have hks0 : ((Entries.keyList m).filter
                  (fun k => !(((schemaTasksA schema ex m path).map Prod.fst).foldl
                    addKey []).contains k && !ex.contains k)) = [] := by
                cases hk : (Entries.keyList m).filter
                    (fun k => !(((schemaTasksA schema ex m path).map Prod.fst).foldl
                      addKey []).contains k && !ex.contains k) with
                | nil => rfl
                | cons a b =>
                  rw [hk] at hu
                  simp [List.isEmpty] at hu
              simp only [hu, Bool.false_eq_true, if_false, hks0, addlTasksA,
                processResultsA, Bind.bind, Except.bind]
              simp

theorem Validator.msize_pos (v : Validator) : 1 ≤ v.msize := by
  cases v <;> simp [Validator.msize] <;> omega

set_option maxHeartbeats 2000000 in
/-- The core sync/async agreement, by strong induction on the validator
size: on inputs whose nested dicts have distinct keys, a `syncAsyncSafe`
validator's `_validate_async` computes exactly its `_validate`. -/
theorem vvalA_eq_vval_bound :
    ∀ (n : Nat) (v : Validator), v.msize ≤ n →
    ∀ (data : Value) (path : List PathSeg),
    v.syncAsyncSafe = true → data.wfKeys = true →
    vvalA v data path = vval v data path := by
  intro n
  induction n with
  | zero =>
    intro v hv
    exact absurd hv (by have := Validator.msize_pos v; omega)
  | succ n ih =>
    intro v hv data path hsafe hwf
    cases v with
    | string a b p t l u ne c => simp only [vvalA]
    | number a b i p neg mo c => simp only [vvalA]
    | boolean t c => simp only [vvalA]
    | anyV c => simp only [vvalA]
    | nullV c => simp only [vvalA]
    | list iv minL maxL u ne c =>
      simp only [Validator.syncAsyncSafe] at hsafe
      have hiv : ∀ ivv, iv = some ivv → ivv.syncAsyncSafe = true := by
        intro ivv he
        rw [he] at hsafe
        simpa [safeOpt] using hsafe
      have hsize : ∀ ivv, iv = some ivv → ivv.msize ≤ n := by
        intro ivv he
        rw [he] at hv
        simp only [Validator.msize, msizeOpt] at hv
        omega
      cases data with
      | list xs =>
        simp only [vvalA, vval, Value.isNull, Bool.false_and, Bool.false_eq_true,
          if_false]
        have hwfl : wfKeysList xs = true := by simpa [Value.wfKeys] using hwf
        exact vvalAListBody_eq iv minL maxL u ne c xs path
          (fun ivv he x hx p => ih ivv (hsize ivv he) x p (hiv ivv he)
            (wfKeysList_mem xs x hwfl hx))
      | tup xs =>
        simp only [vvalA, vval, Value.isNull, Bool.false_and, Bool.false_eq_true,
          if_false]
        have hwfl : wfKeysList xs = true := by simpa [Value.wfKeys] using hwf
        exact vvalAListBody_eq iv minL maxL u ne c xs path
          (fun ivv he x hx p => ih ivv (hsize ivv he) x p (hiv ivv he)
            (wfKeysList_mem xs x hwfl hx))
      | null => simp only [vvalA, vval]
      | bool b => simp only [vvalA, vval]
      | int i => simp only [vvalA, vval]
      | str s => simp only [vvalA, vval]
      | dict es => simp only [vvalA, vval]
    | dict schema addl pats minP maxP req ex c =>
      simp only [Validator.syncAsyncSafe, Bool.and_eq_true] at hsafe
      obtain ⟨⟨⟨hpE, hdist⟩, hsp⟩, hsa⟩ := hsafe
      have hpats : pats = [] := by
        cases pats with
        | nil => rfl
        | cons a b => simp [List.isEmpty] at hpE
      subst hpats
      cases data with
      | dict m =>
        simp only [Value.wfKeys, Bool.and_eq_true] at hwf
        obtain ⟨hdm, hwfe⟩ := hwf
        refine vvalADict_eq schema addl minP maxP req ex c m path hdist hdm ?_ ?_
        · intro key v hkv val p hl
          refine ih v ?_ val p (safePairs_mem schema key v hsp hkv)
            (wfKeysEntries_lookup m key val hwfe hl)
          have hms := msizePairs_mem schema key v hkv
          simp only [Validator.msize, msizePairs] at hv
          omega
        · intro vx he k val p hl
          subst he
          refine ih vx ?_ val p ?_ (wfKeysEntries_lookup m k val hwfe hl)
          · simp only [Validator.msize, msizeAddl, msizePairs] at hv
            omega
          · simpa [safeAddl] using hsa
      | null => simp only [vvalA, vval]
      | bool b => simp only [vvalA, vval]
      | int i => simp only [vvalA, vval]
      | str s => simp only [vvalA, vval]
      | list xs => simp only [vvalA, vval]
      | tup xs => simp only [vvalA, vval]
    | tuple ivs rv minL maxL c =>
      simp only [Validator.syncAsyncSafe, Bool.and_eq_true] at hsafe
      obtain ⟨⟨hlen, hsl⟩, hsr⟩ := hsafe
      have hmin : ivs.length ≤ minL := by simpa using hlen
      cases data with
      | list xs =>
        simp only [vvalA, vval, Value.isNull, Bool.false_and, Bool.false_eq_true,
          if_false]
        have hwfl : wfKeysList xs = true := by simpa [Value.wfKeys] using hwf
        refine vvalATupleBody_eq ivs rv minL maxL c xs path hmin ?_ ?_
        · intro v hvv x hx p
          refine ih v ?_ x p (safeList_mem ivs v hsl hvv)
            (wfKeysList_mem xs x hwfl hx)
          have hms := msizeList_mem ivs v hvv
          simp only [Validator.msize] at hv
          omega
        · intro rv' he x hx p
          subst he
          refine ih rv' ?_ x p ?_ (wfKeysList_mem xs x hwfl hx)
          · simp only [Validator.msize, msizeOpt] at hv
            omega
          · simpa [safeOpt] using hsr
      | tup xs =>
        simp only [vvalA, vval, Value.isNull, Bool.false_and, Bool.false_eq_true,
          if_false]
        have hwfl : wfKeysList xs = true := by simpa [Value.wfKeys] using hwf
        refine vvalATupleBody_eq ivs rv minL maxL c xs path hmin ?_ ?_
        · intro v hvv x hx p
          refine ih v ?_ x p (safeList_mem ivs v hsl hvv)
            (wfKeysList_mem xs x hwfl hx)
          have hms := msizeList_mem ivs v hvv
          simp only [Validator.msize] at hv
          omega
        · intro rv' he x hx p
          subst he
          refine ih rv' ?_ x p ?_ (wfKeysList_mem xs x hwfl hx)
          · simp only [Validator.msize, msizeOpt] at hv
            omega
          · simpa [safeOpt] using hsr
      | null => simp only [vvalA, vval]
      | bool b => simp only [vvalA, vval]
      | int i => simp only [vvalA, vval]
      | str s => simp only [vvalA, vval]
      | dict es => simp only [vvalA, vval]
    | union vs disc dmap c =>
      simp only [Validator.syncAsyncSafe, Bool.and_eq_true] at hsafe
      obtain ⟨hsl, hsm⟩ := hsafe
      have hch : ∀ v ∈ vs, ∀ p, vvalA v data p = vval v data p := by
        intro v hvv p
        refine ih v ?_ data p (safeList_mem vs v hsl hvv) hwf
        have hms := msizeList_mem vs v hvv
        simp only [Validator.msize] at hv
        omega
      have hchd : ∀ kv ∈ dmap, ∀ p,
          vvalA (Prod.snd kv) data p = vval (Prod.snd kv) data p := by
        intro kv hkv p
        obtain ⟨kk, vv⟩ := kv
        refine ih vv ?_ data p (safeVPairs_mem dmap kk vv hsm hkv) hwf
        have hms := msizeVPairs_mem dmap kk vv hkv
        simp only [Validator.msize] at hv
        omega
      cases disc with
      | none =>
        cases data <;>
          (simp only [vvalA, vval]; exact unionTasksA_eq c _ path vs hch 0 [])
      | some d =>
        cases data with
        | dict m =>
          simp only [vvalA, vval]
          by_cases hhk : (Entries.hasKey m d && !dmap.isEmpty) = true
          · simp only [hhk, if_pos]
            cases hlu : Entries.lookup m d with
            | some dval =>
              simp only [hlu]
              rw [discrStepA_eq dval (.dict m) path dmap hchd]
              cases hds : discrStep dmap dval (.dict m) path with
              | some r => simp [hds]
              | none =>
                simp only [hds]
                exact unionTasksA_eq c (.dict m) path vs hch 0 []
            | none =>
              simp only [hlu]
              exact unionTasksA_eq c (.dict m) path vs hch 0 []
          · simp only [Bool.not_eq_true] at hhk
            simp only [hhk, Bool.false_eq_true, if_false]
            exact unionTasksA_eq c (.dict m) path vs hch 0 []
        | null =>
          simp only [vvalA, vval]
          exact unionTasksA_eq c .null path vs hch 0 []
        | bool b =>
          simp only [vvalA, vval]
          exact unionTasksA_eq c (.bool b) path vs hch 0 []
        | int i =>
          simp only [vvalA, vval]
          exact unionTasksA_eq c (.int i) path vs hch 0 []
        | str s =>
          simp only [vvalA, vval]
          exact unionTasksA_eq c (.str s) path vs hch 0 []
        | list xs =>
          simp only [vvalA, vval]
          exact unionTasksA_eq c (.list xs) path vs hch 0 []
        | tup xs =>
          simp only [vvalA, vval]
          exact unionTasksA_eq c (.tup xs) path vs hch 0 []

set_option maxHeartbeats 4000000 in
/-- Claim C2, counterexample: with schema `{"ab": Number}` and pattern
rule `"a" -> Boolean(truthy)`, the input `{"ab": 5}` validates to
`{"ab": True}` synchronously (the pattern loop re-validates the schema
key and the truthy Boolean transforms `5`) but to `{"ab": 5}`
asynchronously (pattern tasks skip keys already validated by the
schema), so `validate_async` is not equivalent to `validate` on every
validator. -/
theorem c2_counterexample :
    Validator.validate
      (.dict [("ab", .number none none false false false none {})] .allow
        [("a", .boolean true {})] none none [] [] {})
      (.dict [("ab", .int 5)])
      = .ok (.dict [("ab", .bool true)]) ∧
    Validator.validateAsync
      (.dict [("ab", .number none none false false false none {})] .allow
        [("a", .boolean true {})] none none [] [] {})
      (.dict [("ab", .int 5)])
      = .ok (.dict [("ab", .int 5)]) := by
  constructor
  · simp +decide [Validator.validate, validateBase, vval, schemaStep, patternsStep,
      patternKeysStep, addlStep, Entries.lookup, Entries.set, Entries.hasKey,
      Entries.keyList, addKey, reMatch, Value.isNull, Value.typeName, Validator.core,
      Validator.isNullableClass, Core.getErrorMessage, guardCheck, checkOpt,
      siftWrapError, Bind.bind, Except.bind]
  · simp +decide [Validator.validateAsync, vvalA, vval, schemaTasksA, patternTasksA,
      patternKeysTasksA, addlTasksA, processResultsA, gatherFirstError,
      Entries.lookup, Entries.set, Entries.hasKey, Entries.keyList, addKey, reMatch,
      Value.isNull, Value.typeName, Validator.core, Validator.isNullableClass,
      Core.getErrorMessage, guardCheck, checkOpt, siftWrapError, Bind.bind,
      Except.bind]

/-- Claim C2 (amended): `validate_async` agrees with `validate` on
every validator whose dict nodes carry no pattern rules and have
distinct schema keys (`syncAsyncSafe`), for every input whose nested
dicts have distinct keys (`wfKeys`): the two `_validate` interpreters
agree at every node and path, `validate_async` computes the base
synchronous `validate`, and for every validator other than `Null`
(whose synchronous `validate` is overridden, claim C1) the two public
entry points return identical results. Validators with pattern rules
diverge: the synchronous pattern loop re-validates schema keys while
the asynchronous one skips validated keys. -/
theorem c2_sync_async_equiv (v : Validator) (data : Value)
    (hsafe : v.syncAsyncSafe = true) (hwf : data.wfKeys = true) :
    (∀ path, vvalA v data path = vval v data path) ∧
    v.validateAsync data = validateBase v data ∧
    ((∀ c, v ≠ .nullV c) → v.validateAsync data = v.validate data) := by
  have h1 : ∀ path, vvalA v data path = vval v data path :=
    fun path => vvalA_eq_vval_bound v.msize v le_rfl data path hsafe hwf
  refine ⟨h1, ?_, ?_⟩
  · simp only [Validator.validateAsync, validateBase, h1]
  · intro hnn
    rw [validate_eq_validateBase v hnn data]
    simp only [Validator.validateAsync, validateBase, h1]

/-- Witness for C2 at a concrete safe validator and input: a Dict of
one Number field applied to `{"a": 3}`. -/
theorem c2_witness :
    (∀ path,
      vvalA (.dict [("a", .number none none false false false none {})] .forbid
          [] none none ["a"] [] {}) (.dict [("a", .int 3)]) path =
      vval (.dict [("a", .number none none false false false none {})] .forbid
          [] none none ["a"] [] {}) (.dict [("a", .int 3)]) path) ∧
    (Validator.dict [("a", .number none none false false false none {})] .forbid
        [] none none ["a"] [] {}).validateAsync (.dict [("a", .int 3)]) =
      validateBase
        (.dict [("a", .number none none false false false none {})] .forbid
          [] none none ["a"] [] {}) (.dict [("a", .int 3)]) ∧
    ((∀ c, (Validator.dict [("a", .number none none false false false none {})]
        .forbid [] none none ["a"] [] {}) ≠ .nullV c) →
      (Validator.dict [("a", .number none none false false false none {})] .forbid
        [] none none ["a"] [] {}).validateAsync (.dict [("a", .int 3)]) =
      (Validator.dict [("a", .number none none false false false none {})] .forbid
        [] none none ["a"] [] {}).validate (.dict [("a", .int 3)])) :=
  c2_sync_async_equiv
    (.dict [("a", .number none none false false false none {})] .forbid
      [] none none ["a"] [] {})
    (.dict [("a", .int 3)])
    (by simp +decide [Validator.syncAsyncSafe, safePairs, safeAddl, distinctKeys])
    (by simp +decide [Value.wfKeys, wfKeysEntries, distinctKeys, Entries.keyList])

end Sift

